import Mathlib

/-!
Verification of the `rsaref-rs` RSA toolkit: a shallow embedding in Lean 4 of
the crate's multi-precision digit engine (`src/nn.rs`), the seeded PRNG
(`src/r_random.rs`) and the RSA key operations with PKCS#1 v1.5 padding
(`src/rsa.rs`), together with proofs and refutations of the specified
properties.

Modelling conventions:
* Byte strings are `List Nat`; the byte invariant (`< 256`) is carried as a
  hypothesis where it matters.
* `rsa::BigUint` (an external crate) is modelled by `Nat`; its `modpow` is
  modelled by `powMod` below (square-and-multiply, so that concrete witnesses
  evaluate inside the kernel), proved equal to `a ^ e % n`.
* The MD5 digest (external `md5` crate) is an opaque parameter
  `h : List Nat → List Nat`; the real digest always returns 16 bytes `< 256`,
  which the theorems assume via `HashGood`.
* Unbounded `loop`/`while` constructs are given explicit fuel; exhausting the
  fuel yields `none`, so `some` results correspond exactly to terminating runs
  of the Rust code.
* Rust integer-overflow panics (the `<<`/`>>` shift-overflow in
  `NNDigits::lshift`/`rshift`) are modelled by `Option`.
-/

set_option maxRecDepth 10000

/-! ### Big-endian byte encoding (`BigUint::from_bytes_be` / `RSASerialize::to_be`) -/

/-- `BigUint::from_bytes_be`: big-endian byte string to number. -/
def beVal (l : List Nat) : Nat := l.foldl (fun acc b => acc * 256 + b) 0

/-- `RSASerialize::to_be(v, k)`: the `k`-byte big-endian encoding of `v`,
truncating to the low `k` bytes when `v` needs more than `k` bytes (the Rust
code takes the low `k` little-endian bytes and reverses). -/
def toBE (v : Nat) : Nat → List Nat
  | 0 => []
  | k + 1 => toBE (v / 256) k ++ [v % 256]

/-- `u32::from_le_bytes` on a 4-byte list. -/
def fromLE4 (l : List Nat) : Nat :=
  l.getD 0 0 + 256 * (l.getD 1 0 + 256 * (l.getD 2 0 + 256 * l.getD 3 0))

theorem beVal_go (l : List Nat) (a : Nat) :
    l.foldl (fun acc b => acc * 256 + b) a = a * 256 ^ l.length + beVal l := by
  induction l generalizing a with
  | nil => simp [beVal]
  | cons b bs ih =>
    have hl : beVal (b :: bs) = b * 256 ^ bs.length + beVal bs := by
      have := ih b
      simp only [beVal, List.foldl_cons]
      simpa using this
    simp only [List.foldl_cons, List.length_cons, hl]
    rw [ih (a * 256 + b)]
    ring

theorem beVal_cons (b : Nat) (l : List Nat) :
    beVal (b :: l) = b * 256 ^ l.length + beVal l := by
  have := beVal_go l b
  simp only [beVal, List.foldl_cons]
  simpa using this

theorem beVal_singleton (b : Nat) : beVal [b] = b := by
  simp [beVal]

theorem beVal_append (l₁ l₂ : List Nat) :
    beVal (l₁ ++ l₂) = beVal l₁ * 256 ^ l₂.length + beVal l₂ := by
  simpa [beVal, List.foldl_append] using beVal_go l₂ (beVal l₁)

theorem beVal_lt (l : List Nat) (hl : ∀ b ∈ l, b < 256) :
    beVal l < 256 ^ l.length := by
  induction l with
  | nil => simp [beVal]
  | cons b bs ih =>
    rw [beVal_cons, List.length_cons]
    have hb : b < 256 := hl b (List.mem_cons_self ..)
    have hbs : beVal bs < 256 ^ bs.length := ih fun x hx => hl x (List.mem_cons_of_mem _ hx)
    calc b * 256 ^ bs.length + beVal bs
        < (b + 1) * 256 ^ bs.length := by
          have := Nat.pos_pow_of_pos bs.length (show 0 < 256 by norm_num)
          nlinarith
      _ ≤ 256 * 256 ^ bs.length := Nat.mul_le_mul_right _ (by omega)
      _ = 256 ^ (bs.length + 1) := by ring

theorem toBE_length (v k : Nat) : (toBE v k).length = k := by
  induction k generalizing v with
  | zero => rfl
  | succ k ih => simp [toBE, ih]

theorem toBE_bytes (v k : Nat) : ∀ b ∈ toBE v k, b < 256 := by
  induction k generalizing v with
  | zero => simp [toBE]
  | succ k ih =>
    intro b hb
    simp only [toBE, List.mem_append, List.mem_singleton] at hb
    rcases hb with hb | hb
    · exact ih _ b hb
    · subst hb; exact Nat.mod_lt _ (by norm_num)

theorem beVal_toBE (v k : Nat) : beVal (toBE v k) = v % 256 ^ k := by
  induction k generalizing v with
  | zero => simp [toBE, beVal, Nat.mod_one]
  | succ k ih =>
    rw [toBE, beVal_append, beVal_singleton, ih]
    rw [pow_succ', Nat.mod_mul]
    simp [List.length_singleton]
    ring

theorem toBE_beVal (l : List Nat) (hl : ∀ b ∈ l, b < 256) :
    toBE (beVal l) l.length = l := by
  induction l using List.reverseRecOn with
  | nil => rfl
  | append_singleton bs b ih =>
    have hb : b < 256 := hl b (by simp)
    have hbs : ∀ x ∈ bs, x < 256 := fun x hx => hl x (by simp [hx])
    rw [beVal_append, beVal_singleton, List.length_append, List.length_singleton,
      pow_one]
    rw [toBE]
    have h1 : (beVal bs * 256 + b) / 256 = beVal bs := by omega
    have h2 : (beVal bs * 256 + b) % 256 = b := by omega
    rw [h1, h2, ih hbs]

/-! ### Modular exponentiation (`BigUint::modpow`) -/

/-- Square-and-multiply core of `powMod`; the first argument is fuel bounding
the number of halvings of the exponent. -/
def powModGo : Nat → Nat → Nat → Nat → Nat
  | 0, _, _, n => 1 % n
  | f + 1, a, e, n =>
    if e = 0 then 1 % n
    else
      let h := powModGo f a (e / 2) n
      let h2 := h * h % n
      if e % 2 = 1 then h2 * (a % n) % n else h2

/-- Model of `BigUint::modpow(a, e, n)`. -/
def powMod (a e n : Nat) : Nat := powModGo e a e n

theorem powModGo_correct (f a e n : Nat) (he : e < 2 ^ f) :
    powModGo f a e n = a ^ e % n := by
  induction f generalizing e with
  | zero =>
    interval_cases e
    simp [powModGo]
  | succ f ih =>
    rw [powModGo]
    by_cases he0 : e = 0
    · simp [he0]
    · rw [if_neg he0]
      have hediv : e / 2 < 2 ^ f := by
        rw [pow_succ] at he
        omega
      have key : powModGo f a (e / 2) n * powModGo f a (e / 2) n % n
          = a ^ (e / 2 + e / 2) % n := by
        rw [ih _ hediv, ← Nat.mul_mod, ← pow_add]
      by_cases hpar : e % 2 = 1
      · simp only [hpar, if_pos, key]
        rw [← Nat.mul_mod, ← pow_succ]
        congr 2
        omega
      · simp only [hpar, key, if_false]
        congr 2
        omega

theorem powMod_correct (a e n : Nat) : powMod a e n = a ^ e % n :=
  powModGo_correct e a e n (Nat.lt_two_pow e)

theorem powMod_lt (a e n : Nat) (hn : 0 < n) : powMod a e n < n := by
  rw [powMod_correct a e n]
  exact Nat.mod_lt _ hn

/-! ### Primality certificates (Lucas), used to certify the concrete RSA keys -/

/-- Every prime divisor of a product of prime powers is one of the bases. -/
theorem prime_dvd_prime_pow_list {r : Nat} (hr : r.Prime) :
    ∀ fps : List (Nat × Nat), (∀ fk ∈ fps, (fk.1).Prime) →
      r ∣ (fps.map fun fk => fk.1 ^ fk.2).prod → ∃ fk ∈ fps, r = fk.1 := by
  intro fps
  induction fps with
  | nil =>
    intro _ hdvd
    simp only [List.map_nil, List.prod_nil, Nat.dvd_one] at hdvd
    exact absurd hdvd hr.ne_one
  | cons fk fps ih =>
    intro hprimes hdvd
    simp only [List.map_cons, List.prod_cons] at hdvd
    rcases (Nat.Prime.dvd_mul hr).mp hdvd with h | h
    · refine ⟨fk, List.mem_cons_self .., ?_⟩
      have hf : (fk.1).Prime := hprimes fk (List.mem_cons_self ..)
      exact (Nat.prime_dvd_prime_iff_eq hr hf).mp (hr.dvd_of_dvd_pow h)
    · obtain ⟨gk, hgk, heq⟩ :=
        ih (fun x hx => hprimes x (List.mem_cons_of_mem _ hx)) h
      exact ⟨gk, List.mem_cons_of_mem _ hgk, heq⟩

/-- Lucas primality certificate stated over the executable `powMod`: if
`a ^ (p-1) ≡ 1 (mod p)` while `a ^ ((p-1)/f) ≢ 1 (mod p)` for every prime `f`
in a complete factorisation of `p - 1`, then `p` is prime. -/
theorem prime_of_lucas_cert (p a : Nat) (fps : List (Nat × Nat))
    (hp2 : 2 ≤ p)
    (hfac : (fps.map fun fk => fk.1 ^ fk.2).prod = p - 1)
    (hprimes : ∀ fk ∈ fps, (fk.1).Prime)
    (ha : powMod a (p - 1) p = 1)
    (hd : ∀ fk ∈ fps, powMod a ((p - 1) / fk.1) p ≠ 1) :
    p.Prime := by
  have hp0 : 0 < p := by omega
  have cast_pow : ∀ m : Nat, (a : ZMod p) ^ m = ((powMod a m p : Nat) : ZMod p) := by
    intro m
    rw [powMod_correct, ZMod.natCast_mod, Nat.cast_pow]
  refine lucas_primality p (a : ZMod p) ?_ ?_
  · rw [cast_pow, ha, Nat.cast_one]
  · intro r hr hrdvd
    obtain ⟨fk, hfk, rfl⟩ := prime_dvd_prime_pow_list hr fps hprimes (hfac ▸ hrdvd)
    intro hone
    rw [cast_pow] at hone
    have h1 : ((powMod a ((p - 1) / fk.1) p : Nat) : ZMod p) = ((1 : Nat) : ZMod p) := by
      rw [hone, Nat.cast_one]
    rw [ZMod.natCast_eq_natCast_iff'] at h1
    have hlt : powMod a ((p - 1) / fk.1) p < p := powMod_lt _ _ _ hp0
    rw [Nat.mod_eq_of_lt hlt, Nat.mod_eq_of_lt (by omega)] at h1
    exact hd fk hfk h1

/-! ### Concrete certified primes for the witness keys

`pA`/`qA` form a 512-bit modulus; `pB`/`qB` a 520-bit modulus.  All four are
Proth-form primes `c * 2^k + 1`, so `p - 1` factors into small primes and a
power of two, which the Lucas certificates below exploit. -/

def pA : Nat := 115701980037012497822762236836150019008962782986899907472593382091647206031361

def qA : Nat := 115451087753813967247961408591044524579715280273543569580540114011063654023169

def pB : Nat := 1839584624741180855663582692253502985287069753942194439389556485387434346938369

def qB : Nat := 1835004957149275283481302785131577340494044915681492835050105282113683876478977

theorem pA_prime : Nat.Prime pA := by
  refine prime_of_lucas_cert pA 15 [(2, 240), (5, 1), (7, 1), (1871, 1)]
    (by decide) (by decide) ?_ (by decide) ?_
  · intro fk hfk
    fin_cases hfk <;> norm_num
  · intro fk hfk
    fin_cases hfk <;> decide

theorem qA_prime : Nat.Prime qA := by
  refine prime_of_lucas_cert qA 7 [(2, 240), (3, 1), (23, 1), (947, 1)]
    (by decide) (by decide) ?_ (by decide) ?_
  · intro fk hfk
    fin_cases hfk <;> norm_num
  · intro fk hfk
    fin_cases hfk <;> decide

theorem pB_prime : Nat.Prime pB := by
  refine prime_of_lucas_cert pB 11 [(2, 244), (3, 1), (109, 1), (199, 1)]
    (by decide) (by decide) ?_ (by decide) ?_
  · intro fk hfk
    fin_cases hfk <;> norm_num
  · intro fk hfk
    fin_cases hfk <;> decide

theorem qB_prime : Nat.Prime qB := by
  refine prime_of_lucas_cert qB 10 [(2, 244), (3, 1), (7, 1), (11, 1), (281, 1)]
    (by decide) (by decide) ?_ (by decide) ?_
  · intro fk hfk
    fin_cases hfk <;> norm_num
  · intro fk hfk
    fin_cases hfk <;> decide

/-! ### The digit engine (`src/nn.rs`)

`NNDigit` is a newtype over `u32`; digits are modelled as `Nat` with the
`< 2^32` invariant (`nnNorm`) carried as a hypothesis.  The `assert!`
preconditions of the binary operations (equal digit counts, nonzero divisor)
appear as hypotheses of the theorems; the shift-overflow panic inside
`lshift`/`rshift` (hit when `bits = 0`) is modelled by `Option`. -/

structure NNDigits where
  digits : List Nat
  deriving Repr, DecidableEq

/-- `NNDigits::zero()`. -/
def NNDigits.zero : NNDigits := ⟨[0]⟩

/-- `NNDigits::set_digit_count`: truncate (`drain`) or extend with zero digits. -/
def NNDigits.set_digit_count (self : NNDigits) (digit_count : Nat) : NNDigits :=
  if digit_count < self.digits.length then ⟨self.digits.take digit_count⟩
  else ⟨self.digits ++ List.replicate (digit_count - self.digits.length) 0⟩

/-- `NNDigits::assign_2_exp` (the method overwrites `self`, so it is modelled
as a constructor). -/
def NNDigits.assign_2_exp (exp : Nat) : NNDigits :=
  ⟨(List.replicate (exp / 32 + 1) 0).set (exp / 32) (1 <<< (exp % 32))⟩

/-- Digit-wise addition with carry, mirroring the `checked_add` case analysis
of `NNDigits::add` (first branch: `n1 + carry` overflowed, so the digit is
`n2` and the carry is left unchanged). -/
def NNDigits.addGo : List Nat → List Nat → Nat → List Nat
  | n1 :: ds1, n2 :: ds2, carry =>
    if n1 + carry ≥ 2 ^ 32 then
      n2 :: NNDigits.addGo ds1 ds2 carry
    else if n1 + carry + n2 ≥ 2 ^ 32 then
      (n1 + carry + n2) % 2 ^ 32 :: NNDigits.addGo ds1 ds2 1
    else
      (n1 + carry + n2) :: NNDigits.addGo ds1 ds2 0
  | _, _, _ => []

/-- `NNDigits::add` (requires equal digit counts; like the `zip` in the
source, `addGo` truncates to the shorter operand). -/
def NNDigits.add (self other : NNDigits) : NNDigits :=
  ⟨NNDigits.addGo self.digits other.digits 0⟩

/-- Digit-wise subtraction with borrow, mirroring the `checked_sub` case
analysis of `NNDigits::sub` (first branch: `n1 - borrow` underflowed, so the
digit is `u32::MAX - n2` and the borrow is left unchanged). -/
def NNDigits.subGo : List Nat → List Nat → Nat → List Nat
  | n1 :: ds1, n2 :: ds2, borrow =>
    if n1 < borrow then
      (2 ^ 32 - 1 - n2) :: NNDigits.subGo ds1 ds2 borrow
    else if n1 - borrow < n2 then
      (n1 - borrow + 2 ^ 32 - n2) :: NNDigits.subGo ds1 ds2 1
    else
      (n1 - borrow - n2) :: NNDigits.subGo ds1 ds2 0
  | _, _, _ => []

/-- `NNDigits::sub`. -/
def NNDigits.sub (self other : NNDigits) : NNDigits :=
  ⟨NNDigits.subGo self.digits other.digits 0⟩

/-- Inner loop of `NNDigits::mult`: for a fixed digit `d1` at index `i1`,
accumulate the partial products `d1 * d2` (split into a low and a high digit
at offset `i1 + i2`) into the double-width accumulator. -/
def NNDigits.multInner (d1 i1 : Nat) : List Nat → Nat → NNDigits → NNDigits
  | [], _, acc => acc
  | d2 :: ds2, i2, acc =>
    let mul := d1 * d2
    let lower_digit_n := mul % 2 ^ 32
    let higher_digit_n := mul / 2 ^ 32 % 2 ^ 32
    let digit_shift := i1 + i2
    let add_digits : NNDigits :=
      ⟨((NNDigits.zero.set_digit_count acc.digits.length).digits.set
          digit_shift lower_digit_n).set (digit_shift + 1) higher_digit_n⟩
    NNDigits.multInner d1 i1 ds2 (i2 + 1) (acc.add add_digits)

/-- Outer loop of `NNDigits::mult` over the digits of `self`. -/
def NNDigits.multOuter (other : List Nat) : List Nat → Nat → NNDigits → NNDigits
  | [], _, acc => acc
  | d1 :: ds1, i1, acc =>
    NNDigits.multOuter other ds1 (i1 + 1) (NNDigits.multInner d1 i1 other 0 acc)

/-- `NNDigits::mult`: schoolbook multiplication into a `2×`-width accumulator,
truncated back to the operand width. -/
def NNDigits.mult (self other : NNDigits) : NNDigits :=
  let accumulator := NNDigits.zero.set_digit_count (self.digits.length * 2)
  (NNDigits.multOuter other.digits self.digits 0 accumulator).set_digit_count
    self.digits.length

/-- Shift-left loop of `NNDigits::lshift`; `none` models the Rust
shift-overflow panic in `source.n >> (u32::BITS - bits)` when `bits = 0`. -/
def NNDigits.lshiftGo (bits : Nat) : List Nat → Nat → Option (List Nat)
  | [], _ => some []
  | d :: ds, shifted =>
    if 32 ≤ 32 - bits then none
    else
      match NNDigits.lshiftGo bits ds (d >>> (32 - bits)) with
      | none => none
      | some rest => some (((d <<< bits) % 2 ^ 32 ||| shifted) :: rest)

/-- `NNDigits::lshift` (asserts `bits < 32`; panics on `bits = 0` with a
nonempty digit list, both modelled by `none`). -/
def NNDigits.lshift (self : NNDigits) (bits : Nat) : Option NNDigits :=
  if bits < 32 then (NNDigits.lshiftGo bits self.digits 0).map (⟨·⟩) else none

/-- Shift-right loop of `NNDigits::rshift`, processing the digit sequence in
reverse (most significant first, as the `.rev()` in the source); `none`
models the shift-overflow panic in `source.n << (u32::BITS - bits)`. -/
def NNDigits.rshiftGo (bits : Nat) : List Nat → Nat → Option (List Nat)
  | [], _ => some []
  | d :: ds, shifted =>
    if 32 ≤ 32 - bits then none
    else
      match NNDigits.rshiftGo bits ds ((d <<< (32 - bits)) % 2 ^ 32) with
      | none => none
      | some rest => some ((d >>> bits ||| shifted) :: rest)

/-- `NNDigits::rshift`. -/
def NNDigits.rshift (self : NNDigits) (bits : Nat) : Option NNDigits :=
  if bits < 32 then
    (NNDigits.rshiftGo bits self.digits.reverse 0).map (fun l => ⟨l.reverse⟩)
  else none

/-- Scan of `NNDigits::compare`, over the reversed zip (most significant digit
pair first). -/
def NNDigits.compareGo : List (Nat × Nat) → Ordering
  | [] => .eq
  | p :: ps =>
    if p.1 > p.2 then .gt
    else if p.1 < p.2 then .lt
    else NNDigits.compareGo ps

/-- `NNDigits::compare` (requires equal digit counts). -/
def NNDigits.compare (self other : NNDigits) : Ordering :=
  NNDigits.compareGo ((self.digits.zip other.digits).reverse)

/-- The bit loop of `NNDigits::divmod`, iterating `i` from high to low; the
local names `divisor`/`dividend` follow the (swapped) naming of the source,
where `divisor` holds the dividend `self` and `dividend` the divisor `other`. -/
def NNDigits.divmodGo (divisor dividend : NNDigits) : Nat → NNDigits → NNDigits
  | 0, quotient => quotient
  | i + 1, quotient =>
    let nn_bit := (NNDigits.assign_2_exp i).set_digit_count divisor.digits.length
    let quotient_high := quotient.add nn_bit
    let try_mult_high := quotient_high.mult dividend
    if (try_mult_high.compare divisor).isLE then
      NNDigits.divmodGo divisor dividend i quotient_high
    else
      NNDigits.divmodGo divisor dividend i quotient

/-- `NNDigits::divmod` (requires equal digit counts and a nonzero `other`,
asserted in the source and hypotheses of the theorems below). -/
def NNDigits.divmod (self other : NNDigits) : NNDigits × NNDigits :=
  let zero := NNDigits.zero.set_digit_count self.digits.length
  let divisor := self.set_digit_count (self.digits.length * 2)
  let dividend := other.set_digit_count (other.digits.length * 2)
  let quotient₀ := zero.set_digit_count (zero.digits.length * 2)
  let quotient :=
    NNDigits.divmodGo divisor dividend (self.digits.length * 32) quotient₀
  let modulus :=
    (divisor.sub (quotient.mult dividend)).set_digit_count self.digits.length
  (quotient.set_digit_count self.digits.length, modulus)

/-- Value of a little-endian digit list. -/
def nnVal : List Nat → Nat
  | [] => 0
  | d :: ds => d + 2 ^ 32 * nnVal ds

/-- Value of an `NNDigits`. -/
def NNDigits.val (self : NNDigits) : Nat := nnVal self.digits

/-- All digits below the `u32` bound. -/
def nnNorm (l : List Nat) : Prop := ∀ d ∈ l, d < 2 ^ 32

instance nnNorm.decidable (l : List Nat) : Decidable (nnNorm l) :=
  inferInstanceAs (Decidable (∀ d ∈ l, d < 2 ^ 32))

/-! ### Digit-engine arithmetic lemmas -/

theorem nnVal_lt (l : List Nat) (h : nnNorm l) : nnVal l < 2 ^ (32 * l.length) := by
  induction l with
  | nil => simp [nnVal]
  | cons d ds ih =>
    have hd : d < 2 ^ 32 := h d (List.mem_cons_self ..)
    have hds : nnVal ds < 2 ^ (32 * ds.length) :=
      ih fun x hx => h x (List.mem_cons_of_mem _ hx)
    rw [nnVal, List.length_cons, Nat.mul_succ, pow_add, Nat.mul_comm (2 ^ (32 * ds.length))]
    nlinarith

theorem pow32_succ (m : Nat) : 2 ^ (32 * (m + 1)) = 2 ^ 32 * 2 ^ (32 * m) := by
  rw [Nat.mul_succ, pow_add, Nat.mul_comm]

/-- Splitting a residue: if `x < 2^32` then
`(x + 2^32 * y) % 2^(32*(m+1)) = x + 2^32 * (y % 2^(32*m))`. -/
theorem nnMod_split (x y m : Nat) (hx : x < 2 ^ 32) :
    (x + 2 ^ 32 * y) % 2 ^ (32 * (m + 1)) = x + 2 ^ 32 * (y % 2 ^ (32 * m)) := by
  rw [pow32_succ, Nat.mod_mul]
  congr 1
  · rw [Nat.add_mul_mod_self_left, Nat.mod_eq_of_lt hx]
  · congr 1
    rw [Nat.add_mul_div_left _ _ (by norm_num : 0 < 2 ^ 32),
      Nat.div_eq_of_lt hx, Nat.zero_add]

theorem nnVal_replicate_zero (m : Nat) : nnVal (List.replicate m 0) = 0 := by
  induction m with
  | zero => rfl
  | succ m ih => simp [List.replicate_succ, nnVal, ih]

theorem nnVal_append (l₁ l₂ : List Nat) :
    nnVal (l₁ ++ l₂) = nnVal l₁ + 2 ^ (32 * l₁.length) * nnVal l₂ := by
  induction l₁ with
  | nil => simp [nnVal]
  | cons d ds ih =>
    rw [List.cons_append, nnVal, ih, nnVal, List.length_cons, pow32_succ]
    ring

theorem nnVal_singleton (x : Nat) : nnVal [x] = x := by
  simp [nnVal]

theorem nnVal_take (l : List Nat) (k : Nat) (h : nnNorm l) :
    nnVal (l.take k) = nnVal l % 2 ^ (32 * k) := by
  induction l generalizing k with
  | nil => simp [nnVal, List.take_nil]
  | cons d ds ih =>
    cases k with
    | zero => simp [nnVal, Nat.mod_one]
    | succ k =>
      have hd : d < 2 ^ 32 := h d (List.mem_cons_self ..)
      have hds : nnNorm ds := fun x hx => h x (List.mem_cons_of_mem _ hx)
      rw [List.take_succ_cons, nnVal, nnVal, ih k hds, nnMod_split _ _ _ hd]

theorem nnNorm_take (l : List Nat) (k : Nat) (h : nnNorm l) : nnNorm (l.take k) :=
  fun x hx => h x (List.mem_of_mem_take hx)

theorem nnNorm_append (l₁ l₂ : List Nat) (h₁ : nnNorm l₁) (h₂ : nnNorm l₂) :
    nnNorm (l₁ ++ l₂) := by
  intro x hx
  rcases List.mem_append.mp hx with hx | hx
  · exact h₁ x hx
  · exact h₂ x hx

theorem nnNorm_replicate_zero (m : Nat) : nnNorm (List.replicate m 0) := by
  intro x hx
  rw [List.eq_of_mem_replicate hx]
  norm_num

theorem set_digit_count_length (x : NNDigits) (k : Nat) :
    (x.set_digit_count k).digits.length = k := by
  rw [NNDigits.set_digit_count]
  by_cases h : k < x.digits.length
  · simp only [h, if_true, List.length_take]
    omega
  · simp only [h, if_false]
    simp only [List.length_append, List.length_replicate]
    omega

theorem set_digit_count_norm (x : NNDigits) (k : Nat) (h : nnNorm x.digits) :
    nnNorm (x.set_digit_count k).digits := by
  rw [NNDigits.set_digit_count]
  by_cases hk : k < x.digits.length
  · simp only [hk, if_true]
    exact nnNorm_take _ _ h
  · simp only [hk, if_false]
    exact nnNorm_append _ _ h (nnNorm_replicate_zero _)

theorem set_digit_count_val (x : NNDigits) (k : Nat) (h : nnNorm x.digits) :
    nnVal (x.set_digit_count k).digits = nnVal x.digits % 2 ^ (32 * k) := by
  rw [NNDigits.set_digit_count]
  by_cases hk : k < x.digits.length
  · simp only [hk, if_true]
    exact nnVal_take _ _ h
  · simp only [hk, if_false]
    rw [nnVal_append, nnVal_replicate_zero, Nat.mul_zero, Nat.add_zero]
    rw [Nat.mod_eq_of_lt]
    calc nnVal x.digits < 2 ^ (32 * x.digits.length) := nnVal_lt _ h
      _ ≤ 2 ^ (32 * k) := Nat.pow_le_pow_right (by norm_num) (by omega)

theorem set_digit_count_val_ext (x : NNDigits) (k : Nat) (h : nnNorm x.digits)
    (hk : x.digits.length ≤ k) :
    nnVal (x.set_digit_count k).digits = nnVal x.digits := by
  rw [set_digit_count_val x k h, Nat.mod_eq_of_lt]
  calc nnVal x.digits < 2 ^ (32 * x.digits.length) := nnVal_lt _ h
    _ ≤ 2 ^ (32 * k) := Nat.pow_le_pow_right (by norm_num) (by omega)

theorem addGo_spec (a : List Nat) : ∀ (b : List Nat) (c : Nat), nnNorm a → nnNorm b →
    a.length = b.length → c ≤ 1 →
    nnVal (NNDigits.addGo a b c) = (nnVal a + nnVal b + c) % 2 ^ (32 * a.length) ∧
    (NNDigits.addGo a b c).length = a.length ∧ nnNorm (NNDigits.addGo a b c) := by
  induction a with
  | nil =>
    intro b c _ _ hlen _
    cases b with
    | nil => refine ⟨by simp [NNDigits.addGo, nnVal, Nat.mod_one], rfl, by intro x hx; cases hx⟩
    | cons n2 ds2 => cases hlen
  | cons n1 ds1 ih =>
    intro b c ha hb hlen hc
    cases b with
    | nil => cases hlen
    | cons n2 ds2 =>
      have hn1 : n1 < 2 ^ 32 := ha n1 (List.mem_cons_self ..)
      have hn2 : n2 < 2 ^ 32 := hb n2 (List.mem_cons_self ..)
      have hds1 : nnNorm ds1 := fun x hx => ha x (List.mem_cons_of_mem _ hx)
      have hds2 : nnNorm ds2 := fun x hx => hb x (List.mem_cons_of_mem _ hx)
      have hlen' : ds1.length = ds2.length := by simpa using hlen
      have hA : nnVal ds1 < 2 ^ (32 * ds1.length) := nnVal_lt _ hds1
      rw [NNDigits.addGo]
      by_cases h1 : n1 + c ≥ 2 ^ 32
      · rw [if_pos h1]
        obtain ⟨iv, il, inn⟩ := ih ds2 c hds1 hds2 hlen' hc
        refine ⟨?_, by simp [il], ?_⟩
        · rw [nnVal, nnVal, nnVal, iv, List.length_cons]
          rw [show n1 + 2 ^ 32 * nnVal ds1 + (n2 + 2 ^ 32 * nnVal ds2) + c
              = n2 + 2 ^ 32 * (nnVal ds1 + nnVal ds2 + c) by omega]
          rw [nnMod_split _ _ _ hn2]
        · intro x hx
          rcases List.mem_cons.mp hx with rfl | hx
          · exact hn2
          · exact inn x hx
      · rw [if_neg h1]
        by_cases h2 : n1 + c + n2 ≥ 2 ^ 32
        · rw [if_pos h2]
          obtain ⟨iv, il, inn⟩ := ih ds2 1 hds1 hds2 hlen' (le_refl 1)
          refine ⟨?_, by simp [il], ?_⟩
          · rw [nnVal, nnVal, nnVal, iv, List.length_cons]
            rw [show n1 + 2 ^ 32 * nnVal ds1 + (n2 + 2 ^ 32 * nnVal ds2) + c
                = (n1 + c + n2) % 2 ^ 32 + 2 ^ 32 * (nnVal ds1 + nnVal ds2 + 1) by omega]
            rw [nnMod_split _ _ _ (Nat.mod_lt _ (by norm_num))]
          · intro x hx
            rcases List.mem_cons.mp hx with rfl | hx
            · exact Nat.mod_lt _ (by norm_num)
            · exact inn x hx
        · rw [if_neg h2]
          obtain ⟨iv, il, inn⟩ := ih ds2 0 hds1 hds2 hlen' (Nat.zero_le 1)
          refine ⟨?_, by simp [il], ?_⟩
          · rw [nnVal, nnVal, nnVal, iv, List.length_cons]
            rw [show n1 + 2 ^ 32 * nnVal ds1 + (n2 + 2 ^ 32 * nnVal ds2) + c
                = (n1 + c + n2) + 2 ^ 32 * (nnVal ds1 + nnVal ds2 + 0) by omega]
            rw [nnMod_split _ _ _ (by omega)]
          · intro x hx
            rcases List.mem_cons.mp hx with rfl | hx
            · omega
            · exact inn x hx

theorem subGo_spec (a : List Nat) : ∀ (b : List Nat) (br : Nat), nnNorm a → nnNorm b →
    a.length = b.length → br ≤ 1 →
    nnVal (NNDigits.subGo a b br)
      = (nnVal a + 2 ^ (32 * a.length) - nnVal b - br) % 2 ^ (32 * a.length) ∧
    (NNDigits.subGo a b br).length = a.length ∧ nnNorm (NNDigits.subGo a b br) := by
  induction a with
  | nil =>
    intro b br _ _ hlen _
    cases b with
    | nil => refine ⟨by simp [NNDigits.subGo, nnVal, Nat.mod_one], rfl, by intro x hx; cases hx⟩
    | cons n2 ds2 => cases hlen
  | cons n1 ds1 ih =>
    intro b br ha hb hlen hbr
    cases b with
    | nil => cases hlen
    | cons n2 ds2 =>
      have hn1 : n1 < 2 ^ 32 := ha n1 (List.mem_cons_self ..)
      have hn2 : n2 < 2 ^ 32 := hb n2 (List.mem_cons_self ..)
      have hds1 : nnNorm ds1 := fun x hx => ha x (List.mem_cons_of_mem _ hx)
      have hds2 : nnNorm ds2 := fun x hx => hb x (List.mem_cons_of_mem _ hx)
      have hlen' : ds1.length = ds2.length := by simpa using hlen
      have hA : nnVal ds1 < 2 ^ (32 * ds1.length) := nnVal_lt _ hds1
      have hB : nnVal ds2 < 2 ^ (32 * ds2.length) := nnVal_lt _ hds2
      rw [← hlen'] at hB
      rw [NNDigits.subGo]
      by_cases h1 : n1 < br
      · rw [if_pos h1]
        obtain ⟨iv, il, inn⟩ := ih ds2 br hds1 hds2 hlen' hbr
        refine ⟨?_, by simp [il], ?_⟩
        · rw [nnVal, nnVal, nnVal, iv, List.length_cons]
          rw [show n1 + 2 ^ 32 * nnVal ds1 + 2 ^ (32 * (ds1.length + 1)) - (n2 + 2 ^ 32 * nnVal ds2) - br
              = 2 ^ 32 - 1 - n2 + 2 ^ 32 * (nnVal ds1 + 2 ^ (32 * ds1.length) - nnVal ds2 - br) by
                rw [pow32_succ]; omega]
          rw [nnMod_split _ _ _ (by omega)]
        · intro x hx
          rcases List.mem_cons.mp hx with rfl | hx
          · omega
          · exact inn x hx
      · rw [if_neg h1]
        by_cases h2 : n1 - br < n2
        · rw [if_pos h2]
          obtain ⟨iv, il, inn⟩ := ih ds2 1 hds1 hds2 hlen' (le_refl 1)
          refine ⟨?_, by simp [il], ?_⟩
          · rw [nnVal, nnVal, nnVal, iv, List.length_cons]
            rw [show n1 + 2 ^ 32 * nnVal ds1 + 2 ^ (32 * (ds1.length + 1)) - (n2 + 2 ^ 32 * nnVal ds2) - br
                = n1 - br + 2 ^ 32 - n2 + 2 ^ 32 * (nnVal ds1 + 2 ^ (32 * ds1.length) - nnVal ds2 - 1) by
                  rw [pow32_succ]; omega]
            rw [nnMod_split _ _ _ (by omega)]
          · intro x hx
            rcases List.mem_cons.mp hx with rfl | hx
            · omega
            · exact inn x hx
        · rw [if_neg h2]
          obtain ⟨iv, il, inn⟩ := ih ds2 0 hds1 hds2 hlen' (Nat.zero_le 1)
          refine ⟨?_, by simp [il], ?_⟩
          · rw [nnVal, nnVal, nnVal, iv, List.length_cons]
            rw [show n1 + 2 ^ 32 * nnVal ds1 + 2 ^ (32 * (ds1.length + 1)) - (n2 + 2 ^ 32 * nnVal ds2) - br
                = n1 - br - n2 + 2 ^ 32 * (nnVal ds1 + 2 ^ (32 * ds1.length) - nnVal ds2 - 0) by
                  rw [pow32_succ]; omega]
            rw [nnMod_split _ _ _ (by omega)]
          · intro x hx
            rcases List.mem_cons.mp hx with rfl | hx
            · omega
            · exact inn x hx

/-- `add` on equal-width normalised operands computes the sum modulo the
width. -/
theorem add_spec (x y : NNDigits) (hx : nnNorm x.digits) (hy : nnNorm y.digits)
    (hlen : x.digits.length = y.digits.length) :
    nnVal (x.add y).digits = (nnVal x.digits + nnVal y.digits) % 2 ^ (32 * x.digits.length) ∧
    (x.add y).digits.length = x.digits.length ∧ nnNorm (x.add y).digits := by
  have := addGo_spec x.digits y.digits 0 hx hy hlen (Nat.zero_le 1)
  simpa [NNDigits.add] using this

/-- `sub` on equal-width normalised operands computes the difference modulo
the width (two's-complement style wraparound). -/
theorem sub_spec (x y : NNDigits) (hx : nnNorm x.digits) (hy : nnNorm y.digits)
    (hlen : x.digits.length = y.digits.length) :
    nnVal (x.sub y).digits
      = (nnVal x.digits + 2 ^ (32 * x.digits.length) - nnVal y.digits) % 2 ^ (32 * x.digits.length) ∧
    (x.sub y).digits.length = x.digits.length ∧ nnNorm (x.sub y).digits := by
  have := subGo_spec x.digits y.digits 0 hx hy hlen (Nat.zero_le 1)
  simpa [NNDigits.sub] using this

theorem nnVal_zeros_set1 : ∀ (L s x : Nat), s < L →
    nnVal ((List.replicate L 0).set s x) = x * 2 ^ (32 * s) := by
  intro L
  induction L with
  | zero => intro s x h; omega
  | succ L ih =>
    intro s x h
    rw [List.replicate_succ]
    cases s with
    | zero => simp [nnVal, nnVal_replicate_zero]
    | succ s =>
      rw [List.set_cons_succ, nnVal, ih s x (by omega), pow32_succ]
      ring

theorem nnVal_zeros_set2 : ∀ (L s lower higher : Nat), s + 1 < L →
    nnVal (((List.replicate L 0).set s lower).set (s + 1) higher)
      = lower * 2 ^ (32 * s) + higher * 2 ^ (32 * (s + 1)) := by
  intro L
  induction L with
  | zero => intro s lower higher h; omega
  | succ L ih =>
    intro s lower higher h
    rw [List.replicate_succ]
    cases s with
    | zero =>
      rw [List.set_cons_zero, List.set_cons_succ, nnVal,
        nnVal_zeros_set1 L 0 higher (by omega)]
      norm_num [Nat.mul_comm]
    | succ s =>
      rw [List.set_cons_succ, List.set_cons_succ, nnVal, ih s lower higher (by omega)]
      rw [pow32_succ, pow32_succ (s + 1)]
      ring

theorem nnNorm_set (l : List Nat) (i x : Nat) (hl : nnNorm l) (hx : x < 2 ^ 32) :
    nnNorm (l.set i x) := by
  intro y hy
  rcases List.mem_or_eq_of_mem_set hy with hy | rfl
  · exact hl y hy
  · exact hx


theorem zero_set_digit_count (L : Nat) :
    (NNDigits.zero.set_digit_count L).digits = List.replicate L 0 := by
  rw [NNDigits.zero, NNDigits.set_digit_count]
  simp only [List.length_singleton]
  by_cases hL : L < 1
  · rw [if_pos hL]
    have hL0 : L = 0 := by omega
    simp [hL0]
  · rw [if_neg hL]
    show ([(0 : Nat)] ++ List.replicate (L - 1) 0 : List Nat) = List.replicate L 0
    rw [show ([(0 : Nat)] : List Nat) = List.replicate 1 0 from rfl, ← List.replicate_add]
    congr 1
    omega

theorem multInner_spec (d1 i1 L : Nat) (hd1 : d1 < 2 ^ 32) :
    ∀ (ds2 : List Nat) (i2 : Nat) (acc : NNDigits), nnNorm ds2 →
    acc.digits.length = L → nnNorm acc.digits →
    i1 + i2 + ds2.length < L →
    nnVal acc.digits + d1 * nnVal ds2 * 2 ^ (32 * (i1 + i2)) < 2 ^ (32 * L) →
    nnVal (NNDigits.multInner d1 i1 ds2 i2 acc).digits
      = nnVal acc.digits + d1 * nnVal ds2 * 2 ^ (32 * (i1 + i2)) ∧
    (NNDigits.multInner d1 i1 ds2 i2 acc).digits.length = L ∧
    nnNorm (NNDigits.multInner d1 i1 ds2 i2 acc).digits := by
  intro ds2
  induction ds2 with
  | nil =>
    intro i2 acc _ hlen hnorm _ _
    refine ⟨by simp [NNDigits.multInner, nnVal], by simp [NNDigits.multInner, hlen], ?_⟩
    simpa [NNDigits.multInner] using hnorm
  | cons d2 rest ih =>
    intro i2 acc hds2 hlen hnorm hbound hsum
    have hd2 : d2 < 2 ^ 32 := hds2 d2 (List.mem_cons_self ..)
    have hrest : nnNorm rest := fun x hx => hds2 x (List.mem_cons_of_mem _ hx)
    have hmul : d1 * d2 < 2 ^ 64 := by
      have h1 : d1 ≤ 2 ^ 32 - 1 := by omega
      have h2 : d2 ≤ 2 ^ 32 - 1 := by omega
      have := Nat.mul_le_mul h1 h2
      omega
    have hR : nnVal (d2 :: rest) = d2 + 2 ^ 32 * nnVal rest := rfl
    have hlen2 : List.length (d2 :: rest) = rest.length + 1 := rfl
    -- the correction term `add_digits`
    have hzeros : (NNDigits.zero.set_digit_count acc.digits.length).digits
        = List.replicate L 0 := by rw [zero_set_digit_count, hlen]
    set ad : NNDigits :=
      ⟨((NNDigits.zero.set_digit_count acc.digits.length).digits.set
          (i1 + i2) (d1 * d2 % 2 ^ 32)).set (i1 + i2 + 1) (d1 * d2 / 2 ^ 32 % 2 ^ 32)⟩
      with had
    have hadlen : ad.digits.length = L := by
      rw [had]
      simp only [List.length_set, hzeros, List.length_replicate]
    have hadnorm : nnNorm ad.digits := by
      rw [had]
      refine nnNorm_set _ _ _ (nnNorm_set _ _ _ ?_ (Nat.mod_lt _ (by norm_num)))
        (Nat.mod_lt _ (by norm_num))
      rw [hzeros]
      exact nnNorm_replicate_zero L
    have hadval : nnVal ad.digits = d1 * d2 * 2 ^ (32 * (i1 + i2)) := by
      rw [had, hzeros, nnVal_zeros_set2 L (i1 + i2) _ _ (by omega)]
      have hdm : d1 * d2 / 2 ^ 32 % 2 ^ 32 = d1 * d2 / 2 ^ 32 :=
        Nat.mod_eq_of_lt (by omega)
      have e1 : d1 * d2 % 2 ^ 32 + 2 ^ 32 * (d1 * d2 / 2 ^ 32) = d1 * d2 :=
        Nat.mod_add_div _ _
      rw [hdm, pow32_succ]
      calc d1 * d2 % 2 ^ 32 * 2 ^ (32 * (i1 + i2))
            + d1 * d2 / 2 ^ 32 * (2 ^ 32 * 2 ^ (32 * (i1 + i2)))
          = (d1 * d2 % 2 ^ 32 + 2 ^ 32 * (d1 * d2 / 2 ^ 32)) * 2 ^ (32 * (i1 + i2)) := by
            ring
        _ = d1 * d2 * 2 ^ (32 * (i1 + i2)) := by rw [e1]
    -- the accumulator after absorbing it
    obtain ⟨hav, hal, han⟩ := add_spec acc ad hnorm hadnorm (by omega)
    have hsmall : nnVal acc.digits + nnVal ad.digits < 2 ^ (32 * L) := by
      rw [hadval]
      have h1 : d1 * d2 * 2 ^ (32 * (i1 + i2)) ≤ d1 * nnVal (d2 :: rest) * 2 ^ (32 * (i1 + i2)) := by
        have h2 : d2 ≤ nnVal (d2 :: rest) := by rw [hR]; omega
        exact Nat.mul_le_mul_right _ (Nat.mul_le_mul_left _ h2)
      linarith
    have hav' : nnVal (acc.add ad).digits
        = nnVal acc.digits + d1 * d2 * 2 ^ (32 * (i1 + i2)) := by
      rw [hav, hlen, Nat.mod_eq_of_lt hsmall, hadval]
    -- recursive call
    have hkey : d1 * nnVal (d2 :: rest) * 2 ^ (32 * (i1 + i2))
        = d1 * d2 * 2 ^ (32 * (i1 + i2)) + d1 * nnVal rest * 2 ^ (32 * (i1 + (i2 + 1))) := by
      rw [hR, show i1 + (i2 + 1) = (i1 + i2) + 1 from by omega, pow32_succ]
      ring
    obtain ⟨iv, il, inn⟩ := ih (i2 + 1) (acc.add ad) hrest (by omega) han
      (by rw [hlen2] at hbound; omega)
      (by rw [hav', Nat.add_assoc, ← hkey]; exact hsum)
    have hstep : NNDigits.multInner d1 i1 (d2 :: rest) i2 acc
        = NNDigits.multInner d1 i1 rest (i2 + 1) (acc.add ad) := by
      rw [had]
      rfl
    rw [hstep]
    refine ⟨?_, il, inn⟩
    rw [iv, hav', hkey, Nat.add_assoc]

theorem multOuter_spec (other : List Nat) (L : Nat) (hother : nnNorm other) :
    ∀ (ds1 : List Nat) (i1 : Nat) (acc : NNDigits), nnNorm ds1 →
    acc.digits.length = L → nnNorm acc.digits →
    i1 + ds1.length + other.length ≤ L →
    nnVal acc.digits + nnVal ds1 * nnVal other * 2 ^ (32 * i1) < 2 ^ (32 * L) →
    nnVal (NNDigits.multOuter other ds1 i1 acc).digits
      = nnVal acc.digits + nnVal ds1 * nnVal other * 2 ^ (32 * i1) ∧
    (NNDigits.multOuter other ds1 i1 acc).digits.length = L ∧
    nnNorm (NNDigits.multOuter other ds1 i1 acc).digits := by
  intro ds1
  induction ds1 with
  | nil =>
    intro i1 acc _ hlen hnorm _ _
    refine ⟨by simp [NNDigits.multOuter, nnVal], by simp [NNDigits.multOuter, hlen], ?_⟩
    simpa [NNDigits.multOuter] using hnorm
  | cons d1 ds1 ih =>
    intro i1 acc hds1 hlen hnorm hbound hsum
    have hd1 : d1 < 2 ^ 32 := hds1 d1 (List.mem_cons_self ..)
    have hds1' : nnNorm ds1 := fun x hx => hds1 x (List.mem_cons_of_mem _ hx)
    have hV : nnVal (d1 :: ds1) = d1 + 2 ^ 32 * nnVal ds1 := rfl
    have hlen1 : (d1 :: ds1).length = ds1.length + 1 := rfl
    have hkey : nnVal (d1 :: ds1) * nnVal other * 2 ^ (32 * i1)
        = d1 * nnVal other * 2 ^ (32 * i1)
          + nnVal ds1 * nnVal other * 2 ^ (32 * (i1 + 1)) := by
      rw [hV, pow32_succ]
      ring
    have hinner_small : nnVal acc.digits + d1 * nnVal other * 2 ^ (32 * (i1 + 0)) < 2 ^ (32 * L) := by
      have h1 : d1 * nnVal other * 2 ^ (32 * (i1 + 0)) ≤ nnVal (d1 :: ds1) * nnVal other * 2 ^ (32 * i1) := by
        have h2 : d1 ≤ nnVal (d1 :: ds1) := by rw [hV]; omega
        simp only [Nat.add_zero]
        exact Nat.mul_le_mul_right _ (Nat.mul_le_mul_right _ h2)
      linarith
    obtain ⟨jv, jl, jn⟩ := multInner_spec d1 i1 L hd1 other 0 acc hother hlen hnorm
      (by rw [hlen1] at hbound; omega) hinner_small
    obtain ⟨iv, il, inn⟩ := ih (i1 + 1) (NNDigits.multInner d1 i1 other 0 acc) hds1'
      jl jn (by rw [hlen1] at hbound; omega)
      (by
        rw [jv, Nat.add_zero, Nat.add_assoc, ← hkey]
        exact hsum)
    have hstep : NNDigits.multOuter other (d1 :: ds1) i1 acc
        = NNDigits.multOuter other ds1 (i1 + 1) (NNDigits.multInner d1 i1 other 0 acc) := rfl
    rw [hstep]
    refine ⟨?_, il, inn⟩
    rw [iv, jv, Nat.add_zero, hkey, Nat.add_assoc]

/-- `mult` computes the product modulo the operand width (exact whenever the
product fits, in particular at the doubled width used by `divmod`). -/
theorem mult_spec (x y : NNDigits) (hx : nnNorm x.digits) (hy : nnNorm y.digits)
    (hlen : x.digits.length = y.digits.length) :
    nnVal (x.mult y).digits
      = nnVal x.digits * nnVal y.digits % 2 ^ (32 * x.digits.length) ∧
    (x.mult y).digits.length = x.digits.length ∧ nnNorm (x.mult y).digits := by
  have hacc0 : (NNDigits.zero.set_digit_count (x.digits.length * 2)).digits
      = List.replicate (x.digits.length * 2) 0 := zero_set_digit_count _
  have hacc0len : (NNDigits.zero.set_digit_count (x.digits.length * 2)).digits.length
      = x.digits.length * 2 := by rw [hacc0, List.length_replicate]
  have hacc0norm : nnNorm (NNDigits.zero.set_digit_count (x.digits.length * 2)).digits := by
    rw [hacc0]; exact nnNorm_replicate_zero _
  have hacc0val : nnVal (NNDigits.zero.set_digit_count (x.digits.length * 2)).digits = 0 := by
    rw [hacc0]; exact nnVal_replicate_zero _
  have hxV : nnVal x.digits < 2 ^ (32 * x.digits.length) := nnVal_lt _ hx
  have hyV : nnVal y.digits < 2 ^ (32 * x.digits.length) := by
    have := nnVal_lt _ hy
    rwa [← hlen] at this
  have hprod : nnVal x.digits * nnVal y.digits < 2 ^ (32 * (x.digits.length * 2)) := by
    have h1 := Nat.mul_lt_mul_of_lt_of_le hxV (Nat.le_of_lt hyV) (by positivity)
    have h2 : 2 ^ (32 * x.digits.length) * 2 ^ (32 * x.digits.length)
        = 2 ^ (32 * (x.digits.length * 2)) := by
      rw [← pow_add]
      congr 1
      omega
    omega
  obtain ⟨ov, ol, onn⟩ := multOuter_spec y.digits (x.digits.length * 2) hy x.digits 0
    (NNDigits.zero.set_digit_count (x.digits.length * 2)) hx hacc0len hacc0norm
    (by omega)
    (by rw [hacc0val, Nat.mul_zero, pow_zero, Nat.mul_one, Nat.zero_add]; exact hprod)
  have hov : nnVal (NNDigits.multOuter y.digits x.digits 0
      (NNDigits.zero.set_digit_count (x.digits.length * 2))).digits
      = nnVal x.digits * nnVal y.digits := by
    rw [ov, hacc0val, Nat.mul_zero, pow_zero, Nat.mul_one, Nat.zero_add]
  have hret : x.mult y
      = (NNDigits.multOuter y.digits x.digits 0
          (NNDigits.zero.set_digit_count (x.digits.length * 2))).set_digit_count
          x.digits.length := rfl
  rw [hret]
  refine ⟨?_, ?_, ?_⟩
  · rw [set_digit_count_val _ _ onn, hov]
  · rw [set_digit_count_length]
  · exact set_digit_count_norm _ _ onn

theorem zip_reverse : ∀ (a b : List Nat), a.length = b.length →
    (a.zip b).reverse = a.reverse.zip b.reverse := by
  intro a
  induction a with
  | nil =>
    intro b h
    cases b with
    | nil => rfl
    | cons y ys => cases h
  | cons x xs ih =>
    intro b h
    cases b with
    | nil => cases h
    | cons y ys =>
      have h' : xs.length = ys.length := by simpa using h
      rw [List.zip_cons_cons, List.reverse_cons, List.reverse_cons, List.reverse_cons,
        List.zip_append (by simp [h']), ih ys h']
      rfl

theorem compareGo_spec : ∀ (ra rb : List Nat), ra.length = rb.length →
    nnNorm ra → nnNorm rb →
    NNDigits.compareGo (ra.zip rb) = compare (nnVal ra.reverse) (nnVal rb.reverse) := by
  intro ra
  induction ra with
  | nil =>
    intro rb h _ _
    cases rb with
    | nil =>
      simp only [List.zip_nil_right, List.reverse_nil]
      exact (Nat.compare_eq_eq.mpr rfl).symm
    | cons y ys => cases h
  | cons d1 ra ih =>
    intro rb h hna hnb
    cases rb with
    | nil => cases h
    | cons d2 rb =>
      have h' : ra.length = rb.length := by simpa using h
      have hd1 : d1 < 2 ^ 32 := hna d1 (List.mem_cons_self ..)
      have hd2 : d2 < 2 ^ 32 := hnb d2 (List.mem_cons_self ..)
      have hra : nnNorm ra := fun x hx => hna x (List.mem_cons_of_mem _ hx)
      have hrb : nnNorm rb := fun x hx => hnb x (List.mem_cons_of_mem _ hx)
      have hArev : nnVal ra.reverse < 2 ^ (32 * ra.length) := by
        have := nnVal_lt ra.reverse (by
          intro x hx
          exact hra x (List.mem_reverse.mp hx))
        rwa [List.length_reverse] at this
      have hBrev : nnVal rb.reverse < 2 ^ (32 * ra.length) := by
        have := nnVal_lt rb.reverse (by
          intro x hx
          exact hrb x (List.mem_reverse.mp hx))
        rwa [List.length_reverse, ← h'] at this
      have hvA : nnVal (d1 :: ra).reverse
          = nnVal ra.reverse + 2 ^ (32 * ra.length) * d1 := by
        rw [List.reverse_cons, nnVal_append, List.length_reverse]
        simp [nnVal]
      have hvB : nnVal (d2 :: rb).reverse
          = nnVal rb.reverse + 2 ^ (32 * ra.length) * d2 := by
        rw [List.reverse_cons, nnVal_append, List.length_reverse, ← h']
        simp [nnVal]
      rw [List.zip_cons_cons]
      rw [show NNDigits.compareGo ((d1, d2) :: ra.zip rb)
          = if d1 > d2 then .gt else if d1 < d2 then .lt
            else NNDigits.compareGo (ra.zip rb) from rfl]
      by_cases hgt : d1 > d2
      · rw [if_pos hgt, hvA, hvB]
        have : nnVal rb.reverse + 2 ^ (32 * ra.length) * d2
            < nnVal ra.reverse + 2 ^ (32 * ra.length) * d1 := by
          have hstep : 2 ^ (32 * ra.length) * (d2 + 1) ≤ 2 ^ (32 * ra.length) * d1 :=
            Nat.mul_le_mul_left _ (by omega)
          have : 2 ^ (32 * ra.length) * d2 + 2 ^ (32 * ra.length)
              = 2 ^ (32 * ra.length) * (d2 + 1) := by ring
          omega
        exact (Nat.compare_eq_gt.mpr this).symm
      · rw [if_neg hgt]
        by_cases hlt : d1 < d2
        · rw [if_pos hlt, hvA, hvB]
          have : nnVal ra.reverse + 2 ^ (32 * ra.length) * d1
              < nnVal rb.reverse + 2 ^ (32 * ra.length) * d2 := by
            have hstep : 2 ^ (32 * ra.length) * (d1 + 1) ≤ 2 ^ (32 * ra.length) * d2 :=
              Nat.mul_le_mul_left _ (by omega)
            have : 2 ^ (32 * ra.length) * d1 + 2 ^ (32 * ra.length)
                = 2 ^ (32 * ra.length) * (d1 + 1) := by ring
            omega
          exact (Nat.compare_eq_lt.mpr this).symm
        · rw [if_neg hlt]
          have hde : d1 = d2 := by omega
          subst hde
          rw [ih rb h' hra hrb, hvA, hvB]
          rcases Nat.lt_trichotomy (nnVal ra.reverse) (nnVal rb.reverse) with hc | hc | hc
          · rw [Nat.compare_eq_lt.mpr hc, Eq.comm, Nat.compare_eq_lt]
            omega
          · have e1 : compare (nnVal rb.reverse) (nnVal rb.reverse) = Ordering.eq :=
              Nat.compare_eq_eq.mpr rfl
            have e2 : compare (nnVal rb.reverse + 2 ^ (32 * ra.length) * d1)
                (nnVal rb.reverse + 2 ^ (32 * ra.length) * d1) = Ordering.eq :=
              Nat.compare_eq_eq.mpr rfl
            rw [hc, e1, e2]
          · rw [Nat.compare_eq_gt.mpr hc, Eq.comm, Nat.compare_eq_gt]
            omega

/-- `compare` on equal-width normalised operands is value comparison. -/
theorem compare_spec (x y : NNDigits) (hx : nnNorm x.digits) (hy : nnNorm y.digits)
    (hlen : x.digits.length = y.digits.length) :
    NNDigits.compare x y = compare (nnVal x.digits) (nnVal y.digits) := by
  rw [NNDigits.compare, zip_reverse _ _ hlen]
  have := compareGo_spec x.digits.reverse y.digits.reverse
    (by simp [hlen])
    (fun a ha => hx a (List.mem_reverse.mp ha))
    (fun a ha => hy a (List.mem_reverse.mp ha))
  rw [this, List.reverse_reverse, List.reverse_reverse]

theorem assign_2_exp_spec (i : Nat) :
    nnVal (NNDigits.assign_2_exp i).digits = 2 ^ i ∧
    (NNDigits.assign_2_exp i).digits.length = i / 32 + 1 ∧
    nnNorm (NNDigits.assign_2_exp i).digits := by
  have hsh : (1 : Nat) <<< (i % 32) = 2 ^ (i % 32) := by
    rw [Nat.shiftLeft_eq, Nat.one_mul]
  refine ⟨?_, ?_, ?_⟩
  · rw [NNDigits.assign_2_exp]
    show nnVal ((List.replicate (i / 32 + 1) 0).set (i / 32) (1 <<< (i % 32))) = 2 ^ i
    rw [nnVal_zeros_set1 _ _ _ (by omega), hsh, ← pow_add]
    congr 1
    omega
  · rw [NNDigits.assign_2_exp]
    show ((List.replicate (i / 32 + 1) 0).set (i / 32) (1 <<< (i % 32))).length = i / 32 + 1
    rw [List.length_set, List.length_replicate]
  · rw [NNDigits.assign_2_exp]
    show nnNorm ((List.replicate (i / 32 + 1) 0).set (i / 32) (1 <<< (i % 32)))
    refine nnNorm_set _ _ _ (nnNorm_replicate_zero _) ?_
    rw [hsh]
    exact Nat.pow_lt_pow_right (by norm_num) (by omega)

theorem nat_compare_isLE (a b : Nat) : (compare a b).isLE = true ↔ a ≤ b := by
  rcases Nat.lt_trichotomy a b with hc | hc | hc
  · rw [Nat.compare_eq_lt.mpr hc]
    simp [Ordering.isLE]
    omega
  · subst hc
    rw [Nat.compare_eq_eq.mpr rfl]
    simp [Ordering.isLE]
  · rw [Nat.compare_eq_gt.mpr hc]
    simp [Ordering.isLE]
    omega

/-- One step of the greedy binary division: tentatively setting bit `i` of the
quotient prefix and keeping it only when still `≤ Q` reveals bit `i` of `Q`. -/
theorem greedy_bit (Q i : Nat) :
    (if 2 ^ (i + 1) * (Q / 2 ^ (i + 1)) + 2 ^ i ≤ Q
      then 2 ^ (i + 1) * (Q / 2 ^ (i + 1)) + 2 ^ i
      else 2 ^ (i + 1) * (Q / 2 ^ (i + 1))) = 2 ^ i * (Q / 2 ^ i) := by
  have hsplit : 2 ^ (i + 1) * (Q / 2 ^ (i + 1)) + Q % 2 ^ (i + 1) = Q :=
    Nat.div_add_mod ..
  have hr : Q % 2 ^ (i + 1) < 2 ^ (i + 1) := Nat.mod_lt _ (by positivity)
  have h2 : (2 : Nat) ^ (i + 1) = 2 * 2 ^ i := by rw [pow_succ]; ring
  have hQdiv : Q / 2 ^ i = 2 * (Q / 2 ^ (i + 1)) + Q % 2 ^ (i + 1) / 2 ^ i := by
    conv_lhs => rw [← hsplit]
    rw [show 2 ^ (i + 1) * (Q / 2 ^ (i + 1)) + Q % 2 ^ (i + 1)
        = Q % 2 ^ (i + 1) + 2 ^ i * (2 * (Q / 2 ^ (i + 1))) by rw [h2]; ring]
    rw [Nat.add_mul_div_left _ _ (by positivity : 0 < 2 ^ i)]
    omega
  by_cases hc : 2 ^ i ≤ Q % 2 ^ (i + 1)
  · have hrd : Q % 2 ^ (i + 1) / 2 ^ i = 1 := by
      apply Nat.div_eq_of_lt_le
      · omega
      · omega
    have hcond : 2 ^ (i + 1) * (Q / 2 ^ (i + 1)) + 2 ^ i ≤ Q := by
      omega
    rw [if_pos hcond, hQdiv, hrd, h2]
    ring
  · have hrd : Q % 2 ^ (i + 1) / 2 ^ i = 0 := Nat.div_eq_of_lt (by omega)
    have hcond : ¬(2 ^ (i + 1) * (Q / 2 ^ (i + 1)) + 2 ^ i ≤ Q) := by
      omega
    rw [if_neg hcond, hQdiv, hrd, h2]
    ring

theorem divmodGo_spec (divisor dividend : NNDigits) (k : Nat) (hk : 1 ≤ k)
    (hNlen : divisor.digits.length = 2 * k) (hNnorm : nnNorm divisor.digits)
    (hNV : nnVal divisor.digits < 2 ^ (32 * k))
    (hDlen : dividend.digits.length = 2 * k) (hDnorm : nnNorm dividend.digits)
    (hDV : nnVal dividend.digits < 2 ^ (32 * k))
    (hD1 : 1 ≤ nnVal dividend.digits) :
    ∀ i : Nat, i ≤ 32 * k → ∀ q : NNDigits,
    q.digits.length = 2 * k → nnNorm q.digits →
    nnVal q.digits = 2 ^ i * (nnVal divisor.digits / nnVal dividend.digits / 2 ^ i) →
    nnVal (NNDigits.divmodGo divisor dividend i q).digits
      = nnVal divisor.digits / nnVal dividend.digits ∧
    (NNDigits.divmodGo divisor dividend i q).digits.length = 2 * k ∧
    nnNorm (NNDigits.divmodGo divisor dividend i q).digits := by
  intro i
  induction i with
  | zero =>
    intro _ q hqlen hqnorm hqval
    rw [NNDigits.divmodGo]
    refine ⟨?_, hqlen, hqnorm⟩
    rw [hqval, pow_zero, Nat.div_one, Nat.one_mul]
  | succ i ih =>
    intro hi q hqlen hqnorm hqval
    have hQleN : nnVal divisor.digits / nnVal dividend.digits ≤ nnVal divisor.digits :=
      Nat.div_le_self _ _
    have hprefix : 2 ^ (i + 1) * (nnVal divisor.digits / nnVal dividend.digits / 2 ^ (i + 1))
        ≤ nnVal divisor.digits / nnVal dividend.digits := by
      have := Nat.div_add_mod (nnVal divisor.digits / nnVal dividend.digits) (2 ^ (i + 1))
      omega
    -- the tentative bit
    obtain ⟨bv, bl, bn⟩ := assign_2_exp_spec i
    have hbl2 : (i / 32 + 1 : Nat) ≤ 2 * k := by omega
    have hnbval : nnVal ((NNDigits.assign_2_exp i).set_digit_count
        divisor.digits.length).digits = 2 ^ i := by
      rw [set_digit_count_val_ext _ _ bn (by rw [bl, hNlen]; exact hbl2), bv]
    have hnblen : ((NNDigits.assign_2_exp i).set_digit_count
        divisor.digits.length).digits.length = 2 * k := by
      rw [set_digit_count_length, hNlen]
    have hnbnorm := set_digit_count_norm (NNDigits.assign_2_exp i)
      divisor.digits.length bn
    -- the tentative quotient
    obtain ⟨av, al, an⟩ := add_spec q _ hqnorm hnbnorm (by rw [hqlen, hnblen])
    have h2i : (2 : Nat) ^ i < 2 ^ (32 * k) :=
      Nat.pow_lt_pow_right (by norm_num) (by omega)
    have hqsmall : nnVal q.digits + 2 ^ i < 2 ^ (32 * (2 * k)) := by
      have hq1 : nnVal q.digits ≤ nnVal divisor.digits := by
        rw [hqval]
        exact le_trans hprefix hQleN
      have hexp : 2 ^ (32 * k) + 2 ^ (32 * k) ≤ 2 ^ (32 * (2 * k)) := by
        have h1 : 2 ^ (32 * k) + 2 ^ (32 * k) = 2 ^ (32 * k + 1) := by ring
        have h2 : (32 * k + 1 : Nat) ≤ 32 * (2 * k) := by omega
        rw [h1]
        exact Nat.pow_le_pow_right (by norm_num) h2
      omega
    have hqhval : nnVal (q.add ((NNDigits.assign_2_exp i).set_digit_count
        divisor.digits.length)).digits = nnVal q.digits + 2 ^ i := by
      rw [av, hnbval, hqlen, Nat.mod_eq_of_lt hqsmall]
    -- the tentative product
    obtain ⟨mv, ml, mn⟩ := mult_spec (q.add _) dividend an (hDnorm)
      (by rw [al, hqlen, hDlen])
    have hprodsmall : (nnVal q.digits + 2 ^ i) * nnVal dividend.digits
        < 2 ^ (32 * (2 * k)) := by
      have hqD : nnVal q.digits * nnVal dividend.digits ≤ nnVal divisor.digits := by
        have hq1 : nnVal q.digits ≤ nnVal divisor.digits / nnVal dividend.digits := by
          rw [hqval]
          exact hprefix
        calc nnVal q.digits * nnVal dividend.digits
            ≤ (nnVal divisor.digits / nnVal dividend.digits) * nnVal dividend.digits :=
              Nat.mul_le_mul_right _ hq1
          _ ≤ nnVal divisor.digits := Nat.div_mul_le_self _ _
      have hA1 : 2 ^ i * nnVal dividend.digits
          ≤ 2 ^ (32 * k - 1) * nnVal dividend.digits :=
        Nat.mul_le_mul_right _ (Nat.pow_le_pow_right (by norm_num) (by omega))
      have hA2 : 2 ^ (32 * k - 1) * nnVal dividend.digits + 2 ^ (32 * k - 1)
          ≤ 2 ^ (32 * k - 1) * 2 ^ (32 * k) := by
        have h1 : nnVal dividend.digits + 1 ≤ 2 ^ (32 * k) := hDV
        calc 2 ^ (32 * k - 1) * nnVal dividend.digits + 2 ^ (32 * k - 1)
            = 2 ^ (32 * k - 1) * (nnVal dividend.digits + 1) := by ring
          _ ≤ 2 ^ (32 * k - 1) * 2 ^ (32 * k) := Nat.mul_le_mul_left _ h1
      have hA3 : 2 ^ (32 * k - 1) * 2 ^ (32 * k) * 2 = 2 ^ (32 * (2 * k)) := by
        rw [← pow_add, ← pow_succ]
        congr 1
        omega
      have hA4 : 1 ≤ 2 ^ (32 * k - 1) := Nat.one_le_two_pow
      have hA6 : 2 ^ (32 * k) ≤ 2 ^ (32 * k - 1) * 2 ^ (32 * k) :=
        Nat.le_mul_of_pos_left _ (by positivity)
      have hsplit : (nnVal q.digits + 2 ^ i) * nnVal dividend.digits
          = nnVal q.digits * nnVal dividend.digits + 2 ^ i * nnVal dividend.digits := by
        ring
      rw [hsplit]
      omega
    have hmval : nnVal ((q.add ((NNDigits.assign_2_exp i).set_digit_count
          divisor.digits.length)).mult dividend).digits
        = (nnVal q.digits + 2 ^ i) * nnVal dividend.digits := by
      rw [mv, hqhval, al, hqlen, Nat.mod_eq_of_lt hprodsmall]
    -- the comparison decides whether bit i belongs to the quotient
    have hcmp : ((q.add ((NNDigits.assign_2_exp i).set_digit_count
          divisor.digits.length)).mult dividend).compare divisor
        = compare ((nnVal q.digits + 2 ^ i) * nnVal dividend.digits)
            (nnVal divisor.digits) := by
      rw [compare_spec _ _ mn hNnorm (by rw [ml, al, hqlen, hNlen]), hmval]
    have hstep : NNDigits.divmodGo divisor dividend (i + 1) q
        = if (((q.add ((NNDigits.assign_2_exp i).set_digit_count
              divisor.digits.length)).mult dividend).compare divisor).isLE
          then NNDigits.divmodGo divisor dividend i
            (q.add ((NNDigits.assign_2_exp i).set_digit_count divisor.digits.length))
          else NNDigits.divmodGo divisor dividend i q := rfl
    have hiff : ((nnVal q.digits + 2 ^ i) * nnVal dividend.digits
          ≤ nnVal divisor.digits)
        ↔ nnVal q.digits + 2 ^ i
          ≤ nnVal divisor.digits / nnVal dividend.digits := by
      rw [Nat.le_div_iff_mul_le hD1]
    by_cases hle : (nnVal q.digits + 2 ^ i) * nnVal dividend.digits
        ≤ nnVal divisor.digits
    · rw [hstep, hcmp, if_pos ((nat_compare_isLE _ _).mpr hle)]
      refine ih (by omega) _ (by rw [al, hqlen]) an ?_
      rw [hqhval, hqval]
      have := greedy_bit (nnVal divisor.digits / nnVal dividend.digits) i
      rw [if_pos (by rw [← hqval]; exact hiff.mp hle)] at this
      rw [← hqval] at this ⊢
      exact this
    · rw [hstep, hcmp, if_neg (by
        intro hcon
        exact hle ((nat_compare_isLE _ _).mp hcon))]
      refine ih (by omega) q hqlen hqnorm ?_
      rw [hqval]
      have := greedy_bit (nnVal divisor.digits / nnVal dividend.digits) i
      rw [if_neg (by rw [← hqval]; intro hcon; exact hle (hiff.mpr hcon))] at this
      rw [← hqval] at this ⊢
      exact this

theorem set_digit_count_replicate (m j : Nat) :
    ((⟨List.replicate m 0⟩ : NNDigits).set_digit_count j).digits = List.replicate j 0 := by
  rw [NNDigits.set_digit_count]
  by_cases h : j < (List.replicate m (0 : Nat)).length
  · rw [if_pos h]
    show (List.replicate m (0 : Nat)).take j = _
    rw [List.take_replicate]
    congr 1
    rw [List.length_replicate] at h
    omega
  · rw [if_neg h]
    show List.replicate m (0 : Nat) ++ List.replicate _ 0 = _
    rw [← List.replicate_add]
    congr 1
    rw [List.length_replicate] at h
    show m + (j - (List.replicate m (0 : Nat)).length) = j
    rw [List.length_replicate]
    omega

/-- C3: `divmod(n, d)` returns `(q, r)` with `q * d + r = n` and `r < d`,
for equal-width operands with a nonzero divisor (the two `assert!`
preconditions of the source), with digits in the `u32` range. -/
theorem divmod_correct (self other : NNDigits)
    (hx : nnNorm self.digits) (hy : nnNorm other.digits)
    (hlen : self.digits.length = other.digits.length)
    (hnz : nnVal other.digits ≠ 0) :
    nnVal (self.divmod other).1.digits * nnVal other.digits
        + nnVal (self.divmod other).2.digits = nnVal self.digits ∧
    nnVal (self.divmod other).2.digits < nnVal other.digits := by
  have hk1 : 1 ≤ self.digits.length := by
    by_contra hcon
    have h0 : other.digits.length = 0 := by omega
    have h1 : other.digits = [] := List.eq_nil_of_length_eq_zero h0
    rw [h1] at hnz
    exact hnz rfl
  have hD1 : 1 ≤ nnVal other.digits := by omega
  have hNV : nnVal self.digits < 2 ^ (32 * self.digits.length) := nnVal_lt _ hx
  have hDV : nnVal other.digits < 2 ^ (32 * self.digits.length) := by
    have := nnVal_lt _ hy
    rwa [← hlen] at this
  -- the doubled-width copies
  have hNlen2 : (self.set_digit_count (self.digits.length * 2)).digits.length
      = 2 * self.digits.length := by rw [set_digit_count_length]; ring
  have hNnorm2 := set_digit_count_norm self (self.digits.length * 2) hx
  have hNval2 : nnVal (self.set_digit_count (self.digits.length * 2)).digits
      = nnVal self.digits := set_digit_count_val_ext _ _ hx (by omega)
  have hDlen2 : (other.set_digit_count (other.digits.length * 2)).digits.length
      = 2 * self.digits.length := by rw [set_digit_count_length]; omega
  have hDnorm2 := set_digit_count_norm other (other.digits.length * 2) hy
  have hDval2 : nnVal (other.set_digit_count (other.digits.length * 2)).digits
      = nnVal other.digits := set_digit_count_val_ext _ _ hy (by omega)
  -- the initial quotient
  have hz1 : NNDigits.zero.set_digit_count self.digits.length
      = ⟨List.replicate self.digits.length 0⟩ :=
    congrArg NNDigits.mk (zero_set_digit_count _)
  have hq0 : ((NNDigits.zero.set_digit_count self.digits.length).set_digit_count
      ((NNDigits.zero.set_digit_count self.digits.length).digits.length * 2)).digits
      = List.replicate ((NNDigits.zero.set_digit_count self.digits.length).digits.length * 2) 0 := by
    rw [hz1]
    exact set_digit_count_replicate _ _
  have hq0len : ((NNDigits.zero.set_digit_count self.digits.length).set_digit_count
      ((NNDigits.zero.set_digit_count self.digits.length).digits.length * 2)).digits.length
      = 2 * self.digits.length := by
    rw [hq0, List.length_replicate, zero_set_digit_count, List.length_replicate]
    ring
  have hq0norm : nnNorm ((NNDigits.zero.set_digit_count self.digits.length).set_digit_count
      ((NNDigits.zero.set_digit_count self.digits.length).digits.length * 2)).digits := by
    rw [hq0]
    exact nnNorm_replicate_zero _
  have hq0val : nnVal ((NNDigits.zero.set_digit_count self.digits.length).set_digit_count
      ((NNDigits.zero.set_digit_count self.digits.length).digits.length * 2)).digits = 0 := by
    rw [hq0]
    exact nnVal_replicate_zero _
  -- run the loop
  obtain ⟨qv, ql, qn⟩ := divmodGo_spec
    (self.set_digit_count (self.digits.length * 2))
    (other.set_digit_count (other.digits.length * 2))
    self.digits.length hk1 hNlen2 hNnorm2 (by rw [hNval2]; exact hNV)
    hDlen2 hDnorm2 (by rw [hDval2]; exact hDV) (by rw [hDval2]; exact hD1)
    (self.digits.length * 32) (by omega) _ hq0len hq0norm
    (by
      rw [hq0val]
      have hQlt : nnVal (self.set_digit_count (self.digits.length * 2)).digits
          / nnVal (other.set_digit_count (other.digits.length * 2)).digits
          < 2 ^ (self.digits.length * 32) := by
        rw [hNval2, hDval2]
        calc nnVal self.digits / nnVal other.digits ≤ nnVal self.digits :=
            Nat.div_le_self _ _
          _ < 2 ^ (32 * self.digits.length) := hNV
          _ = 2 ^ (self.digits.length * 32) := by rw [Nat.mul_comm]
      rw [Nat.div_eq_of_lt hQlt, Nat.mul_zero])
  rw [hNval2, hDval2] at qv
  -- the final quotient and remainder
  have hQN : nnVal self.digits / nnVal other.digits * nnVal other.digits
      ≤ nnVal self.digits := Nat.div_mul_le_self _ _
  obtain ⟨mv, ml, mn⟩ := mult_spec
    (NNDigits.divmodGo (self.set_digit_count (self.digits.length * 2))
      (other.set_digit_count (other.digits.length * 2))
      (self.digits.length * 32)
      ((NNDigits.zero.set_digit_count self.digits.length).set_digit_count
        ((NNDigits.zero.set_digit_count self.digits.length).digits.length * 2)))
    (other.set_digit_count (other.digits.length * 2)) qn hDnorm2 (by rw [ql, hDlen2])
  rw [qv, hDval2, ql] at mv
  have hQDlt : nnVal self.digits / nnVal other.digits * nnVal other.digits
      < 2 ^ (32 * (2 * self.digits.length)) := by
    calc nnVal self.digits / nnVal other.digits * nnVal other.digits
        ≤ nnVal self.digits := hQN
      _ < 2 ^ (32 * self.digits.length) := hNV
      _ ≤ 2 ^ (32 * (2 * self.digits.length)) :=
          Nat.pow_le_pow_right (by norm_num) (by omega)
  rw [Nat.mod_eq_of_lt hQDlt] at mv
  obtain ⟨sv, sl, sn⟩ := sub_spec
    (self.set_digit_count (self.digits.length * 2)) _ hNnorm2 mn (by rw [ml, ql, hNlen2])
  rw [hNval2, mv, hNlen2] at sv
  have hmodsub : nnVal self.digits + 2 ^ (32 * (2 * self.digits.length))
      - nnVal self.digits / nnVal other.digits * nnVal other.digits
      = nnVal self.digits - nnVal self.digits / nnVal other.digits * nnVal other.digits
        + 2 ^ (32 * (2 * self.digits.length)) := by omega
  have hrem : nnVal self.digits
      - nnVal self.digits / nnVal other.digits * nnVal other.digits
      = nnVal self.digits % nnVal other.digits := by
    have := Nat.div_add_mod (nnVal self.digits) (nnVal other.digits)
    have hcomm : nnVal other.digits * (nnVal self.digits / nnVal other.digits)
        = nnVal self.digits / nnVal other.digits * nnVal other.digits := by ring
    omega
  rw [hmodsub, Nat.add_mod_right, hrem, Nat.mod_eq_of_lt (by
    calc nnVal self.digits % nnVal other.digits < nnVal other.digits :=
        Nat.mod_lt _ (by omega)
      _ < 2 ^ (32 * self.digits.length) := hDV
      _ ≤ 2 ^ (32 * (2 * self.digits.length)) :=
          Nat.pow_le_pow_right (by norm_num) (by omega))] at sv
  -- project out the components of `divmod`
  have hfst : (self.divmod other).1
      = (NNDigits.divmodGo (self.set_digit_count (self.digits.length * 2))
          (other.set_digit_count (other.digits.length * 2))
          (self.digits.length * 32)
          ((NNDigits.zero.set_digit_count self.digits.length).set_digit_count
            ((NNDigits.zero.set_digit_count self.digits.length).digits.length * 2))).set_digit_count
          self.digits.length := rfl
  have hsnd : (self.divmod other).2
      = ((self.set_digit_count (self.digits.length * 2)).sub
          ((NNDigits.divmodGo (self.set_digit_count (self.digits.length * 2))
            (other.set_digit_count (other.digits.length * 2))
            (self.digits.length * 32)
            ((NNDigits.zero.set_digit_count self.digits.length).set_digit_count
              ((NNDigits.zero.set_digit_count self.digits.length).digits.length * 2))).mult
            (other.set_digit_count (other.digits.length * 2)))).set_digit_count
          self.digits.length := rfl
  have hfv : nnVal (self.divmod other).1.digits
      = nnVal self.digits / nnVal other.digits := by
    rw [hfst, set_digit_count_val _ _ qn, qv, Nat.mod_eq_of_lt]
    calc nnVal self.digits / nnVal other.digits ≤ nnVal self.digits :=
        Nat.div_le_self _ _
      _ < 2 ^ (32 * self.digits.length) := hNV
  have hsv : nnVal (self.divmod other).2.digits
      = nnVal self.digits % nnVal other.digits := by
    rw [hsnd, set_digit_count_val _ _ sn, sv, Nat.mod_eq_of_lt]
    calc nnVal self.digits % nnVal other.digits < nnVal other.digits :=
        Nat.mod_lt _ (by omega)
      _ < 2 ^ (32 * self.digits.length) := hDV
  rw [hfv, hsv]
  constructor
  · have := Nat.div_add_mod (nnVal self.digits) (nnVal other.digits)
    have hcomm : nnVal other.digits * (nnVal self.digits / nnVal other.digits)
        = nnVal self.digits / nnVal other.digits * nnVal other.digits := by ring
    omega
  · exact Nat.mod_lt _ (by omega)

/-- Bitwise-or of a shifted value with a remainder below the shift is
addition (the digit reassembly `(x << bits) | carry` in the shifts). -/
theorem lor_eq_add_of_lt (x c k : Nat) (hc : c < 2 ^ k) :
    (x * 2 ^ k) ||| c = x * 2 ^ k + c := by
  apply Nat.eq_of_testBit_eq
  intro j
  rw [Nat.testBit_or, Nat.mul_comm x, Nat.testBit_mul_pow_two,
    Nat.testBit_mul_pow_two_add x hc j]
  by_cases hj : j < k
  · simp [hj, Nat.not_le.mpr hj]
  · have hcf : c.testBit j = false := by
      apply Nat.testBit_lt_two_pow
      calc c < 2 ^ k := hc
        _ ≤ 2 ^ j := Nat.pow_le_pow_right (by norm_num) (by omega)
    simp [hj, Nat.not_lt.mp hj, hcf]

theorem lshiftGo_spec (bits : Nat) (hb1 : 1 ≤ bits) (hb2 : bits ≤ 31) :
    ∀ (l : List Nat) (c : Nat), nnNorm l → c < 2 ^ bits →
    ∃ res, NNDigits.lshiftGo bits l c = some res ∧
      res.length = l.length ∧ nnNorm res ∧
      nnVal res = (nnVal l * 2 ^ bits + c) % 2 ^ (32 * l.length) := by
  intro l
  induction l with
  | nil =>
    intro c _ _
    refine ⟨[], rfl, rfl, ?_, ?_⟩
    · intro x hx
      cases hx
    · simp [nnVal, Nat.mod_one]
  | cons d ds ih =>
    intro c hnorm hc
    have hd : d < 2 ^ 32 := hnorm d (List.mem_cons_self ..)
    have hds : nnNorm ds := fun x hx => hnorm x (List.mem_cons_of_mem _ hx)
    have hnb : ¬(32 ≤ 32 - bits) := by omega
    have hc' : d >>> (32 - bits) < 2 ^ bits := by
      rw [Nat.shiftRight_eq_div_pow]
      apply Nat.div_lt_of_lt_mul
      calc d < 2 ^ 32 := hd
        _ = 2 ^ (32 - bits) * 2 ^ bits := by
            rw [← pow_add]
            congr 1
            omega
    obtain ⟨res, hres, hlen, hn, hv⟩ := ih (d >>> (32 - bits)) hds hc'
    have hdest : (d <<< bits) % 2 ^ 32 ||| c = (d % 2 ^ (32 - bits)) * 2 ^ bits + c := by
      rw [Nat.shiftLeft_eq]
      rw [show (2 : Nat) ^ 32 = 2 ^ (32 - bits) * 2 ^ bits by
        rw [← pow_add]; congr 1; omega]
      rw [Nat.mul_mod_mul_right]
      exact lor_eq_add_of_lt _ _ _ hc
    have hdestlt : (d % 2 ^ (32 - bits)) * 2 ^ bits + c < 2 ^ 32 := by
      have h1 : d % 2 ^ (32 - bits) ≤ 2 ^ (32 - bits) - 1 := by
        have := Nat.mod_lt d (show 0 < 2 ^ (32 - bits) by positivity)
        omega
      have h2 : (d % 2 ^ (32 - bits)) * 2 ^ bits ≤ (2 ^ (32 - bits) - 1) * 2 ^ bits :=
        Nat.mul_le_mul_right _ h1
      have h3 : (2 ^ (32 - bits) - 1) * 2 ^ bits + 2 ^ bits = 2 ^ 32 := by
        have h4 : (2 ^ (32 - bits) - 1) * 2 ^ bits + 2 ^ bits
            = 2 ^ (32 - bits) * 2 ^ bits := by
          have h5 : 1 ≤ 2 ^ (32 - bits) := Nat.one_le_two_pow
          calc (2 ^ (32 - bits) - 1) * 2 ^ bits + 2 ^ bits
              = (2 ^ (32 - bits) - 1 + 1) * 2 ^ bits := by ring
            _ = 2 ^ (32 - bits) * 2 ^ bits := by rw [Nat.sub_add_cancel h5]
        rw [h4, ← pow_add]
        congr 1
        omega
      omega
    refine ⟨((d <<< bits) % 2 ^ 32 ||| c) :: res, ?_, by simp [hlen], ?_, ?_⟩
    · rw [NNDigits.lshiftGo, if_neg hnb, hres]
    · intro x hx
      rcases List.mem_cons.mp hx with rfl | hx
      · rw [hdest]; exact hdestlt
      · exact hn x hx
    · rw [nnVal, hv, hdest, List.length_cons]
      have hsplitd : d * 2 ^ bits
          = (d % 2 ^ (32 - bits)) * 2 ^ bits + 2 ^ 32 * (d >>> (32 - bits)) := by
        rw [Nat.shiftRight_eq_div_pow]
        have h0 := Nat.mod_add_div d (2 ^ (32 - bits))
        have h1 : (2 : Nat) ^ 32 = 2 ^ (32 - bits) * 2 ^ bits := by
          rw [← pow_add]; congr 1; omega
        calc d * 2 ^ bits
            = (d % 2 ^ (32 - bits) + 2 ^ (32 - bits) * (d / 2 ^ (32 - bits))) * 2 ^ bits := by
              rw [h0]
          _ = (d % 2 ^ (32 - bits)) * 2 ^ bits
              + (2 ^ (32 - bits) * 2 ^ bits) * (d / 2 ^ (32 - bits)) := by ring
          _ = (d % 2 ^ (32 - bits)) * 2 ^ bits + 2 ^ 32 * (d / 2 ^ (32 - bits)) := by
              rw [← h1]
      have hrw : nnVal (d :: ds) * 2 ^ bits + c
          = (d % 2 ^ (32 - bits)) * 2 ^ bits + c
            + 2 ^ 32 * (nnVal ds * 2 ^ bits + d >>> (32 - bits)) := by
        rw [nnVal]
        calc (d + 2 ^ 32 * nnVal ds) * 2 ^ bits + c
            = d * 2 ^ bits + c + 2 ^ 32 * (nnVal ds * 2 ^ bits) := by ring
          _ = (d % 2 ^ (32 - bits)) * 2 ^ bits + c
              + 2 ^ 32 * (nnVal ds * 2 ^ bits + d >>> (32 - bits)) := by
              rw [hsplitd]; ring
      rw [hrw, nnMod_split _ _ _ hdestlt]

/-- C9-amended, left-shift half: for `1 ≤ bits ≤ 31` the shift succeeds and
computes `x * 2^bits` modulo the width, keeping the digit count. -/
theorem lshift_spec (x : NNDigits) (bits : Nat) (hx : nnNorm x.digits)
    (hb1 : 1 ≤ bits) (hb2 : bits ≤ 31) :
    ∃ y, x.lshift bits = some y ∧
      y.digits.length = x.digits.length ∧
      nnVal y.digits = nnVal x.digits * 2 ^ bits % 2 ^ (32 * x.digits.length) := by
  obtain ⟨res, hres, hlen, _, hv⟩ := lshiftGo_spec bits hb1 hb2 x.digits 0 hx (by positivity)
  refine ⟨⟨res⟩, ?_, hlen, by rw [hv, Nat.add_zero]⟩
  rw [NNDigits.lshift, if_pos (by omega), hres]
  rfl

theorem rshiftGo_spec (bits : Nat) (hb1 : 1 ≤ bits) (hb2 : bits ≤ 31) :
    ∀ (rl : List Nat) (t : Nat), nnNorm rl → t < 2 ^ bits →
    ∃ res, NNDigits.rshiftGo bits rl (t * 2 ^ (32 - bits)) = some res ∧
      res.length = rl.length ∧ nnNorm res ∧
      nnVal res.reverse = (t * 2 ^ (32 * rl.length) + nnVal rl.reverse) / 2 ^ bits := by
  intro rl
  induction rl with
  | nil =>
    intro t _ ht
    refine ⟨[], rfl, rfl, ?_, ?_⟩
    · intro x hx
      cases hx
    · simp only [List.reverse_nil, List.length_nil, Nat.mul_zero, pow_zero, Nat.mul_one]
      show (0 : Nat) = (t + 0) / 2 ^ bits
      rw [Nat.add_zero, Nat.div_eq_of_lt ht]
  | cons d rest ih =>
    intro t hnorm ht
    have hd : d < 2 ^ 32 := hnorm d (List.mem_cons_self ..)
    have hrest : nnNorm rest := fun x hx => hnorm x (List.mem_cons_of_mem _ hx)
    have hnb : ¬(32 ≤ 32 - bits) := by omega
    have hpowsplit : (2 : Nat) ^ 32 = 2 ^ bits * 2 ^ (32 - bits) := by
      rw [← pow_add]
      congr 1
      omega
    have hcarry : (d <<< (32 - bits)) % 2 ^ 32 = (d % 2 ^ bits) * 2 ^ (32 - bits) := by
      rw [Nat.shiftLeft_eq, hpowsplit, Nat.mul_mod_mul_right]
    have hdmod : d % 2 ^ bits < 2 ^ bits := Nat.mod_lt _ (by positivity)
    obtain ⟨res, hres, hlen, hn, hv⟩ := ih (d % 2 ^ bits) hrest hdmod
    have hdshr : d >>> bits = d / 2 ^ bits := Nat.shiftRight_eq_div_pow ..
    have hdivlt : d / 2 ^ bits < 2 ^ (32 - bits) := by
      apply Nat.div_lt_of_lt_mul
      calc d < 2 ^ 32 := hd
        _ = 2 ^ bits * 2 ^ (32 - bits) := hpowsplit
    have hdest : d >>> bits ||| t * 2 ^ (32 - bits) = t * 2 ^ (32 - bits) + d / 2 ^ bits := by
      rw [hdshr, Nat.lor_comm, lor_eq_add_of_lt _ _ _ hdivlt]
    have hdestlt : t * 2 ^ (32 - bits) + d / 2 ^ bits < 2 ^ 32 := by
      have h1 : t * 2 ^ (32 - bits) ≤ (2 ^ bits - 1) * 2 ^ (32 - bits) :=
        Nat.mul_le_mul_right _ (by omega)
      have h2 : (2 ^ bits - 1) * 2 ^ (32 - bits) + 2 ^ (32 - bits) = 2 ^ 32 := by
        have h5 : 1 ≤ (2 : Nat) ^ bits := Nat.one_le_two_pow
        calc (2 ^ bits - 1) * 2 ^ (32 - bits) + 2 ^ (32 - bits)
            = (2 ^ bits - 1 + 1) * 2 ^ (32 - bits) := by ring
          _ = 2 ^ bits * 2 ^ (32 - bits) := by rw [Nat.sub_add_cancel h5]
          _ = 2 ^ 32 := hpowsplit.symm
      omega
    refine ⟨(d >>> bits ||| t * 2 ^ (32 - bits)) :: res, ?_, by simp [hlen], ?_, ?_⟩
    · rw [NNDigits.rshiftGo, if_neg hnb, hcarry, hres]
    · intro x hx
      rcases List.mem_cons.mp hx with rfl | hx
      · rw [hdest]; exact hdestlt
      · exact hn x hx
    · rw [List.reverse_cons, nnVal_append, hv, hdest, List.length_reverse, hlen]
      have hnum : t * 2 ^ (32 * (d :: rest).length) + nnVal (d :: rest).reverse
          = (t * 2 ^ (32 - bits) + d / 2 ^ bits) * (2 ^ (32 * rest.length) * 2 ^ bits)
            + ((d % 2 ^ bits) * 2 ^ (32 * rest.length) + nnVal rest.reverse) := by
        rw [List.reverse_cons, nnVal_append, List.length_reverse, List.length_cons,
          pow32_succ]
        have hsplitd : d = d % 2 ^ bits + 2 ^ bits * (d / 2 ^ bits) :=
          (Nat.mod_add_div _ _).symm
        have ht32 : t * (2 ^ 32 * 2 ^ (32 * rest.length))
            = t * 2 ^ (32 - bits) * (2 ^ (32 * rest.length) * 2 ^ bits) := by
          rw [show (2 : Nat) ^ 32 = 2 ^ (32 - bits) * 2 ^ bits by
            rw [← pow_add]; congr 1; omega]
          ring
        calc t * (2 ^ 32 * 2 ^ (32 * rest.length))
              + (nnVal rest.reverse + 2 ^ (32 * rest.length) * d)
            = t * 2 ^ (32 - bits) * (2 ^ (32 * rest.length) * 2 ^ bits)
              + (nnVal rest.reverse + 2 ^ (32 * rest.length)
                * (d % 2 ^ bits + 2 ^ bits * (d / 2 ^ bits))) := by
              rw [ht32, ← hsplitd]
          _ = (t * 2 ^ (32 - bits) + d / 2 ^ bits) * (2 ^ (32 * rest.length) * 2 ^ bits)
              + ((d % 2 ^ bits) * 2 ^ (32 * rest.length) + nnVal rest.reverse) := by
              ring
      rw [hnum]
      rw [show (t * 2 ^ (32 - bits) + d / 2 ^ bits) * (2 ^ (32 * rest.length) * 2 ^ bits)
            + ((d % 2 ^ bits) * 2 ^ (32 * rest.length) + nnVal rest.reverse)
          = ((d % 2 ^ bits) * 2 ^ (32 * rest.length) + nnVal rest.reverse)
            + ((t * 2 ^ (32 - bits) + d / 2 ^ bits) * 2 ^ (32 * rest.length)) * 2 ^ bits
          from by ring]
      rw [Nat.add_mul_div_right _ _ (show 0 < (2:Nat) ^ bits by positivity)]
      rw [nnVal_singleton]
      ring

/-- C9-amended, right-shift half: for `1 ≤ bits ≤ 31` the shift succeeds and
computes `x / 2^bits`, keeping the digit count. -/
theorem rshift_spec (x : NNDigits) (bits : Nat) (hx : nnNorm x.digits)
    (hb1 : 1 ≤ bits) (hb2 : bits ≤ 31) :
    ∃ y, x.rshift bits = some y ∧
      y.digits.length = x.digits.length ∧
      nnVal y.digits = nnVal x.digits / 2 ^ bits := by
  obtain ⟨res, hres, hlen, _, hv⟩ := rshiftGo_spec bits hb1 hb2 x.digits.reverse 0
    (fun a ha => hx a (List.mem_reverse.mp ha)) (by positivity)
  rw [Nat.zero_mul] at hres
  refine ⟨⟨res.reverse⟩, ?_, ?_, ?_⟩
  · rw [NNDigits.rshift, if_pos (by omega), hres]
    rfl
  · show res.reverse.length = x.digits.length
    rw [List.length_reverse, hlen, List.length_reverse]
  · show nnVal res.reverse = nnVal x.digits / 2 ^ bits
    rw [hv, Nat.zero_mul, Nat.zero_add, List.reverse_reverse]

/-! ### The error enum (`src/lib.rs`) -/

inductive RSAError where
  | ContentEncoding
  | Data
  | DigestAlgorithm
  | Encoding
  | Key
  | KeyEncoding
  | Len
  | ModulusLen
  | NeedRandom
  | PrivateKey
  | PublicKey
  | Signature
  | SignatureEncoding
  | EncryptionAlgorithm
  deriving Repr, DecidableEq

/-! ### The seeded PRNG (`src/r_random.rs`)

The MD5 digest from the external `md5` crate is passed in as a parameter
`h : List Nat → List Nat`; `HashGood h` states what the real digest
guarantees (16 output bytes).  The unbounded `while` loop of
`generate_bytes` runs on fuel `block_len + 2`, which is proved sufficient
below (`generateLoop_some`). -/

def RANDOM_BYTES_NEEDED : Nat := 256

structure RandomStruct where
  bytes_needed : Nat
  state : List Nat
  output_available : Nat
  output : List Nat
  deriving Repr, DecidableEq

/-- `RandomStruct::new()`. -/
def RandomStruct.new : RandomStruct :=
  { bytes_needed := RANDOM_BYTES_NEEDED
    state := List.replicate 16 0
    output_available := 0
    output := List.replicate 16 0 }

/-- `RandomStruct::random_init`. -/
def RandomStruct.random_init (self : RandomStruct) : RandomStruct :=
  { self with
    bytes_needed := RANDOM_BYTES_NEEDED
    state := List.replicate self.state.length 0
    output_available := 0 }

/-- The byte-wise add-with-carry of a digest into the mixing state
(`/* add digest to state */` in `random_update`). -/
def addToState : List Nat → List Nat → Nat → List Nat
  | s :: ss, g :: gs, x =>
    (x + s + g) % 256 :: addToState ss gs ((x + s + g) / 256)
  | s, _, _ => s

/-- `RandomStruct::random_update` (`bytes_needed` decreases by the block
length, saturating at zero like `usize::saturating_sub`). -/
def RandomStruct.random_update (h : List Nat → List Nat) (self : RandomStruct)
    (block : List Nat) : RandomStruct :=
  { self with
    state := addToState self.state (h block) 0
    bytes_needed := self.bytes_needed - block.length }

/-- `RandomStruct::get_random_bytes_needed`. -/
def RandomStruct.get_random_bytes_needed (self : RandomStruct) : Nat :=
  self.bytes_needed

/-- The `/* increment state */` loop (rightmost byte first, wrapping, stop at
the first byte that was nonzero), on the reversed state. -/
def incStateGo : List Nat → List Nat
  | [] => []
  | b :: rest =>
    if b == 0 then (b + 1) % 256 :: incStateGo rest
    else (b + 1) % 256 :: rest

def incState (s : List Nat) : List Nat := (incStateGo s.reverse).reverse

/-- The `while block_len > available` loop of `generate_bytes`, on fuel.
State: `(block, block_len, available, output, state)`. -/
def generateLoop (h : List Nat → List Nat) :
    Nat → List Nat → Nat → Nat → List Nat → List Nat →
    Option (List Nat × Nat × Nat × List Nat × List Nat)
  | 0, _, _, _, _, _ => none
  | f + 1, block, block_len, available, output, state =>
    if block_len > available then
      let block' := block ++ output.drop (output.length - available)
      let block_len' := block_len - available
      let output' := h state
      let available' := output'.length
      let state' := incState state
      generateLoop h f block' block_len' available' output' state'
    else
      some (block, block_len, available, output, state)

/-- `RandomStruct::generate_bytes`; `none` is fuel exhaustion of the model
(never reached when the hash produces 16 bytes, see `generateLoop_some`). -/
def RandomStruct.generate_bytes (h : List Nat → List Nat) (self : RandomStruct)
    (block_len : Nat) : Option (Except RSAError (List Nat × RandomStruct)) :=
  if self.bytes_needed ≠ 0 then some (Except.error RSAError.NeedRandom)
  else
    match generateLoop h (block_len + 2) [] block_len self.output_available
      self.output self.state with
    | none => none
    | some (block, block_len, available, output, state) =>
      let rest_block_start := output.length - available
      some (Except.ok
        (block ++ (output.drop rest_block_start).take block_len,
         { self with
            state := state
            output_available := available - block_len
            output := output }))

/-- `RandomStruct::random_final`: zero everything (lengths preserved by
`fill`). -/
def RandomStruct.random_final (self : RandomStruct) : RandomStruct :=
  { bytes_needed := 0
    state := List.replicate self.state.length 0
    output_available := 0
    output := List.replicate self.output.length 0 }

/-- What the external MD5 digest guarantees: 16 output bytes, each `< 256`. -/
def HashGood (h : List Nat → List Nat) : Prop :=
  ∀ b, (h b).length = 16 ∧ ∀ x ∈ h b, x < 256

/-- Well-formedness of a PRNG state (established by `new` and preserved by
every operation): 16-byte output buffer of genuine bytes, with at most 16
available. -/
def RandomStruct.WF (self : RandomStruct) : Prop :=
  self.output.length = 16 ∧ (∀ x ∈ self.output, x < 256) ∧
  self.output_available ≤ 16

theorem generateLoop_some (h : List Nat → List Nat) (hg : HashGood h) :
    ∀ (fuel : Nat) (block_len : Nat) (block output state : List Nat) (available : Nat),
    block_len + 1 ≤ fuel → (1 ≤ available ∨ block_len + 2 ≤ fuel) →
    available ≤ output.length → (∀ x ∈ output, x < 256) → (∀ x ∈ block, x < 256) →
    ∃ b bl av out st,
      generateLoop h fuel block block_len available output state
        = some (b, bl, av, out, st) ∧
      b.length + bl = block.length + block_len ∧
      bl ≤ av ∧ av ≤ out.length ∧
      (∀ x ∈ out, x < 256) ∧ (∀ x ∈ b, x < 256) ∧
      (out = output ∨ out.length = 16) := by
  intro fuel
  induction fuel with
  | zero =>
    intro block_len _ _ _ _ hf _ _ _ _
    omega
  | succ fuel ih =>
    intro block_len block output state available hf hf2 hav hout hblock
    by_cases hgt : block_len > available
    · have hstep : generateLoop h (fuel + 1) block block_len available output state
          = generateLoop h fuel (block ++ output.drop (output.length - available))
            (block_len - available) (h state).length (h state) (incState state) := by
        rw [generateLoop, if_pos hgt]
      have hlen16 : (h state).length = 16 := (hg state).1
      obtain ⟨b, bl, av, out, st, hsome, hsum, hble, havle, houtb, hbb, hor⟩ :=
        ih (block_len - available) (block ++ output.drop (output.length - available))
          (h state) (incState state) (h state).length
          (by omega)
          (by left; omega)
          (le_refl _)
          (hg state).2
          (by
            intro x hx
            rcases List.mem_append.mp hx with hx | hx
            · exact hblock x hx
            · exact hout x (List.mem_of_mem_drop hx))
      refine ⟨b, bl, av, out, st, by rw [hstep, hsome], ?_, hble, havle, houtb, hbb, ?_⟩
      · rw [hsum, List.length_append, List.length_drop]
        omega
      · rcases hor with hor | hor
        · right; rw [hor, hlen16]
        · right; exact hor
    · refine ⟨block, block_len, available, output, state, ?_, rfl, by omega, hav,
        hout, hblock, Or.inl rfl⟩
      rw [generateLoop, if_neg hgt]

theorem generate_bytes_spec (h : List Nat → List Nat) (hg : HashGood h)
    (rs : RandomStruct) (n : Nat) (hwf : rs.WF) (hbn : rs.bytes_needed = 0) :
    ∃ out rs', rs.generate_bytes h n = some (Except.ok (out, rs')) ∧
      out.length = n ∧ (∀ x ∈ out, x < 256) ∧ rs'.WF ∧ rs'.bytes_needed = 0 := by
  obtain ⟨holen, hobytes, havail⟩ := hwf
  obtain ⟨b, bl, av, out, st, hsome, hsum, hble, havle, houtb, hbb, hor⟩ :=
    generateLoop_some h hg (n + 2) n [] rs.output rs.state rs.output_available
      (by omega) (by right; omega) (by omega) hobytes (by intro x hx; cases hx)
  have houtlen : out.length = 16 := by
    rcases hor with hor | hor
    · rw [hor, holen]
    · exact hor
  refine ⟨b ++ (out.drop (out.length - av)).take bl,
    { rs with state := st, output_available := av - bl, output := out }, ?_, ?_, ?_, ?_, ?_⟩
  · rw [RandomStruct.generate_bytes, if_neg (by omega), hsome]
  · rw [List.length_append, List.length_take, List.length_drop]
    simp only [List.length_nil] at hsum
    omega
  · intro x hx
    rcases List.mem_append.mp hx with hx | hx
    · exact hbb x hx
    · exact houtb x (List.mem_of_mem_drop (List.mem_of_mem_take hx))
  · refine ⟨?_, ?_, ?_⟩
    · show out.length = 16
      exact houtlen
    · show ∀ x ∈ out, x < 256
      exact houtb
    · show av - bl ≤ 16
      omega
  · exact hbn

theorem fold_update_bytes_needed (h : List Nat → List Nat) :
    ∀ (blocks : List (List Nat)) (s : RandomStruct),
    (blocks.foldl (RandomStruct.random_update h) s).bytes_needed
      = s.bytes_needed - (blocks.map List.length).sum := by
  intro blocks
  induction blocks with
  | nil => intro s; simp
  | cons b bs ih =>
    intro s
    rw [List.foldl_cons, ih, List.map_cons, List.sum_cons]
    show (s.bytes_needed - b.length) - _ = _
    omega

/-- C4: for a freshly constructed PRNG, after any sequence of
`random_update` calls whose cumulative input length is below the 256-byte
threshold, every `generate_bytes(n)` call fails with `NeedRandom` (and
produces no output). -/
theorem C4_underseeded_generate_fails (h : List Nat → List Nat)
    (blocks : List (List Nat)) (n : Nat)
    (hsum : (blocks.map List.length).sum < 256) :
    RandomStruct.generate_bytes h
      (blocks.foldl (RandomStruct.random_update h) RandomStruct.new) n
      = some (Except.error RSAError.NeedRandom) := by
  have hbn : (blocks.foldl (RandomStruct.random_update h) RandomStruct.new).bytes_needed ≠ 0 := by
    rw [fold_update_bytes_needed]
    have hnew : RandomStruct.new.bytes_needed = 256 := rfl
    rw [hnew]
    omega
  rw [RandomStruct.generate_bytes, if_pos hbn]

theorem C4_underseeded_generate_fails_witness :
    RandomStruct.generate_bytes (fun _ => List.replicate 16 0)
      ([[1, 2, 3]].foldl
        (RandomStruct.random_update (fun _ => List.replicate 16 0)) RandomStruct.new) 5
      = some (Except.error RSAError.NeedRandom) :=
  C4_underseeded_generate_fails (fun _ => List.replicate 16 0) [[1, 2, 3]] 5 (by decide)

/-- C5-counterexample: immediately after `random_final`, `generate_bytes`
does NOT fail with `NeedRandom` (the claim asserts that it always does):
`random_final` sets `bytes_needed` to `0`, which *passes* the entropy
guard. -/
theorem C5_after_final_counterexample :
    RandomStruct.generate_bytes (fun _ => List.replicate 16 0)
      (RandomStruct.new.random_final) 1
      ≠ some (Except.error RSAError.NeedRandom) := by
  intro hcon
  have h1 : RandomStruct.generate_bytes (fun _ => List.replicate 16 0)
      (RandomStruct.new.random_final) 1
      = some (Except.ok ([0],
        { bytes_needed := 0
          state := List.replicate 16 1
          output_available := 15
          output := List.replicate 16 0 })) := by rfl
  rw [h1] at hcon
  exact Except.noConfusion (Option.some.inj hcon)

/-- C5-amended: after `random_final` the entropy debt is zero, so every
subsequent `generate_bytes` call passes the guard and succeeds (it never
returns `NeedRandom`), producing output derived from the zeroed state. -/
theorem C5_amended_generate_after_final (h : List Nat → List Nat)
    (s : RandomStruct) (n : Nat) (hg : HashGood h) (hlen : s.output.length = 16) :
    (s.random_final).bytes_needed = 0 ∧
    ∃ out s', RandomStruct.generate_bytes h (s.random_final) n
      = some (Except.ok (out, s')) ∧ out.length = n := by
  constructor
  · rfl
  · have hwf : (s.random_final).WF := by
      refine ⟨?_, ?_, ?_⟩
      · show (List.replicate s.output.length 0).length = 16
        rw [List.length_replicate, hlen]
      · show ∀ x ∈ List.replicate s.output.length 0, x < 256
        intro x hx
        rw [List.eq_of_mem_replicate hx]
        norm_num
      · show (0 : Nat) ≤ 16
        omega
    obtain ⟨out, s', hsome, hn, _, _, _⟩ :=
      generate_bytes_spec h hg (s.random_final) n hwf rfl
    exact ⟨out, s', hsome, hn⟩

theorem C5_amended_generate_after_final_witness :
    (RandomStruct.new.random_final).bytes_needed = 0 ∧
    ∃ out s', RandomStruct.generate_bytes (fun _ => List.replicate 16 1)
      (RandomStruct.new.random_final) 4 = some (Except.ok (out, s')) ∧ out.length = 4 :=
  C5_amended_generate_after_final (fun _ => List.replicate 16 1) RandomStruct.new 4
    (fun _ => ⟨rfl, fun x hx => by rw [List.eq_of_mem_replicate hx]; norm_num⟩)
    rfl

theorem divmod_correct_witness :
    nnVal ((⟨[123]⟩ : NNDigits).divmod ⟨[2]⟩).1.digits * nnVal (⟨[2]⟩ : NNDigits).digits
        + nnVal ((⟨[123]⟩ : NNDigits).divmod ⟨[2]⟩).2.digits
      = nnVal (⟨[123]⟩ : NNDigits).digits ∧
    nnVal ((⟨[123]⟩ : NNDigits).divmod ⟨[2]⟩).2.digits < nnVal (⟨[2]⟩ : NNDigits).digits :=
  divmod_correct ⟨[123]⟩ ⟨[2]⟩ (by decide) (by decide) rfl (by decide)

/-- C9-counterexample: with shift amount `0` (allowed by the claim's range
`0 ≤ bits ≤ 31`) both shifts panic in the Rust code — `source.n >> (32 - 0)`
and `source.n << (32 - 0)` are shift-overflows — modelled by `none`, instead
of returning the digit sequence shifted by `0`. -/
theorem C9_shift_zero_counterexample :
    NNDigits.lshift ⟨[1]⟩ 0 = none ∧ NNDigits.rshift ⟨[1]⟩ 0 = none := by
  decide

/-- C9-amended: for `1 ≤ bits ≤ 31` (not `0`), `lshift` and `rshift` complete
without panicking and return the value shifted by `bits` with digit-boundary
carries (left shift modulo the fixed width), keeping the digit count. -/
theorem C9_amended_shift_correct (x : NNDigits) (bits : Nat) (hx : nnNorm x.digits)
    (hb1 : 1 ≤ bits) (hb2 : bits ≤ 31) :
    (∃ y, x.lshift bits = some y ∧ y.digits.length = x.digits.length ∧
      nnVal y.digits = nnVal x.digits * 2 ^ bits % 2 ^ (32 * x.digits.length)) ∧
    (∃ y, x.rshift bits = some y ∧ y.digits.length = x.digits.length ∧
      nnVal y.digits = nnVal x.digits / 2 ^ bits) := by
  obtain ⟨y1, h1, h2, h3⟩ := lshift_spec x bits hx hb1 hb2
  obtain ⟨y2, g1, g2, g3⟩ := rshift_spec x bits hx hb1 hb2
  exact ⟨⟨y1, h1, h2, h3⟩, ⟨y2, g1, g2, g3⟩⟩

theorem C9_amended_shift_correct_witness :
    (∃ y, NNDigits.lshift ⟨[5, 7]⟩ 8 = some y ∧
      y.digits.length = (⟨[5, 7]⟩ : NNDigits).digits.length ∧
      nnVal y.digits = nnVal (⟨[5, 7]⟩ : NNDigits).digits * 2 ^ 8
        % 2 ^ (32 * (⟨[5, 7]⟩ : NNDigits).digits.length)) ∧
    (∃ y, NNDigits.rshift ⟨[5, 7]⟩ 8 = some y ∧
      y.digits.length = (⟨[5, 7]⟩ : NNDigits).digits.length ∧
      nnVal y.digits = nnVal (⟨[5, 7]⟩ : NNDigits).digits / 2 ^ 8) :=
  C9_amended_shift_correct ⟨[5, 7]⟩ 8 (by decide) (by decide) (by decide)

/-! ### RSA keys and key operations (`src/rsa.rs`) -/

def MAX_RSA_MODULUS_BITS : Nat := 1024

def MAX_RSA_MODULUS_LEN : Nat := (MAX_RSA_MODULUS_BITS + 7) / 8

/-- Modelled from the spec: `MIN_RSA_MODULUS_BITS` is imported by
`src/r_keygen.rs` from `crate::rsa` but not defined anywhere under `src/`;
the spec gives the supported modulus range as "e.g. 508–1024 bits in the
reference design". -/
def MIN_RSA_MODULUS_BITS : Nat := 508

structure RSAPublicKey where
  bits : Nat
  modulus : Nat
  exponent : Nat
  deriving Repr, DecidableEq

structure RSAPrivateKey where
  bits : Nat
  modulus : Nat
  public_exponent : Nat
  exponent : Nat
  prime0 : Nat
  prime1 : Nat
  prime_exponent0 : Nat
  prime_exponent1 : Nat
  coefficient : Nat
  deriving Repr, DecidableEq

/-- `RSAPublicKey::decode` (length check only; all fields accepted
unchecked; bytes beyond offset 260 ignored). -/
def RSAPublicKey.decode (data : List Nat) : Except String RSAPublicKey :=
  if data.length < 260 then Except.error "Input data is not large enough"
  else Except.ok
    { bits := fromLE4 (data.take 4)
      modulus := beVal ((data.drop 4).take 128)
      exponent := beVal ((data.drop 132).take 128) }

/-- `RSAPrivateKey::decode`. -/
def RSAPrivateKey.decode (data : List Nat) : Except String RSAPrivateKey :=
  if data.length < 708 then Except.error "Input data is not large enough"
  else Except.ok
    { bits := fromLE4 (data.take 4)
      modulus := beVal ((data.drop 4).take 128)
      public_exponent := beVal ((data.drop 132).take 128)
      exponent := beVal ((data.drop 260).take 128)
      prime0 := beVal ((data.drop 388).take 64)
      prime1 := beVal ((data.drop 452).take 64)
      prime_exponent0 := beVal ((data.drop 516).take 64)
      prime_exponent1 := beVal ((data.drop 580).take 64)
      coefficient := beVal ((data.drop 644).take 64) }

/-- `RSAPrivateKey::public_key`. -/
def RSAPrivateKey.public_key (self : RSAPrivateKey) : RSAPublicKey :=
  { bits := self.bits
    modulus := self.modulus
    exponent := self.public_exponent }

/-- `RSAPublicKey::rsa_public_block`: `c = m^e mod n`, rejecting `m ≥ n`. -/
def RSAPublicKey.rsa_public_block (self : RSAPublicKey) (input : List Nat) :
    Except RSAError (List Nat) :=
  let m := beVal input
  if self.modulus ≤ m then Except.error RSAError.Data
  else
    let c := powMod m self.exponent self.modulus
    Except.ok (toBE c ((self.bits + 7) / 8))

/-- `RSAPrivateKey::rsa_private_block`: the CRT private transform.  The
`else` branch `p - (mq - mp)` mirrors the unsigned-difference handling of
the source (where a `BigUint` underflow would panic; under the key
hypotheses used below `mq - mp < q < p`, so the subtraction is exact). -/
def RSAPrivateKey.rsa_private_block (self : RSAPrivateKey) (input : List Nat) :
    Except RSAError (List Nat) :=
  let c := beVal input
  let n := self.modulus
  let p := self.prime0
  let q := self.prime1
  let dp := self.prime_exponent0
  let dq := self.prime_exponent1
  let qinv := self.coefficient
  if n ≤ c then Except.error RSAError.Data
  else
    let cp := c % p
    let cq := c % q
    let mp := powMod cp dp p
    let mq := powMod cq dq q
    let t := if mq ≤ mp then mp - mq else p - (mq - mp)
    let t1 := t * qinv % p
    let t2 := t1 * q
    let t3 := t2 + mq
    Except.ok (toBE t3 ((self.bits + 7) / 8))

/-- The retry loop drawing one nonzero random byte for block-type-2 filler
(`loop { ... }` in `rsa_public_encrypt`), on fuel. -/
def getNonzeroByte (h : List Nat → List Nat) : Nat → RandomStruct →
    Option (Except RSAError (Nat × RandomStruct))
  | 0, _ => none
  | f + 1, rs =>
    match rs.generate_bytes h 1 with
    | none => none
    | some (Except.error e) => some (Except.error e)
    | some (Except.ok (bytes, rs')) =>
      let random_byte := bytes.getD 0 0
      if random_byte ≠ 0 then some (Except.ok (random_byte, rs'))
      else getNonzeroByte h f rs'

/-- The filler loop of `rsa_public_encrypt`: one nonzero random byte per
position. -/
def genFillers (h : List Nat → List Nat) (F : Nat) : Nat → RandomStruct →
    Option (Except RSAError (List Nat × RandomStruct))
  | 0, rs => some (Except.ok ([], rs))
  | count + 1, rs =>
    match getNonzeroByte h F rs with
    | none => none
    | some (Except.error e) => some (Except.error e)
    | some (Except.ok (b, rs')) =>
      match genFillers h F count rs' with
      | none => none
      | some (Except.error e) => some (Except.error e)
      | some (Except.ok (rest, rs'')) => some (Except.ok (b :: rest, rs''))

/-- `RSAPublicKey::rsa_public_encrypt`: PKCS#1 type-2 padding with random
nonzero filler, then the public block transform. -/
def RSAPublicKey.rsa_public_encrypt (self : RSAPublicKey)
    (h : List Nat → List Nat) (F : Nat) (input : List Nat) (rs : RandomStruct) :
    Option (Except RSAError (List Nat × RandomStruct)) :=
  let modulus_len := (self.bits + 7) / 8
  if modulus_len < input.length + 11 then some (Except.error RSAError.Len)
  else
    match genFillers h F (modulus_len - input.length - 3) rs with
    | none => none
    | some (Except.error e) => some (Except.error e)
    | some (Except.ok (fillers, rs')) =>
      let pkcs_block := 0 :: 2 :: (fillers ++ 0 :: input)
      match self.rsa_public_block pkcs_block with
      | Except.error e => some (Except.error e)
      | Except.ok c => some (Except.ok (c, rs'))

/-- `RSAPrivateKey::rsa_private_encrypt`: PKCS#1 type-1 padding with `0xFF`
filler, then the CRT private transform. -/
def RSAPrivateKey.rsa_private_encrypt (self : RSAPrivateKey) (input : List Nat) :
    Except RSAError (List Nat) :=
  let modulus_len := (self.bits + 7) / 8
  if modulus_len < input.length + 11 then Except.error RSAError.Len
  else
    let pkcs_block :=
      0 :: 1 :: (List.replicate (modulus_len - input.length - 3) 255 ++ 0 :: input)
    self.rsa_private_block pkcs_block

/-- The chunking `input.chunks(c)` (fuelled by the list length). -/
def chunksGo {α : Type} (c : Nat) : Nat → List α → List (List α)
  | _, [] => []
  | 0, _ => []
  | f + 1, l => l.take c :: chunksGo c f (l.drop c)

def chunks {α : Type} (c : Nat) (l : List α) : List (List α) :=
  chunksGo c l.length l

/-- The per-chunk fold shared by the three deterministic multi-block
operations (`for chunk in input.chunks(..) { result.extend(op(chunk)?) }`). -/
def concatResults (f : List Nat → Except RSAError (List Nat)) :
    List (List Nat) → Except RSAError (List Nat)
  | [] => Except.ok []
  | chunk :: rest =>
    match f chunk with
    | Except.error e => Except.error e
    | Except.ok out =>
      match concatResults f rest with
      | Except.error e => Except.error e
      | Except.ok restOut => Except.ok (out ++ restOut)

/-- The scan for the separator byte: the Rust loop assigns
`separator_start = i + 2` and then breaks on `stop`; `acc` is the last
assigned value (`0` before the first iteration). -/
def sepScanGo (stop : Nat → Bool) : List Nat → Nat → Nat → Nat
  | [], _, acc => acc
  | b :: bs, i, _ => if stop b then i else sepScanGo stop bs (i + 1) i

/-- `RSAPublicKey::rsa_public_decrypt`: public block transform, then
block-type-1 unpadding (filler scan stops at the first non-`0xFF` byte,
which must be the zero separator). -/
def RSAPublicKey.rsa_public_decrypt (self : RSAPublicKey) (input : List Nat) :
    Except RSAError (List Nat) :=
  let modulus_len := (self.bits + 7) / 8
  if modulus_len < input.length then Except.error RSAError.Len
  else match self.rsa_public_block input with
  | Except.error e => Except.error e
  | Except.ok pkcs_block =>
    if pkcs_block.length ≠ modulus_len then Except.error RSAError.Len
    else if pkcs_block.getD 0 0 ≠ 0 ∨ pkcs_block.getD 1 0 ≠ 1 then
      Except.error RSAError.Data
    else
      let separator_start :=
        sepScanGo (fun e => e != 255) ((pkcs_block.drop 2).take (pkcs_block.length - 3)) 2 0
      if pkcs_block.getD separator_start 0 ≠ 0 then Except.error RSAError.Data
      else
        let i := separator_start + 1
        let output_len := modulus_len - i
        if modulus_len < output_len + 11 then Except.error RSAError.Data
        else Except.ok (pkcs_block.drop i)

/-- `RSAPrivateKey::rsa_private_decrypt`: CRT private transform, then
block-type-2 unpadding (scan for the first zero byte; note the source never
re-checks that the byte at `separator_start` is actually zero). -/
def RSAPrivateKey.rsa_private_decrypt (self : RSAPrivateKey) (input : List Nat) :
    Except RSAError (List Nat) :=
  let modulus_len := (self.bits + 7) / 8
  if modulus_len < input.length then Except.error RSAError.Len
  else match self.rsa_private_block input with
  | Except.error e => Except.error e
  | Except.ok pkcs_block =>
    if pkcs_block.length ≠ modulus_len then Except.error RSAError.Len
    else if pkcs_block.getD 0 0 ≠ 0 ∨ pkcs_block.getD 1 0 ≠ 2 then
      Except.error RSAError.Data
    else
      let separator_start :=
        sepScanGo (fun e => e == 0) ((pkcs_block.drop 2).take (pkcs_block.length - 3)) 2 0
      let i := separator_start + 1
      if modulus_len < i then Except.error RSAError.Data
      else
        let output_len := modulus_len - i
        if modulus_len < output_len + 11 then Except.error RSAError.Data
        else Except.ok (pkcs_block.drop i)

/-- `RSAPrivateKey::encrypt`: 48-byte chunks, each independently padded and
transformed, outputs concatenated. -/
def RSAPrivateKey.encrypt (self : RSAPrivateKey) (input : List Nat) :
    Except RSAError (List Nat) :=
  concatResults self.rsa_private_encrypt (chunks 48 input)

/-- `RSAPrivateKey::decrypt`: 64-byte chunks. -/
def RSAPrivateKey.decrypt (self : RSAPrivateKey) (input : List Nat) :
    Except RSAError (List Nat) :=
  concatResults self.rsa_private_decrypt (chunks 64 input)

/-- `RSAPublicKey::decrypt`: 64-byte chunks. -/
def RSAPublicKey.decrypt (self : RSAPublicKey) (input : List Nat) :
    Except RSAError (List Nat) :=
  concatResults self.rsa_public_decrypt (chunks 64 input)

/-- Fold of `RSAPublicKey::encrypt` over the 48-byte chunks, threading the
PRNG state. -/
def encryptPubGo (self : RSAPublicKey) (h : List Nat → List Nat) (F : Nat) :
    List (List Nat) → RandomStruct → Option (Except RSAError (List Nat × RandomStruct))
  | [], rs => some (Except.ok ([], rs))
  | chunk :: rest, rs =>
    match self.rsa_public_encrypt h F chunk rs with
    | none => none
    | some (Except.error e) => some (Except.error e)
    | some (Except.ok (enc, rs')) =>
      match encryptPubGo self h F rest rs' with
      | none => none
      | some (Except.error e) => some (Except.error e)
      | some (Except.ok (restOut, rs'')) => some (Except.ok (enc ++ restOut, rs''))

/-- `RSAPublicKey::encrypt`: 48-byte chunks, each independently padded with
fresh random filler and transformed, outputs concatenated. -/
def RSAPublicKey.encrypt (self : RSAPublicKey) (h : List Nat → List Nat) (F : Nat)
    (input : List Nat) (rs : RandomStruct) :
    Option (Except RSAError (List Nat × RandomStruct)) :=
  encryptPubGo self h F (chunks 48 input) rs

/-! ### Number theory: Fermat reduction and CRT recombination -/

/-- Reducing an exponent modulo `p - 1` (with the base first reduced mod
`p`) does not change the power mod a prime `p`, provided the exponent is
zero or not a positive multiple of `p - 1`. -/
theorem pow_mod_prime_eq (p d dp c : Nat) (hp : p.Prime) (hdp : dp = d % (p - 1))
    (hcond : d = 0 ∨ ¬ (p - 1) ∣ d) :
    c ^ d % p = (c % p) ^ dp % p := by
  haveI : Fact p.Prime := ⟨hp⟩
  have hp1 : 1 < p := hp.one_lt
  rcases hcond with rfl | hnd
  · have hdp0 : dp = 0 := by simp [hdp]
    simp [hdp0]
  · have hd1 : 1 ≤ d := by
      rcases Nat.eq_zero_or_pos d with rfl | h
      · exact absurd (dvd_zero _) hnd
      · exact h
    have hdp1 : 1 ≤ dp := by
      rcases Nat.eq_zero_or_pos dp with h0 | h
      · rw [hdp] at h0
        exact absurd (Nat.dvd_iff_mod_eq_zero.mpr h0) hnd
      · exact h
    have key : (c : ZMod p) ^ d = (c : ZMod p) ^ dp := by
      by_cases hc : (c : ZMod p) = 0
      · rw [hc, zero_pow (by omega), zero_pow (by omega)]
      · have hsplit : d = (p - 1) * (d / (p - 1)) + dp := by
          rw [hdp]
          exact (Nat.div_add_mod ..).symm
        calc (c : ZMod p) ^ d
            = (c : ZMod p) ^ ((p - 1) * (d / (p - 1)) + dp) := by rw [← hsplit]
          _ = ((c : ZMod p) ^ (p - 1)) ^ (d / (p - 1)) * (c : ZMod p) ^ dp := by
              rw [pow_add, pow_mul]
          _ = (c : ZMod p) ^ dp := by
              rw [ZMod.pow_card_sub_one_eq_one hc, one_pow, one_mul]
    have hcast : (((c ^ d) : Nat) : ZMod p) = (((c % p) ^ dp : Nat) : ZMod p) := by
      push_cast
      rw [ZMod.natCast_mod]
      exact_mod_cast key
    rw [ZMod.natCast_eq_natCast_iff'] at hcast
    exact hcast

/-- Garner recombination: the unsigned CRT combination used by
`rsa_private_block` reconstructs `c^d mod (p*q)` from the two half-size
residues. -/
theorem crt_recombine (p q c d qinv : Nat)
    (hp : p.Prime) (hq : q.Prime) (hpq : q < p)
    (hqinv : qinv * q % p = 1) :
    ((if c ^ d % q ≤ c ^ d % p
       then c ^ d % p - c ^ d % q
       else p - (c ^ d % q - c ^ d % p)) * qinv % p) * q + c ^ d % q
      = c ^ d % (p * q) := by
  haveI : Fact p.Prime := ⟨hp⟩
  have hp0 : 0 < p := hp.pos
  have hq0 : 0 < q := hq.pos
  have hp1 : 1 < p := hp.one_lt
  set A := c ^ d % p with hA
  set B := c ^ d % q with hB
  have hAp : A < p := Nat.mod_lt _ hp0
  have hBq : B < q := Nat.mod_lt _ hq0
  set T := if B ≤ A then A - B else p - (B - A) with hT
  set u := T * qinv % p with hu
  have hup : u < p := Nat.mod_lt _ hp0
  set M := c ^ d % (p * q) with hM
  have hMlt : M < p * q := Nat.mod_lt _ (by positivity)
  have ht3lt : u * q + B < p * q := by
    have h1 : u * q ≤ (p - 1) * q := Nat.mul_le_mul_right _ (by omega)
    have h2 : (p - 1) * q + q = p * q := by
      calc (p - 1) * q + q = (p - 1 + 1) * q := by ring
        _ = p * q := by rw [Nat.sub_add_cancel (by omega)]
    omega
  have hMp : M % p = A := by
    rw [hM, hA, Nat.mod_mod_of_dvd _ (dvd_mul_right p q)]
  have hMq : M % q = B := by
    rw [hM, hB, Nat.mod_mod_of_dvd _ (dvd_mul_left q p)]
  -- congruence mod p via `ZMod p`
  have hTcast : ((T : Nat) : ZMod p) = ((A : Nat) : ZMod p) - ((B : Nat) : ZMod p) := by
    rw [hT]
    by_cases hab : B ≤ A
    · rw [if_pos hab, Nat.cast_sub hab]
    · rw [if_neg hab]
      have h1 : B - A ≤ p := by omega
      rw [Nat.cast_sub h1, Nat.cast_sub (by omega), ZMod.natCast_self]
      ring
  have hq1 : ((qinv * q : Nat) : ZMod p) = 1 := by
    rw [← ZMod.natCast_mod, hqinv, Nat.cast_one]
  have ht3p : ((u * q + B : Nat) : ZMod p) = ((A : Nat) : ZMod p) := by
    push_cast
    rw [hu]
    push_cast [ZMod.natCast_mod]
    calc ((T : Nat) : ZMod p) * (qinv : ZMod p) * (q : ZMod p) + ((B : Nat) : ZMod p)
        = ((T : Nat) : ZMod p) * ((qinv : ZMod p) * (q : ZMod p)) + ((B : Nat) : ZMod p) := by
          ring
      _ = ((A : Nat) : ZMod p) := by
          have hqq : ((qinv : Nat) : ZMod p) * ((q : Nat) : ZMod p) = 1 := by
            rw [← Nat.cast_mul, hq1]
          rw [hqq, hTcast]
          ring
  have hmodp : u * q + B ≡ M [MOD p] := by
    have h1 : u * q + B ≡ A [MOD p] := (ZMod.natCast_eq_natCast_iff _ _ _).mp ht3p
    have h2 : M ≡ A [MOD p] := by
      show M % p = A % p
      rw [hMp, Nat.mod_eq_of_lt hAp]
    exact h1.trans h2.symm
  have hmodq : u * q + B ≡ M [MOD q] := by
    show (u * q + B) % q = M % q
    rw [hMq, Nat.mul_comm u q, Nat.mul_add_mod, Nat.mod_eq_of_lt hBq]
  have hco : Nat.Coprime p q := (Nat.coprime_primes hp hq).mpr (by omega)
  have hfinal : u * q + B ≡ M [MOD p * q] :=
    (Nat.modEq_and_modEq_iff_modEq_mul hco).mp ⟨hmodp, hmodq⟩
  have := hfinal
  rw [Nat.ModEq] at this
  rw [Nat.mod_eq_of_lt ht3lt, Nat.mod_eq_of_lt hMlt] at this
  exact this

/-- The CRT private transform equals the direct `c^d mod n` transform, for a
key with consistent CRT fields whose exponent is not a positive multiple of
`p-1` or `q-1` (automatic for genuine RSA exponents). -/
theorem rsa_private_block_spec (K : RSAPrivateKey) (input : List Nat)
    (hp : K.prime0.Prime) (hq : K.prime1.Prime)
    (hpq : K.prime1 < K.prime0)
    (hn : K.modulus = K.prime0 * K.prime1)
    (hdp : K.prime_exponent0 = K.exponent % (K.prime0 - 1))
    (hdq : K.prime_exponent1 = K.exponent % (K.prime1 - 1))
    (hqinv : K.coefficient * K.prime1 % K.prime0 = 1)
    (hcond : K.exponent = 0
      ∨ (¬ (K.prime0 - 1) ∣ K.exponent ∧ ¬ (K.prime1 - 1) ∣ K.exponent))
    (hc : beVal input < K.modulus) :
    K.rsa_private_block input
      = Except.ok (toBE (powMod (beVal input) K.exponent K.modulus)
          ((K.bits + 7) / 8)) := by
  have hp0 : 0 < K.prime0 := hp.pos
  have hq0 : 0 < K.prime1 := hq.pos
  have hn0 : 0 < K.modulus := by rw [hn]; positivity
  have hunfold : K.rsa_private_block input
      = if K.modulus ≤ beVal input then Except.error RSAError.Data
        else Except.ok (toBE
          (((if powMod (beVal input % K.prime1) K.prime_exponent1 K.prime1
                ≤ powMod (beVal input % K.prime0) K.prime_exponent0 K.prime0
              then powMod (beVal input % K.prime0) K.prime_exponent0 K.prime0
                - powMod (beVal input % K.prime1) K.prime_exponent1 K.prime1
              else K.prime0 - (powMod (beVal input % K.prime1) K.prime_exponent1 K.prime1
                - powMod (beVal input % K.prime0) K.prime_exponent0 K.prime0))
            * K.coefficient % K.prime0) * K.prime1
            + powMod (beVal input % K.prime1) K.prime_exponent1 K.prime1)
          ((K.bits + 7) / 8)) := rfl
  rw [hunfold, if_neg (by omega)]
  have hmp : powMod (beVal input % K.prime0) K.prime_exponent0 K.prime0
      = beVal input ^ K.exponent % K.prime0 := by
    rw [powMod_correct]
    refine (pow_mod_prime_eq _ _ _ _ hp hdp ?_).symm
    rcases hcond with h | h
    · exact Or.inl h
    · exact Or.inr h.1
  have hmq : powMod (beVal input % K.prime1) K.prime_exponent1 K.prime1
      = beVal input ^ K.exponent % K.prime1 := by
    rw [powMod_correct]
    refine (pow_mod_prime_eq _ _ _ _ hq hdq ?_).symm
    rcases hcond with h | h
    · exact Or.inl h
    · exact Or.inr h.2
  rw [hmp, hmq,
    crt_recombine K.prime0 K.prime1 (beVal input) K.exponent K.coefficient hp hq hpq hqinv,
    powMod_correct, hn]

instance exceptDecEq {α β : Type} [DecidableEq α] [DecidableEq β] :
    DecidableEq (Except α β) := fun x y =>
  match x, y with
  | .error a, .error b =>
    if h : a = b then .isTrue (h ▸ rfl)
    else .isFalse (by intro hc; injection hc; contradiction)
  | .ok a, .ok b =>
    if h : a = b then .isTrue (h ▸ rfl)
    else .isFalse (by intro hc; injection hc; contradiction)
  | .error _, .ok _ => .isFalse (by intro hc; injection hc)
  | .ok _, .error _ => .isFalse (by intro hc; injection hc)

/-- The RSA identity: for distinct primes `p, q` and an exponent product
`ed ≡ 1 (mod (p-1)(q-1))`, raising to the `ed` modulo `pq` is the identity
on `[0, pq)`. -/
theorem rsa_identity (p q ed v : Nat) (hp : p.Prime) (hq : q.Prime) (hne : p ≠ q)
    (hed : ed % ((p - 1) * (q - 1)) = 1) (hv : v < p * q) :
    v ^ ed % (p * q) = v := by
  have hed1 : 1 ≤ ed := by
    rcases Nat.eq_zero_or_pos ed with rfl | h
    · rw [Nat.zero_mod] at hed
      cases hed
    · exact h
  obtain ⟨k, hsplit⟩ : ∃ k, ed = (p - 1) * (q - 1) * k + 1 := by
    refine ⟨ed / ((p - 1) * (q - 1)), ?_⟩
    conv_lhs => rw [← Nat.div_add_mod ed ((p - 1) * (q - 1))]
    rw [hed]
  have hper : ∀ r s : Nat, r.Prime → ed = (r - 1) * s + 1 → v ^ ed ≡ v [MOD r] := by
    intro r s hr hsp
    haveI : Fact r.Prime := ⟨hr⟩
    have key : ((v ^ ed : Nat) : ZMod r) = ((v : Nat) : ZMod r) := by
      push_cast
      by_cases hv0 : ((v : Nat) : ZMod r) = 0
      · rw [hv0, zero_pow (by omega)]
      · calc ((v : Nat) : ZMod r) ^ ed
            = ((v : Nat) : ZMod r) ^ ((r - 1) * s + 1) := by rw [← hsp]
          _ = (((v : Nat) : ZMod r) ^ (r - 1)) ^ s * ((v : Nat) : ZMod r) := by
              rw [pow_add, pow_mul, pow_one]
          _ = ((v : Nat) : ZMod r) := by
              rw [ZMod.pow_card_sub_one_eq_one hv0, one_pow, one_mul]
    exact (ZMod.natCast_eq_natCast_iff _ _ _).mp key
  have hmodp : v ^ ed ≡ v [MOD p] :=
    hper p ((q - 1) * k) hp (by rw [hsplit]; ring)
  have hmodq : v ^ ed ≡ v [MOD q] :=
    hper q ((p - 1) * k) hq (by rw [hsplit]; ring)
  have hco : Nat.Coprime p q := (Nat.coprime_primes hp hq).mpr hne
  have hfinal : v ^ ed ≡ v [MOD p * q] :=
    (Nat.modEq_and_modEq_iff_modEq_mul hco).mp ⟨hmodp, hmodq⟩
  have := hfinal
  rw [Nat.ModEq, Nat.mod_eq_of_lt hv] at this
  exact this

/-- C2: the claim as stated is FALSE. For the consistent key
`p = 5, q = 3, n = 15, d = 4` (so `dP = d mod (p-1) = 0`,
`dQ = d mod (q-1) = 0`, `qInv = 2`) and input block `[5]` (so `c = 5 < n`),
the CRT transform `rsa_private_block` returns `[1]`
(since `0^0 = 1` in both half-size exponentiations), while the direct
computation `c^d mod n = 5^4 mod 15 = 10` encodes to `[10]`. -/
theorem C2_crt_counterexample :
    (Nat.Prime 5 ∧ Nat.Prime 3 ∧ (3 : Nat) < 5 ∧ (15 : Nat) = 5 * 3
      ∧ (0 : Nat) = 4 % (5 - 1) ∧ (0 : Nat) = 4 % (3 - 1)
      ∧ (2 : Nat) * 3 % 5 = 1 ∧ beVal [5] < 15)
    ∧ RSAPrivateKey.rsa_private_block ⟨4, 15, 3, 4, 5, 3, 0, 0, 2⟩ [5]
        = Except.ok [1]
    ∧ toBE (powMod (beVal [5]) 4 15) ((4 + 7) / 8) = [10]
    ∧ ([1] : List Nat) ≠ [10] := by
  refine ⟨⟨by norm_num, by norm_num, by decide, by decide, by decide, by decide,
    by decide, by decide⟩, by decide, by decide, by decide⟩

/-- C2 (amended): for every RSA private key with consistent CRT components
(`p > q` distinct primes, `n = p*q`, `dP = d mod (p-1)`, `dQ = d mod (q-1)`,
`qInv*q ≡ 1 mod p`) whose exponent `d` is zero or a positive multiple of
neither `p-1` nor `q-1` (automatic for genuine RSA exponents, which are
invertible mod `(p-1)(q-1)`), and every input block whose big-endian value
`c` satisfies `c < n`, the CRT private transform `rsa_private_block` returns
the fixed-width big-endian encoding of `c^d mod n`, i.e. it equals the
direct `modpow(c, d, n)` computation. -/
theorem C2_amended_crt_equals_direct (K : RSAPrivateKey) (input : List Nat)
    (hp : K.prime0.Prime) (hq : K.prime1.Prime)
    (hpq : K.prime1 < K.prime0)
    (hn : K.modulus = K.prime0 * K.prime1)
    (hdp : K.prime_exponent0 = K.exponent % (K.prime0 - 1))
    (hdq : K.prime_exponent1 = K.exponent % (K.prime1 - 1))
    (hqinv : K.coefficient * K.prime1 % K.prime0 = 1)
    (hcond : K.exponent = 0
      ∨ (¬ (K.prime0 - 1) ∣ K.exponent ∧ ¬ (K.prime1 - 1) ∣ K.exponent))
    (hc : beVal input < K.modulus) :
    K.rsa_private_block input
      = Except.ok (toBE (powMod (beVal input) K.exponent K.modulus)
          ((K.bits + 7) / 8)) :=
  rsa_private_block_spec K input hp hq hpq hn hdp hdq hqinv hcond hc

/-- Witness for C2 (amended): the key `p = 5, q = 3, d = 3` with consistent
CRT fields on input `[2]` gives `2^3 mod 15 = 8`, encoded `[8]`. -/
theorem C2_amended_crt_equals_direct_witness :
    RSAPrivateKey.rsa_private_block ⟨4, 15, 3, 3, 5, 3, 3, 1, 2⟩ [2]
      = Except.ok [8] := by
  have h := C2_amended_crt_equals_direct ⟨4, 15, 3, 3, 5, 3, 3, 1, 2⟩ [2]
    (by norm_num) (by norm_num) (by decide) (by decide) (by decide) (by decide)
    (by decide) (Or.inr ⟨by decide, by decide⟩) (by decide)
  rw [h]
  rfl

/-- C10: key decoding performs only a length check. `RSAPublicKey.decode`
succeeds on every input of length at least 260 and `RSAPrivateKey.decode`
on every input of length at least 708, regardless of byte content; bytes
beyond the fixed encoded size are ignored (the result depends only on the
first 260 resp. 708 bytes); and decoding fails, with the error
"Input data is not large enough", exactly when the input is shorter. -/
theorem C10_decode_length_only (data : List Nat) :
    (260 ≤ data.length →
      (∃ k, RSAPublicKey.decode data = Except.ok k)
        ∧ RSAPublicKey.decode data = RSAPublicKey.decode (data.take 260))
    ∧ (data.length < 260 →
        RSAPublicKey.decode data = Except.error "Input data is not large enough")
    ∧ (708 ≤ data.length →
      (∃ k, RSAPrivateKey.decode data = Except.ok k)
        ∧ RSAPrivateKey.decode data = RSAPrivateKey.decode (data.take 708))
    ∧ (data.length < 708 →
        RSAPrivateKey.decode data = Except.error "Input data is not large enough") := by
  refine ⟨?_, ?_, ?_, ?_⟩
  · intro h
    constructor
    · exact ⟨_, by rw [RSAPublicKey.decode, if_neg (by omega)]⟩
    · rw [RSAPublicKey.decode, RSAPublicKey.decode]
      have hlen : (data.take 260).length = 260 := by
        simp [List.length_take]
        omega
      rw [if_neg (by omega), if_neg (by omega)]
      simp [List.drop_take, List.take_take]
  · intro h
    rw [RSAPublicKey.decode, if_pos h]
  · intro h
    constructor
    · exact ⟨_, by rw [RSAPrivateKey.decode, if_neg (by omega)]⟩
    · rw [RSAPrivateKey.decode, RSAPrivateKey.decode]
      have hlen : (data.take 708).length = 708 := by
        simp [List.length_take]
        omega
      rw [if_neg (by omega), if_neg (by omega)]
      simp [List.drop_take, List.take_take]
  · intro h
    rw [RSAPrivateKey.decode, if_pos h]

/-- Witness for C10 at concrete inputs: 708 zero bytes decode successfully
as both key kinds, and the empty input is rejected by both decoders. -/
theorem C10_decode_length_only_witness :
    ((∃ k, RSAPublicKey.decode (List.replicate 708 0) = Except.ok k)
      ∧ (∃ k, RSAPrivateKey.decode (List.replicate 708 0) = Except.ok k))
    ∧ (RSAPublicKey.decode [] = Except.error "Input data is not large enough"
      ∧ RSAPrivateKey.decode [] = Except.error "Input data is not large enough") := by
  refine ⟨⟨?_, ?_⟩, ?_, ?_⟩
  · exact ((C10_decode_length_only (List.replicate 708 0)).1 (by simp)).1
  · exact ((C10_decode_length_only (List.replicate 708 0)).2.2.1 (by simp)).1
  · exact (C10_decode_length_only ([] : List Nat)).2.1 (by simp)
  · exact (C10_decode_length_only ([] : List Nat)).2.2.2 (by simp)

/-! ### Concrete keys for end-to-end evaluation -/

/-- A 512-bit RSA key pair with modulus `pA * qA` and consistent CRT
fields (`e = 65537`, `d = e⁻¹ mod (pA-1)(qA-1)`). -/
def keyA : RSAPrivateKey :=
  { bits := 512
    modulus := 13357919450543161696367857344390758094544009512841754890994979157040251582212632045860694099896976566890380156973612465839512923021099562433065369634603009
    public_exponent := 65537
    exponent := 1717408933736312013879115095043052439150828145249319113043375412014910048243308206397500693988697051057905819024907768677277009820988681358970464971456513
    prime0 := pA
    prime1 := qA
    prime_exponent0 := 109026831853239297122884854327376605183598663749317037488403144856367622193153
    prime_exponent1 := 79149447987836818109631293589813853080955911053150320906566783992509421780993
    coefficient := 95331913129087762290585786688940508620060884573713304044319899329033261307991 }

/-- A 520-bit RSA key pair with modulus `pB * qB` and consistent CRT
fields (`e = 65537`, `d = e⁻¹ mod (pB-1)(qB-1)`). -/
def keyB : RSAPrivateKey :=
  { bits := 520
    modulus := 3375646905495656228522261542021104840352860201484543653904762239804523142109430894236592257295772026291666425357831118219726258471220310321957662231743168513
    public_exponent := 65537
    exponent := 1334713799260096431782006551084011928041620251172146721754644001404620415665678739379479982848092022153570908047530338593517136535947470076712508124183855105
    prime0 := pB
    prime1 := qB
    prime_exponent0 := 507719405714611277862015101965017654117102060047094206626459827390449859887105
    prime_exponent1 := 756463202882371337318070057309608694449358552984831346026652034833230042431489
    coefficient := 987925076249893422485998112506510862468981904894882198931428482893251778911748 }

/-- A 64-byte PKCS block of type 2 with no `0x00` byte anywhere after the
block-type byte. -/
def blockC6 : List Nat := 0 :: 2 :: (List.replicate 61 17 ++ [1])

/-- The ciphertext whose private transform under `keyA` yields `blockC6`
(computed as `blockC6`'s value raised to the public exponent mod `n`). -/
def inputC6 : List Nat :=
  [31, 117, 207, 75, 188, 19, 124, 250, 144, 64, 210, 181, 154, 89, 155, 123,
   211, 170, 96, 62, 163, 68, 215, 65, 255, 236, 234, 19, 179, 48, 226, 16,
   121, 210, 171, 83, 202, 84, 111, 195, 84, 164, 119, 9, 166, 24, 103, 205,
   93, 99, 7, 161, 92, 40, 230, 156, 233, 40, 61, 90, 63, 143, 21, 193]

/-- C6: code bug. `rsa_private_decrypt` never re-checks that the byte at
`separator_start` is zero, so a decrypted PKCS block that contains NO zero
separator after the block-type byte is not rejected: on `inputC6` the
private transform yields `blockC6` (every byte after position 1 is
nonzero), yet decryption returns `Ok [1]` instead of the Data error. -/
theorem C6_missing_separator_not_rejected :
    keyA.rsa_private_block inputC6 = Except.ok blockC6
    ∧ (blockC6.drop 2).all (fun b => b != 0) = true
    ∧ keyA.rsa_private_decrypt inputC6 = Except.ok [1] := by
  refine ⟨by decide, by decide, by decide⟩

/-- A well-formed 64-byte PKCS block of TYPE 1 (leading `0x00`, type byte
`0x01`, `0xFF` filler, zero separator, 13-byte payload). -/
def blockC7 : List Nat := 0 :: 1 :: (List.replicate 48 255 ++ 0 :: List.replicate 13 7)

/-- The ciphertext whose PRIVATE transform under `keyA` yields `blockC7`. -/
def inputC7 : List Nat :=
  [43, 254, 213, 40, 41, 33, 51, 145, 7, 75, 92, 91, 252, 98, 56, 115,
   215, 173, 103, 113, 41, 18, 184, 166, 39, 150, 15, 104, 43, 185, 113, 139,
   21, 58, 119, 9, 222, 90, 80, 77, 121, 43, 145, 164, 116, 88, 6, 101,
   43, 103, 38, 72, 160, 160, 82, 174, 102, 190, 166, 147, 182, 144, 7, 5]

/-- A well-formed 64-byte PKCS block of TYPE 2 (leading `0x00`, type byte
`0x02`, nonzero filler, zero separator, 13-byte payload). -/
def blockC7pub : List Nat := 0 :: 2 :: (List.replicate 48 17 ++ 0 :: List.replicate 13 9)

/-- The ciphertext whose PUBLIC transform under `keyA`'s public key yields
`blockC7pub`. -/
def inputC7pub : List Nat :=
  [2, 227, 215, 34, 79, 141, 38, 82, 109, 73, 8, 18, 27, 190, 211, 76,
   11, 127, 14, 235, 185, 176, 119, 41, 187, 151, 64, 195, 87, 227, 94, 225,
   82, 111, 93, 109, 151, 249, 154, 71, 239, 40, 187, 94, 73, 238, 41, 144,
   28, 139, 33, 79, 69, 87, 200, 44, 30, 16, 184, 212, 207, 218, 50, 41]

/-- C7: the claim as stated is FALSE — it swaps the expected block types.
A decrypted block whose type byte is `0x01` (the type the claim says
private-decrypt expects) is REJECTED by `rsa_private_decrypt` with the Data
error, and a block whose type byte is `0x02` (the type the claim says
public-decrypt expects) is REJECTED by `rsa_public_decrypt`: in the code,
private-decrypt expects `0x02` and public-decrypt expects `0x01`. -/
theorem C7_type_bytes_counterexample :
    keyA.rsa_private_block inputC7 = Except.ok blockC7
    ∧ blockC7.getD 0 0 = 0 ∧ blockC7.getD 1 0 = 1
    ∧ keyA.rsa_private_decrypt inputC7 = Except.error RSAError.Data
    ∧ keyA.public_key.rsa_public_block inputC7pub = Except.ok blockC7pub
    ∧ blockC7pub.getD 0 0 = 0 ∧ blockC7pub.getD 1 0 = 2
    ∧ keyA.public_key.rsa_public_decrypt inputC7pub = Except.error RSAError.Data := by
  refine ⟨by decide, by decide, by decide, by decide, by decide, by decide,
    by decide, by decide⟩

/-- C7 (amended): padding decode validates the leading byte and the
block-type byte as follows: the expected block-type byte is `0x02` for
private-decrypt and `0x01` for public-decrypt, and for every key whose
modulus occupies at least 2 bytes (so that the two leading block bytes
exist and the source's `pkcs_block[0]`/`pkcs_block[1]` reads cannot panic)
and every input block, a decrypted block whose first byte is not `0x00` or
whose second byte differs from that expected type is rejected with a Data
error. -/
theorem C7_amended_type_byte_validation (K : RSAPrivateKey) (P : RSAPublicKey)
    (c1 c2 b1 b2 : List Nat)
    (_h2K : 2 ≤ (K.bits + 7) / 8)
    (hl1 : c1.length ≤ (K.bits + 7) / 8)
    (h1 : K.rsa_private_block c1 = Except.ok b1)
    (hb1 : b1.length = (K.bits + 7) / 8)
    (hbad1 : b1.getD 0 0 ≠ 0 ∨ b1.getD 1 0 ≠ 2)
    (_h2P : 2 ≤ (P.bits + 7) / 8)
    (hl2 : c2.length ≤ (P.bits + 7) / 8)
    (h2 : P.rsa_public_block c2 = Except.ok b2)
    (hb2 : b2.length = (P.bits + 7) / 8)
    (hbad2 : b2.getD 0 0 ≠ 0 ∨ b2.getD 1 0 ≠ 1) :
    K.rsa_private_decrypt c1 = Except.error RSAError.Data
    ∧ P.rsa_public_decrypt c2 = Except.error RSAError.Data := by
  constructor
  · unfold RSAPrivateKey.rsa_private_decrypt
    rw [if_neg (by omega), h1]
    dsimp only
    rw [if_neg (by simp [hb1]), if_pos hbad1]
  · unfold RSAPublicKey.rsa_public_decrypt
    rw [if_neg (by omega), h2]
    dsimp only
    rw [if_neg (by simp [hb2]), if_pos hbad2]

/-- Witness for C7 (amended): at the key `p = 5, q = 3, d = 3` declared
with 12 bits (2-byte modulus) the private transform of `[2]` is the
two-byte block `[0, 8]`, whose type byte `8` is neither `0x02` nor `0x01`,
so both decrypts reject with a Data error. -/
theorem C7_amended_type_byte_validation_witness :
    RSAPrivateKey.rsa_private_decrypt ⟨12, 15, 3, 3, 5, 3, 3, 1, 2⟩ [2]
      = Except.error RSAError.Data
    ∧ RSAPublicKey.rsa_public_decrypt ⟨12, 15, 3⟩ [2]
      = Except.error RSAError.Data :=
  C7_amended_type_byte_validation ⟨12, 15, 3, 3, 5, 3, 3, 1, 2⟩ ⟨12, 15, 3⟩
    [2] [2] [0, 8] [0, 8]
    (by decide) (by decide) (by decide) (by decide) (Or.inr (by decide))
    (by decide) (by decide) (by decide) (by decide) (Or.inr (by decide))

/-- C8: the claim as stated is FALSE. The chunk sizes are hardcoded 48
(plaintext) and 64 (ciphertext), NOT derived from the key's bit length:
for `keyA` (`modulus_bytes = 64`), a 49-byte plaintext — which would fit a
single chunk of the claimed size `modulus_bytes - 11 = 53` and produce one
64-byte block — is split into chunks of 48 and 1 bytes and encrypts to 128
bytes. -/
theorem C8_chunk_size_counterexample :
    (keyA.bits + 7) / 8 = 64
    ∧ (chunks 48 (List.replicate 49 65)).map List.length = [48, 1]
    ∧ Except.map List.length (keyA.encrypt (List.replicate 49 65)) = Except.ok 128
    ∧ (128 : Nat) ≠ 64 :=
  ⟨by decide, by decide, by decide, by decide⟩

/-! ### Chunking lemmas -/

theorem chunksGo_fuel {α : Type} (c : Nat) (hc : 0 < c) (f : Nat) :
    ∀ l : List α, l.length ≤ f → chunksGo c f l = chunksGo c l.length l := by
  induction f using Nat.strong_induction_on with
  | _ f ih =>
    intro l hl
    cases l with
    | nil => cases f <;> rfl
    | cons a t =>
      cases f with
      | zero => simp at hl
      | succ g =>
      show (a :: t).take c :: chunksGo c g ((a :: t).drop c)
        = (a :: t).take c :: chunksGo c t.length ((a :: t).drop c)
      have hdl : ((a :: t).drop c).length = t.length + 1 - c := by
        simp
      have h1 : chunksGo c g ((a :: t).drop c)
          = chunksGo c ((a :: t).drop c).length ((a :: t).drop c) := by
        refine ih g (by omega) _ ?_
        simp at hl ⊢
        omega
      have h2 : chunksGo c t.length ((a :: t).drop c)
          = chunksGo c ((a :: t).drop c).length ((a :: t).drop c) := by
        refine ih t.length (by simp at hl; omega) _ ?_
        rw [hdl]
        omega
      rw [h1, h2]

theorem chunks_cons {α : Type} (c : Nat) (hc : 0 < c) (l : List α) (hl : l ≠ []) :
    chunks c l = l.take c :: chunks c (l.drop c) := by
  match l with
  | [] => exact absurd rfl hl
  | a :: t =>
    show chunksGo c (t.length + 1) (a :: t) = _
    show (a :: t).take c :: chunksGo c t.length ((a :: t).drop c) = _
    rw [chunksGo_fuel c hc t.length ((a :: t).drop c) (by simp; omega)]
    rfl

theorem chunks_append {α : Type} (c : Nat) (hc : 0 < c) (m1 m2 : List α)
    (hd : c ∣ m1.length) :
    chunks c (m1 ++ m2) = chunks c m1 ++ chunks c m2 := by
  obtain ⟨k, hk⟩ := hd
  induction k generalizing m1 with
  | zero =>
    have : m1 = [] := List.eq_nil_of_length_eq_zero (by omega)
    subst this
    rfl
  | succ k ih =>
    have hlen : c ≤ m1.length := by rw [hk]; nlinarith
    have hm1ne : m1 ≠ [] := by
      intro h
      subst h
      simp at hk
      omega
    by_cases hm2 : m2 = []
    · subst hm2
      simp
      rfl
    have hne : m1 ++ m2 ≠ [] := by
      simp [hm1ne]
    rw [chunks_cons c hc (m1 ++ m2) hne, chunks_cons c hc m1 hm1ne]
    rw [List.take_append_of_le_length hlen, List.drop_append_of_le_length hlen]
    rw [ih (m1.drop c) (by simp only [List.length_drop, hk, Nat.mul_succ]; omega)]
    rfl

theorem chunks_flatten {α : Type} (c : Nat) (hc : 0 < c) (l : List α) :
    (chunks c l).flatten = l := by
  have H : ∀ n (l : List α), l.length = n → (chunks c l).flatten = l := by
    intro n
    induction n using Nat.strong_induction_on with
    | _ n ih =>
      intro l hl
      match l with
      | [] => rfl
      | a :: t =>
        rw [chunks_cons c hc _ (by simp), List.flatten_cons,
          ih ((a :: t).drop c).length (by simp at hl ⊢; omega) _ rfl,
          List.take_append_drop]
  exact H l.length l rfl

theorem chunks_length_le {α : Type} (c : Nat) (hc : 0 < c) (l : List α) :
    ∀ ch ∈ chunks c l, ch.length ≤ c := by
  have H : ∀ n (l : List α), l.length = n → ∀ ch ∈ chunks c l, ch.length ≤ c := by
    intro n
    induction n using Nat.strong_induction_on with
    | _ n ih =>
      intro l hl ch hch
      match l with
      | [] => simp [chunks, chunksGo] at hch
      | a :: t =>
        rw [chunks_cons c hc _ (by simp)] at hch
        rcases List.mem_cons.mp hch with rfl | hmem
        · simp only [List.length_take]
          exact Nat.min_le_left c (a :: t).length
        · exact ih ((a :: t).drop c).length (by simp at hl ⊢; omega) _ rfl ch hmem
  exact H l.length l rfl

theorem concatResults_append (f : List Nat → Except RSAError (List Nat))
    (l1 l2 : List (List Nat)) (o1 o2 : List Nat)
    (h1 : concatResults f l1 = Except.ok o1)
    (h2 : concatResults f l2 = Except.ok o2) :
    concatResults f (l1 ++ l2) = Except.ok (o1 ++ o2) := by
  induction l1 generalizing o1 with
  | nil =>
    have ho : o1 = [] := (Except.ok.inj h1).symm
    subst ho
    simp only [List.nil_append]
    exact h2
  | cons ch rest ih =>
    rw [concatResults.eq_def] at h1
    dsimp only at h1
    show (match f ch with
      | Except.error e => Except.error e
      | Except.ok out =>
        match concatResults f (rest ++ l2) with
        | Except.error e => Except.error e
        | Except.ok restOut => Except.ok (out ++ restOut))
      = Except.ok (o1 ++ o2)
    cases hf : f ch with
    | error e =>
      rw [hf] at h1
      simp at h1
    | ok out =>
      rw [hf] at h1
      dsimp only at h1
      show (match concatResults f (rest ++ l2) with
        | Except.error e => Except.error e
        | Except.ok restOut => Except.ok (out ++ restOut))
        = Except.ok (o1 ++ o2)
      cases hr : concatResults f rest with
      | error e =>
        rw [hr] at h1
        simp at h1
      | ok ro =>
        rw [hr] at h1
        dsimp only at h1
        have ho1 : out ++ ro = o1 := Except.ok.inj h1
        rw [ih ro hr]
        show Except.ok (out ++ (ro ++ o2)) = Except.ok (o1 ++ o2)
        rw [← ho1, List.append_assoc]

theorem encryptPubGo_append (P : RSAPublicKey) (h : List Nat → List Nat) (F : Nat)
    (l1 l2 : List (List Nat)) (rs rs' rs'' : RandomStruct) (e1 e2 : List Nat)
    (h1 : encryptPubGo P h F l1 rs = some (Except.ok (e1, rs')))
    (h2 : encryptPubGo P h F l2 rs' = some (Except.ok (e2, rs''))) :
    encryptPubGo P h F (l1 ++ l2) rs = some (Except.ok (e1 ++ e2, rs'')) := by
  induction l1 generalizing rs e1 with
  | nil =>
    rw [encryptPubGo] at h1
    have hp := Option.some.inj h1
    have hp2 := Except.ok.inj hp
    have he : e1 = [] := (congrArg Prod.fst hp2).symm
    have hrs : rs = rs' := congrArg Prod.snd hp2
    subst he
    subst hrs
    simpa using h2
  | cons ch rest ih =>
    rw [encryptPubGo.eq_def] at h1
    dsimp only at h1
    show (match P.rsa_public_encrypt h F ch rs with
      | none => none
      | some (Except.error e) => some (Except.error e)
      | some (Except.ok (enc, rs1)) =>
        match encryptPubGo P h F (rest ++ l2) rs1 with
        | none => none
        | some (Except.error e) => some (Except.error e)
        | some (Except.ok (restOut, rs2)) => some (Except.ok (enc ++ restOut, rs2)))
      = some (Except.ok (e1 ++ e2, rs''))
    cases henc : P.rsa_public_encrypt h F ch rs with
    | none =>
      rw [henc] at h1
      simp at h1
    | some r =>
      cases r with
      | error e =>
        rw [henc] at h1
        simp at h1
      | ok pr =>
        rw [henc] at h1
        dsimp only at h1
        show (match encryptPubGo P h F (rest ++ l2) pr.2 with
          | none => none
          | some (Except.error e) => some (Except.error e)
          | some (Except.ok (restOut, rs2)) => some (Except.ok (pr.1 ++ restOut, rs2)))
          = some (Except.ok (e1 ++ e2, rs''))
        cases hrest : encryptPubGo P h F rest pr.2 with
        | none =>
          rw [hrest] at h1
          simp at h1
        | some r2 =>
          cases r2 with
          | error e =>
            rw [hrest] at h1
            simp at h1
          | ok pr2 =>
            rw [hrest] at h1
            dsimp only at h1
            have hp := Except.ok.inj (Option.some.inj h1)
            have he : pr.1 ++ pr2.1 = e1 := congrArg Prod.fst hp
            have hrs : pr2.2 = rs' := congrArg Prod.snd hp
            rw [ih pr.2 pr2.1 (by rw [hrest, ← hrs])]
            show some (Except.ok (pr.1 ++ (pr2.1 ++ e2), rs'')) = some (Except.ok (e1 ++ e2, rs''))
            rw [← he, List.append_assoc]

/-- C8 (amended): multi-block operations partition their input into
HARDCODED fixed-size chunks — 48-byte plaintext chunks and 64-byte
ciphertext chunks, NOT sizes derived from the key's bit length — the last
chunk possibly shorter; each chunk is processed independently and the
outputs are concatenated in input order.  Partitioning is exact (chunks
concatenate back to the input, each chunk at most the chunk size), and on
chunk-aligned prefixes every multi-block operation distributes over
concatenation. -/
theorem C8_amended_fixed_chunking (K : RSAPrivateKey) (P : RSAPublicKey)
    (h : List Nat → List Nat) (F : Nat) (rs rs' rs'' : RandomStruct)
    (m1 m2 c1 c2 d1 d2 o1 o2 r1 r2 s1 s2 e1 e2 : List Nat)
    (hm : 48 ∣ m1.length) (hc : 64 ∣ c1.length) (hd : 64 ∣ d1.length)
    (h1 : K.encrypt m1 = Except.ok o1) (h2 : K.encrypt m2 = Except.ok o2)
    (h3 : K.decrypt c1 = Except.ok r1) (h4 : K.decrypt c2 = Except.ok r2)
    (h5 : P.decrypt d1 = Except.ok s1) (h6 : P.decrypt d2 = Except.ok s2)
    (h7 : P.encrypt h F m1 rs = some (Except.ok (e1, rs')))
    (h8 : P.encrypt h F m2 rs' = some (Except.ok (e2, rs''))) :
    (chunks 48 (m1 ++ m2) = chunks 48 m1 ++ chunks 48 m2)
    ∧ (chunks 48 (m1 ++ m2)).flatten = m1 ++ m2
    ∧ (chunks 48 (m1 ++ m2)).all (fun ch => Nat.ble ch.length 48) = true
    ∧ (chunks 64 (c1 ++ c2) = chunks 64 c1 ++ chunks 64 c2)
    ∧ (chunks 64 (c1 ++ c2)).flatten = c1 ++ c2
    ∧ (chunks 64 (c1 ++ c2)).all (fun ch => Nat.ble ch.length 64) = true
    ∧ K.encrypt (m1 ++ m2) = Except.ok (o1 ++ o2)
    ∧ K.decrypt (c1 ++ c2) = Except.ok (r1 ++ r2)
    ∧ P.decrypt (d1 ++ d2) = Except.ok (s1 ++ s2)
    ∧ P.encrypt h F (m1 ++ m2) rs = some (Except.ok (e1 ++ e2, rs'')) := by
  refine ⟨chunks_append 48 (by omega) m1 m2 hm,
    chunks_flatten 48 (by omega) _,
    ?_,
    chunks_append 64 (by omega) c1 c2 hc,
    chunks_flatten 64 (by omega) _,
    ?_, ?_, ?_, ?_, ?_⟩
  · rw [List.all_eq_true]
    intro ch hch
    exact Nat.ble_eq.mpr (chunks_length_le 48 (by omega) _ ch hch)
  · rw [List.all_eq_true]
    intro ch hch
    exact Nat.ble_eq.mpr (chunks_length_le 64 (by omega) _ ch hch)
  · show concatResults K.rsa_private_encrypt (chunks 48 (m1 ++ m2)) = _
    rw [chunks_append 48 (by omega) m1 m2 hm]
    exact concatResults_append _ _ _ _ _ h1 h2
  · show concatResults K.rsa_private_decrypt (chunks 64 (c1 ++ c2)) = _
    rw [chunks_append 64 (by omega) c1 c2 hc]
    exact concatResults_append _ _ _ _ _ h3 h4
  · show concatResults P.rsa_public_decrypt (chunks 64 (d1 ++ d2)) = _
    rw [chunks_append 64 (by omega) d1 d2 hd]
    exact concatResults_append _ _ _ _ _ h5 h6
  · show encryptPubGo P h F (chunks 48 (m1 ++ m2)) rs = _
    rw [chunks_append 48 (by omega) m1 m2 hm]
    exact encryptPubGo_append _ _ _ _ _ _ _ _ _ _ h7 h8

/-- A degenerate hash returning sixteen `0x01` bytes, used to drive the
PRNG deterministically in concrete evaluations. -/
def hashOnes : List Nat → List Nat := fun _ => List.replicate 16 1

/-- A seeded PRNG state (entropy requirement met, everything zeroed). -/
def rsW0 : RandomStruct := ⟨0, List.replicate 16 0, 0, List.replicate 16 0⟩

/-- The PRNG state after drawing 13 filler bytes from `rsW0` under
`hashOnes`. -/
def rsW1 : RandomStruct := ⟨0, List.replicate 16 1, 3, List.replicate 16 1⟩

/-- The PRNG state after drawing 60 further filler bytes from `rsW1` under
`hashOnes`. -/
def rsW2 : RandomStruct := ⟨0, List.replicate 15 1 ++ [5], 7, List.replicate 16 1⟩

/-- Ciphertext under `keyA` of the type-2 block `[0,2] ++ [17]*13 ++ [0] ++ [3]*48`. -/
def cw1 : List Nat :=
  [134, 128, 48, 66, 162, 231, 35, 204, 106, 22, 185, 18, 68, 29, 152, 61,
   185, 237, 243, 102, 84, 12, 170, 210, 190, 198, 10, 221, 214, 207, 71, 181,
   163, 65, 37, 200, 43, 255, 250, 221, 102, 94, 84, 252, 45, 248, 98, 238,
   232, 251, 127, 101, 81, 253, 10, 135, 46, 35, 249, 68, 46, 171, 198, 100]

/-- Ciphertext under `keyA` of the type-2 block `[0,2] ++ [255]*50 ++ [0] ++ [4]*11`. -/
def cw2 : List Nat :=
  [44, 120, 42, 0, 23, 203, 41, 77, 162, 35, 223, 101, 243, 142, 94, 159,
   203, 192, 130, 205, 50, 30, 104, 80, 8, 248, 182, 53, 69, 188, 157, 75,
   198, 250, 55, 247, 161, 182, 27, 174, 216, 208, 219, 108, 44, 83, 3, 65,
   40, 50, 66, 18, 107, 150, 138, 192, 221, 211, 173, 176, 72, 218, 66, 233]

/-- Signature under `keyA` of the type-1 block `[0,1] ++ [255]*13 ++ [0] ++ [5]*48`. -/
def dw1 : List Nat :=
  [157, 173, 39, 31, 50, 96, 217, 107, 8, 25, 45, 171, 230, 211, 44, 5,
   235, 218, 142, 95, 41, 181, 162, 203, 248, 143, 106, 105, 56, 170, 134, 56,
   5, 226, 228, 120, 33, 122, 147, 152, 62, 171, 36, 251, 54, 245, 131, 244,
   253, 41, 8, 66, 184, 233, 51, 36, 225, 47, 205, 2, 69, 13, 241, 191]

/-- Signature under `keyA` of the type-1 block `[0,1] ++ [255]*50 ++ [0] ++ [6]*11`. -/
def dw2 : List Nat :=
  [15, 43, 13, 199, 109, 69, 69, 7, 135, 171, 135, 240, 197, 253, 18, 23,
   157, 135, 125, 57, 72, 218, 242, 216, 117, 211, 175, 86, 122, 146, 58, 198,
   98, 110, 51, 62, 193, 179, 139, 231, 240, 187, 188, 192, 245, 190, 114, 14,
   8, 208, 139, 24, 124, 30, 158, 51, 223, 150, 22, 197, 155, 81, 249, 152]

/-- `keyA`'s private multi-block encryption of the 48-byte chunk `[65]*48`. -/
def encA1 : List Nat :=
  [42, 72, 170, 251, 61, 70, 126, 93, 16, 59, 191, 85, 254, 116, 13, 112,
   167, 78, 108, 148, 12, 118, 86, 58, 223, 9, 155, 65, 97, 157, 45, 102,
   204, 9, 130, 230, 235, 84, 221, 194, 91, 88, 130, 4, 29, 151, 191, 21,
   107, 108, 103, 213, 32, 96, 64, 115, 69, 5, 172, 166, 138, 112, 178, 102]

/-- `keyA`'s private multi-block encryption of the 1-byte chunk `[66]`. -/
def encA2 : List Nat :=
  [13, 233, 74, 68, 255, 196, 249, 141, 26, 124, 120, 99, 31, 185, 86, 4,
   123, 56, 6, 46, 225, 241, 10, 230, 239, 121, 213, 87, 111, 219, 172, 61,
   186, 147, 14, 21, 226, 39, 223, 62, 202, 255, 208, 193, 21, 32, 46, 240,
   247, 32, 248, 32, 217, 60, 111, 81, 149, 87, 47, 210, 116, 87, 190, 150]

/-- `keyA`'s public encryption of the 48-byte chunk `[65]*48` with
`hashOnes` filler (all `0x01`). -/
def pubA1 : List Nat :=
  [40, 7, 32, 4, 228, 57, 208, 138, 195, 85, 69, 86, 78, 15, 205, 223,
   174, 157, 156, 96, 204, 114, 219, 180, 66, 232, 78, 146, 14, 248, 20, 24,
   90, 102, 248, 77, 150, 40, 224, 121, 187, 2, 46, 30, 80, 157, 65, 229,
   86, 212, 186, 78, 9, 195, 101, 121, 133, 91, 168, 201, 154, 60, 210, 233]

/-- `keyA`'s public encryption of the 1-byte chunk `[66]` with `hashOnes`
filler. -/
def pubA2 : List Nat :=
  [137, 218, 214, 128, 51, 55, 139, 167, 46, 89, 137, 250, 3, 224, 12, 253,
   192, 62, 238, 206, 46, 212, 97, 117, 134, 213, 237, 225, 207, 219, 19, 198,
   194, 47, 101, 71, 193, 4, 141, 137, 172, 88, 86, 197, 145, 193, 239, 135,
   69, 173, 125, 142, 62, 0, 176, 155, 108, 98, 245, 109, 255, 234, 255, 32]

/-- Witness for C8 (amended) at `keyA`: a 48-byte-aligned split of a
49-byte plaintext and 64-byte-aligned splits of 128-byte ciphertexts, with
all four multi-block operations distributing over the concatenation. -/
theorem C8_amended_fixed_chunking_witness :
    chunks 48 (List.replicate 48 65 ++ [66])
      = chunks 48 (List.replicate 48 65) ++ chunks 48 [66]
    ∧ keyA.encrypt (List.replicate 48 65 ++ [66]) = Except.ok (encA1 ++ encA2)
    ∧ keyA.decrypt (cw1 ++ cw2)
      = Except.ok (List.replicate 48 3 ++ List.replicate 11 4)
    ∧ keyA.public_key.decrypt (dw1 ++ dw2)
      = Except.ok (List.replicate 48 5 ++ List.replicate 11 6)
    ∧ keyA.public_key.encrypt hashOnes 1 (List.replicate 48 65 ++ [66]) rsW0
      = some (Except.ok (pubA1 ++ pubA2, rsW2)) := by
  have H := C8_amended_fixed_chunking keyA keyA.public_key hashOnes 1
    rsW0 rsW1 rsW2 (List.replicate 48 65) [66] cw1 cw2 dw1 dw2
    encA1 encA2 (List.replicate 48 3) (List.replicate 11 4)
    (List.replicate 48 5) (List.replicate 11 6) pubA1 pubA2
    (by decide) (by decide) (by decide) (by decide) (by decide) (by decide)
    (by decide) (by decide) (by decide) (by decide) (by decide)
  exact ⟨H.1, H.2.2.2.2.2.2.1, H.2.2.2.2.2.2.2.1, H.2.2.2.2.2.2.2.2.1,
    H.2.2.2.2.2.2.2.2.2⟩

/-- `keyB`'s multi-block private encryption of the one-byte plaintext `[0]`
(a single 65-byte block). -/
def cB1 : List Nat :=
  [119, 102, 53, 241, 238, 147, 159, 114, 54, 62, 170, 222, 50, 158, 152, 73,
   205, 68, 196, 218, 120, 185, 163, 8, 255, 195, 16, 12, 98, 74, 79, 246,
   162, 187, 167, 188, 189, 38, 53, 233, 137, 245, 186, 46, 126, 96, 10, 30,
   25, 176, 163, 204, 250, 113, 253, 36, 230, 65, 224, 116, 33, 96, 235, 70,
   240]

/-- C1: the claim as stated is FALSE. `keyB` is a fully consistent freshly
generated 520-bit key pair (bit length within the supported range, distinct
primes, `d = e⁻¹ mod (p-1)(q-1)`, consistent CRT fields) and `[0]` is a
plaintext far shorter than `modulus_bytes - 11 = 54`, yet
`public_decrypt(private_encrypt([0]))` fails with the Data error instead of
returning `[0]`: the hardcoded 48/64-byte chunking splits the 65-byte
ciphertext block incorrectly whenever `modulus_bytes ≠ 64`. -/
theorem C1_round_trip_counterexample :
    Nat.Prime pB ∧ Nat.Prime qB ∧ pB ≠ qB
    ∧ keyB.modulus = pB * qB
    ∧ keyB.prime0 = pB ∧ keyB.prime1 = qB ∧ qB < pB
    ∧ keyB.public_exponent * keyB.exponent % ((pB - 1) * (qB - 1)) = 1
    ∧ keyB.prime_exponent0 = keyB.exponent % (pB - 1)
    ∧ keyB.prime_exponent1 = keyB.exponent % (qB - 1)
    ∧ keyB.coefficient * keyB.prime1 % keyB.prime0 = 1
    ∧ 508 ≤ keyB.bits ∧ keyB.bits ≤ 1024
    ∧ [(0 : Nat)].length < (keyB.bits + 7) / 8 - 11
    ∧ keyB.encrypt [0] = Except.ok cB1
    ∧ keyB.public_key.decrypt cB1 = Except.error RSAError.Data
    ∧ (Except.error RSAError.Data : Except RSAError (List Nat))
        ≠ Except.ok [0] := by
  refine ⟨pB_prime, qB_prime, by decide, by decide, by decide, by decide,
    by decide, by decide, by decide, by decide, by decide, by decide,
    by decide, by decide, by decide, by decide, by decide⟩

/-- The separator scan returns the index of the first stopping byte when
the bytes before it all fail the stop test. -/
theorem sepScanGo_stop_at (stop : Nat → Bool) (l1 : List Nat) (b2 : Nat)
    (rest : List Nat) (h1 : ∀ x ∈ l1, stop x = false) (h2 : stop b2 = true) :
    ∀ i acc, sepScanGo stop (l1 ++ b2 :: rest) i acc = i + l1.length := by
  induction l1 with
  | nil =>
    intro i acc
    show sepScanGo stop (b2 :: rest) i acc = _
    rw [sepScanGo, h2]
    simp
  | cons a t ih =>
    intro i acc
    have ha : stop a = false := h1 a (by simp)
    show sepScanGo stop (a :: (t ++ b2 :: rest)) i acc = _
    rw [sepScanGo, ha]
    simp only [Bool.false_eq_true, if_false]
    rw [ih (fun x hx => h1 x (by simp [hx])) (i + 1) i]
    simp
    omega

theorem block_length (t b : Nat) (F m' : List Nat)
    (hF : F.length = 60 - m'.length) (hL : m'.length ≤ 47) :
    (0 :: t :: (F ++ 0 :: b :: m')).length = 64 := by
  simp [hF]
  omega

theorem block_scan (stop : Nat → Bool) (t b : Nat) (F m' : List Nat)
    (hF : F.length = 60 - m'.length) (hL : m'.length ≤ 47)
    (hstopF : ∀ x ∈ F, stop x = false) (hstop0 : stop 0 = true) :
    sepScanGo stop (((0 :: t :: (F ++ 0 :: b :: m')).drop 2).take
      ((0 :: t :: (F ++ 0 :: b :: m')).length - 3)) 2 0 = 62 - m'.length := by
  have hdrop2 : (0 :: t :: (F ++ 0 :: b :: m')).drop 2 = F ++ 0 :: b :: m' := rfl
  rw [hdrop2, block_length t b F m' hF hL]
  have htake : (F ++ 0 :: b :: m').take 61
      = F ++ 0 :: (b :: m').take m'.length := by
    rw [List.take_append_eq_append_take,
      List.take_of_length_le (by omega),
      show 61 - F.length = m'.length + 1 by omega,
      List.take_succ_cons]
  rw [show (64 : Nat) - 3 = 61 from rfl, htake,
    sepScanGo_stop_at stop F 0 ((b :: m').take m'.length) hstopF hstop0 2 0]
  omega

theorem block_getD_sep (t b : Nat) (F m' : List Nat)
    (hF : F.length = 60 - m'.length) (hL : m'.length ≤ 47) :
    (0 :: t :: (F ++ 0 :: b :: m')).getD (62 - m'.length) 0 = 0 := by
  have hB : (0 :: t :: (F ++ 0 :: b :: m'))
      = (0 :: t :: F) ++ (0 :: b :: m') := by simp
  rw [hB, List.getD_append_right _ _ _ _ (by simp; omega)]
  have : 62 - m'.length - (0 :: t :: F).length = 0 := by simp [hF]; omega
  rw [this]
  rfl

theorem block_drop (t b : Nat) (F m' : List Nat)
    (hF : F.length = 60 - m'.length) (hL : m'.length ≤ 47) :
    (0 :: t :: (F ++ 0 :: b :: m')).drop (62 - m'.length + 1) = b :: m' := by
  have hB : (0 :: t :: (F ++ 0 :: b :: m'))
      = (0 :: t :: (F ++ [0])) ++ (b :: m') := by simp
  rw [hB, show 62 - m'.length + 1 = (0 :: t :: (F ++ [0])).length from by
    simp [hF]; omega]
  exact List.drop_left _ _

/-- Public unpadding of a well-formed type-1 block: if the public transform
of `c` yields the padded block `00 01 FF…FF 00 m` (with `m` nonempty, at
most 48 bytes) for a key with 64-byte modulus, public decrypt returns `m`. -/
theorem rsa_public_decrypt_padded (P : RSAPublicKey) (b : Nat) (m' : List Nat)
    (c : List Nat) (hml : (P.bits + 7) / 8 = 64) (hL : m'.length ≤ 47)
    (hclen : c.length ≤ 64)
    (hc : P.rsa_public_block c = Except.ok
      (0 :: 1 :: (List.replicate (60 - m'.length) 255 ++ 0 :: b :: m'))) :
    P.rsa_public_decrypt c = Except.ok (b :: m') := by
  have hF : (List.replicate (60 - m'.length) 255).length = 60 - m'.length := by
    simp
  unfold RSAPublicKey.rsa_public_decrypt
  rw [hml, if_neg (by omega), hc]
  dsimp only
  rw [if_neg (by
    rw [block_length 1 b _ m' hF hL]
    omega)]
  rw [if_neg (by
    intro hcon
    rcases hcon with h | h
    · exact h rfl
    · exact h rfl)]
  rw [block_scan (fun e => e != 255) 1 b _ m' hF hL
    (by intro x hx; rw [List.eq_of_mem_replicate hx]; rfl) rfl]
  rw [if_neg (by
    rw [block_getD_sep 1 b _ m' hF hL]
    intro hcon
    exact hcon rfl)]
  rw [if_neg (by omega)]
  rw [block_drop 1 b _ m' hF hL]

/-- Private unpadding of a well-formed type-2 block: if the CRT transform
of `c` yields the padded block `00 02 (nonzero filler) 00 m` (with `m`
nonempty, at most 48 bytes) for a key with 64-byte modulus, private decrypt
returns `m`. -/
theorem rsa_private_decrypt_padded (K : RSAPrivateKey) (b : Nat)
    (m' F c : List Nat) (hml : (K.bits + 7) / 8 = 64) (hL : m'.length ≤ 47)
    (hF : F.length = 60 - m'.length) (hFnz : ∀ x ∈ F, x ≠ 0)
    (hclen : c.length ≤ 64)
    (hc : K.rsa_private_block c = Except.ok (0 :: 2 :: (F ++ 0 :: b :: m'))) :
    K.rsa_private_decrypt c = Except.ok (b :: m') := by
  unfold RSAPrivateKey.rsa_private_decrypt
  rw [hml, if_neg (by omega), hc]
  dsimp only
  rw [if_neg (by
    rw [block_length 2 b F m' hF hL]
    omega)]
  rw [if_neg (by
    intro hcon
    rcases hcon with h | h
    · exact h rfl
    · exact h rfl)]
  rw [block_scan (fun e => e == 0) 2 b F m' hF hL
    (by
      intro x hx
      have := hFnz x hx
      simp [this]) rfl]
  rw [if_neg (by omega)]
  rw [if_neg (by omega)]
  rw [block_drop 2 b F m' hF hL]

/-- A genuine RSA private exponent (invertible mod `(p-1)(q-1)`) is not a
multiple of `p - 1` or `q - 1` when `2 < q < p`. -/
theorem coprime_exponent_cond (p q e d : Nat) (h2 : 2 < q) (hqp : q < p)
    (hed : e * d % ((p - 1) * (q - 1)) = 1) :
    ¬ (p - 1) ∣ d ∧ ¬ (q - 1) ∣ d := by
  have key : ∀ r : Nat, 2 < r → r - 1 ∣ (p - 1) * (q - 1) → ¬ (r - 1) ∣ d := by
    intro r hr hrphi hdvd
    have h1 : r - 1 ∣ e * d := Dvd.dvd.mul_left hdvd e
    obtain ⟨k, hk⟩ : ∃ k, e * d = (p - 1) * (q - 1) * k + 1 := by
      refine ⟨e * d / ((p - 1) * (q - 1)), ?_⟩
      conv_lhs => rw [← Nat.div_add_mod (e * d) ((p - 1) * (q - 1))]
      rw [hed]
    have h2' : r - 1 ∣ (p - 1) * (q - 1) * k := Dvd.dvd.mul_right hrphi _
    have hone : r - 1 ∣ 1 := by
      have hs := Nat.dvd_sub' h1 h2'
      rw [hk, Nat.add_sub_cancel_left] at hs
      exact hs
    have := Nat.le_of_dvd (by omega) hone
    omega
  exact ⟨key p (by omega) (Dvd.intro _ rfl) , key q h2 (Dvd.intro_left _ rfl)⟩

/-- One 48-byte-or-less chunk round trips through private encrypt then
public decrypt, for a consistent key with 64-byte modulus. -/
theorem private_block_round_trip (K : RSAPrivateKey) (b : Nat) (m' : List Nat)
    (hp : K.prime0.Prime) (hq : K.prime1.Prime)
    (h2q : 2 < K.prime1) (hpq : K.prime1 < K.prime0)
    (hn : K.modulus = K.prime0 * K.prime1)
    (hdp : K.prime_exponent0 = K.exponent % (K.prime0 - 1))
    (hdq : K.prime_exponent1 = K.exponent % (K.prime1 - 1))
    (hqinv : K.coefficient * K.prime1 % K.prime0 = 1)
    (hed : K.public_exponent * K.exponent % ((K.prime0 - 1) * (K.prime1 - 1)) = 1)
    (hml : (K.bits + 7) / 8 = 64)
    (hlo : 2 ^ 504 ≤ K.modulus) (hhi : K.modulus < 2 ^ 512)
    (hL : m'.length ≤ 47) (hmb : ∀ x ∈ b :: m', x < 256) :
    K.rsa_private_encrypt (b :: m')
      = Except.ok (toBE (powMod
          (beVal (0 :: 1 :: (List.replicate (60 - m'.length) 255 ++ 0 :: b :: m')))
          K.exponent K.modulus) 64)
    ∧ K.public_key.rsa_public_decrypt
        (toBE (powMod
          (beVal (0 :: 1 :: (List.replicate (60 - m'.length) 255 ++ 0 :: b :: m')))
          K.exponent K.modulus) 64)
      = Except.ok (b :: m') := by
  have hn0 : 0 < K.modulus := by omega
  have hF : (List.replicate (60 - m'.length) 255).length = 60 - m'.length := by
    simp
  have hblockbytes : ∀ x ∈ (0 :: 1 ::
      (List.replicate (60 - m'.length) 255 ++ 0 :: b :: m')), x < 256 := by
    intro x hx
    rcases hx with _ | ⟨_, hx⟩
    · omega
    rcases hx with _ | ⟨_, hx⟩
    · omega
    rcases List.mem_append.mp hx with hx | hx
    · rw [List.eq_of_mem_replicate hx]; omega
    rcases hx with _ | ⟨_, hx⟩
    · omega
    · exact hmb _ hx
  have hVlt : beVal (0 :: 1 ::
      (List.replicate (60 - m'.length) 255 ++ 0 :: b :: m')) < K.modulus := by
    rw [beVal_cons]
    have hlt := beVal_lt (1 :: (List.replicate (60 - m'.length) 255 ++ 0 :: b :: m'))
      (by
        intro x hx
        exact hblockbytes x (List.mem_cons_of_mem 0 hx))
    have hlen : (1 :: (List.replicate (60 - m'.length) 255 ++ 0 :: b :: m')).length
        = 63 := by
      simp [hF]; omega
    rw [hlen] at hlt
    have h63 : (256 : Nat) ^ 63 = 2 ^ 504 := by norm_num
    omega
  have hcond : K.exponent = 0
      ∨ (¬ (K.prime0 - 1) ∣ K.exponent ∧ ¬ (K.prime1 - 1) ∣ K.exponent) :=
    Or.inr (coprime_exponent_cond K.prime0 K.prime1 K.public_exponent K.exponent
      h2q hpq hed)
  have hpart1 : K.rsa_private_encrypt (b :: m')
      = Except.ok (toBE (powMod
          (beVal (0 :: 1 :: (List.replicate (60 - m'.length) 255 ++ 0 :: b :: m')))
          K.exponent K.modulus) 64) := by
    have hu : K.rsa_private_encrypt (b :: m')
        = if (K.bits + 7) / 8 < (b :: m').length + 11 then Except.error RSAError.Len
          else K.rsa_private_block (0 :: 1 ::
            (List.replicate ((K.bits + 7) / 8 - (b :: m').length - 3) 255
              ++ 0 :: b :: m')) := rfl
    rw [hu, hml, if_neg (by simp; omega),
      show (64 : Nat) - (b :: m').length - 3 = 60 - m'.length from by simp; omega,
      rsa_private_block_spec K _ hp hq hpq hn hdp hdq hqinv hcond hVlt, hml]
  refine ⟨hpart1, ?_⟩
  have hpow_lt : powMod (beVal (0 :: 1 ::
      (List.replicate (60 - m'.length) 255 ++ 0 :: b :: m')))
      K.exponent K.modulus < K.modulus := by
    rw [powMod_correct]
    exact Nat.mod_lt _ hn0
  have hbeVal_c : beVal (toBE (powMod (beVal (0 :: 1 ::
        (List.replicate (60 - m'.length) 255 ++ 0 :: b :: m')))
        K.exponent K.modulus) 64)
      = powMod (beVal (0 :: 1 ::
        (List.replicate (60 - m'.length) 255 ++ 0 :: b :: m')))
        K.exponent K.modulus := by
    rw [beVal_toBE]
    refine Nat.mod_eq_of_lt ?_
    have h512 : (256 : Nat) ^ 64 = 2 ^ 512 := by norm_num
    omega
  have hpub : K.public_key.rsa_public_block
      (toBE (powMod (beVal (0 :: 1 ::
        (List.replicate (60 - m'.length) 255 ++ 0 :: b :: m')))
        K.exponent K.modulus) 64)
      = Except.ok (0 :: 1 ::
        (List.replicate (60 - m'.length) 255 ++ 0 :: b :: m')) := by
    have hu2 : K.public_key.rsa_public_block
        (toBE (powMod (beVal (0 :: 1 ::
          (List.replicate (60 - m'.length) 255 ++ 0 :: b :: m')))
          K.exponent K.modulus) 64)
        = if K.modulus ≤ beVal (toBE (powMod (beVal (0 :: 1 ::
            (List.replicate (60 - m'.length) 255 ++ 0 :: b :: m')))
            K.exponent K.modulus) 64)
          then Except.error RSAError.Data
          else Except.ok (toBE (powMod (beVal (toBE (powMod (beVal (0 :: 1 ::
              (List.replicate (60 - m'.length) 255 ++ 0 :: b :: m')))
              K.exponent K.modulus) 64))
            K.public_exponent K.modulus) ((K.bits + 7) / 8)) := rfl
    rw [hu2, hbeVal_c, if_neg (by omega), hml]
    have hexp : powMod (powMod (beVal (0 :: 1 ::
          (List.replicate (60 - m'.length) 255 ++ 0 :: b :: m')))
          K.exponent K.modulus) K.public_exponent K.modulus
        = beVal (0 :: 1 ::
          (List.replicate (60 - m'.length) 255 ++ 0 :: b :: m')) := by
      rw [powMod_correct, powMod_correct, ← Nat.pow_mod, ← pow_mul,
        Nat.mul_comm K.exponent K.public_exponent, hn]
      exact rsa_identity K.prime0 K.prime1
        (K.public_exponent * K.exponent) _ hp hq (by omega)
        hed (by rw [← hn]; exact hVlt)
    rw [hexp]
    have hblk64 : (0 :: 1 ::
        (List.replicate (60 - m'.length) 255 ++ 0 :: b :: m')).length = 64 :=
      block_length 1 b _ m' hF hL
    conv_lhs => rw [← hblk64]
    rw [toBE_beVal _ hblockbytes]
  exact rsa_public_decrypt_padded K.public_key b m' _ hml hL
    (by rw [toBE_length]) hpub

theorem concatResults_cons (f : List Nat → Except RSAError (List Nat))
    (ch : List Nat) (rest : List (List Nat)) (out restOut : List Nat)
    (h1 : f ch = Except.ok out) (h2 : concatResults f rest = Except.ok restOut) :
    concatResults f (ch :: rest) = Except.ok (out ++ restOut) := by
  show (match f ch with
    | Except.error e => Except.error e
    | Except.ok out =>
      match concatResults f rest with
      | Except.error e => Except.error e
      | Except.ok restOut => Except.ok (out ++ restOut)) = _
  rw [h1]
  show (match concatResults f rest with
    | Except.error e => Except.error e
    | Except.ok restOut => Except.ok (out ++ restOut)) = _
  rw [h2]

theorem chunks_of_length_eq {α : Type} (c : Nat) (l : List α) (hc : 0 < c)
    (hl : l.length = c) : chunks c l = [l] := by
  have hne : l ≠ [] := by
    intro h
    subst h
    simp at hl
    omega
  rw [chunks_cons c hc l hne, List.take_of_length_le (by omega),
    List.drop_eq_nil_of_le (by omega)]
  rfl

/-- Direction 1 of the round trip: multi-block private encrypt, then
multi-block public decrypt, recovers any plaintext of valid bytes, for a
consistent key with 64-byte modulus. -/
theorem encrypt_then_decrypt_ok (K : RSAPrivateKey)
    (hp : K.prime0.Prime) (hq : K.prime1.Prime)
    (h2q : 2 < K.prime1) (hpq : K.prime1 < K.prime0)
    (hn : K.modulus = K.prime0 * K.prime1)
    (hdp : K.prime_exponent0 = K.exponent % (K.prime0 - 1))
    (hdq : K.prime_exponent1 = K.exponent % (K.prime1 - 1))
    (hqinv : K.coefficient * K.prime1 % K.prime0 = 1)
    (hed : K.public_exponent * K.exponent % ((K.prime0 - 1) * (K.prime1 - 1)) = 1)
    (hml : (K.bits + 7) / 8 = 64)
    (hlo : 2 ^ 504 ≤ K.modulus) (hhi : K.modulus < 2 ^ 512)
    (m : List Nat) (hmb : ∀ x ∈ m, x < 256) :
    ∃ c, K.encrypt m = Except.ok c ∧ 64 ∣ c.length
      ∧ K.public_key.decrypt c = Except.ok m := by
  have H : ∀ n (m : List Nat), m.length = n → (∀ x ∈ m, x < 256) →
      ∃ c, K.encrypt m = Except.ok c ∧ 64 ∣ c.length
        ∧ K.public_key.decrypt c = Except.ok m := by
    intro n
    induction n using Nat.strong_induction_on with
    | _ n ih =>
      intro m hlen hmb
      match m with
      | [] => exact ⟨[], rfl, ⟨0, rfl⟩, rfl⟩
      | b :: m'' =>
        have hL : (m''.take 47).length ≤ 47 := by
          simp
        have hchunkb : ∀ x ∈ b :: m''.take 47, x < 256 := by
          intro x hx
          rcases hx with _ | ⟨_, hx⟩
          · exact hmb b (by simp)
          · exact hmb x (List.mem_cons_of_mem b (List.take_subset 47 m'' hx))
        obtain ⟨hpe, hpd⟩ := private_block_round_trip K b (m''.take 47)
          hp hq h2q hpq hn hdp hdq hqinv hed hml hlo hhi hL hchunkb
        obtain ⟨crest, hce, ⟨t, ht⟩, hcd⟩ := ih (m''.drop 47).length
          (by simp at hlen ⊢; omega) (m''.drop 47) rfl
          (fun x hx => hmb x (List.mem_cons_of_mem b (List.drop_subset 47 m'' hx)))
        have hchunks : chunks 48 (b :: m'')
            = (b :: m''.take 47) :: chunks 48 (m''.drop 47) := by
          rw [chunks_cons 48 (by omega) _ (by simp), List.take_succ_cons]
          rfl
        have hcblen : (toBE (powMod
            (beVal (0 :: 1 :: (List.replicate (60 - (m''.take 47).length) 255
              ++ 0 :: b :: m''.take 47)))
            K.exponent K.modulus) 64).length = 64 := toBE_length _ _
        refine ⟨toBE (powMod
            (beVal (0 :: 1 :: (List.replicate (60 - (m''.take 47).length) 255
              ++ 0 :: b :: m''.take 47)))
            K.exponent K.modulus) 64 ++ crest, ?_, ?_, ?_⟩
        · show concatResults K.rsa_private_encrypt (chunks 48 (b :: m'')) = _
          rw [hchunks]
          exact concatResults_cons _ _ _ _ _ hpe hce
        · refine ⟨t + 1, ?_⟩
          rw [List.length_append, hcblen, ht]
          ring
        · show concatResults K.public_key.rsa_public_decrypt
            (chunks 64 (toBE (powMod
              (beVal (0 :: 1 :: (List.replicate (60 - (m''.take 47).length) 255
                ++ 0 :: b :: m''.take 47)))
              K.exponent K.modulus) 64 ++ crest)) = _
          rw [chunks_append 64 (by omega) _ crest (by rw [hcblen]),
            chunks_of_length_eq 64 _ (by omega) hcblen]
          have hstep := concatResults_cons K.public_key.rsa_public_decrypt
            (toBE (powMod
              (beVal (0 :: 1 :: (List.replicate (60 - (m''.take 47).length) 255
                ++ 0 :: b :: m''.take 47)))
              K.exponent K.modulus) 64) (chunks 64 crest)
            (b :: m''.take 47) (m''.drop 47) hpd hcd
          rw [List.singleton_append, hstep, List.cons_append,
            List.take_append_drop]
  exact H m.length m rfl hmb

/-- A successful draw of the nonzero-filler loop yields a genuine nonzero
byte and preserves PRNG well-formedness. -/
theorem getNonzeroByte_spec (h : List Nat → List Nat) (hg : HashGood h) :
    ∀ (F : Nat) (rs : RandomStruct) (byte : Nat) (rs' : RandomStruct),
    rs.WF → rs.bytes_needed = 0 →
    getNonzeroByte h F rs = some (Except.ok (byte, rs')) →
    byte ≠ 0 ∧ byte < 256 ∧ rs'.WF ∧ rs'.bytes_needed = 0 := by
  intro F
  induction F with
  | zero =>
    intro rs byte rs' _ _ hcon
    simp [getNonzeroByte] at hcon
  | succ F ih =>
    intro rs byte rs' hwf hbn heq
    obtain ⟨out, rs1, hgen, hlen1, hob, hwf1, hbn1⟩ :=
      generate_bytes_spec h hg rs 1 hwf hbn
    rw [getNonzeroByte, hgen] at heq
    dsimp only at heq
    obtain ⟨x, hx⟩ : ∃ x, out = [x] := by
      match out, hlen1 with
      | [x], _ => exact ⟨x, rfl⟩
    subst hx
    have hxout : x < 256 := hob x (by simp)
    by_cases hx0 : x ≠ 0
    · rw [if_pos (by simpa using hx0)] at heq
      have hp := Except.ok.inj (Option.some.inj heq)
      have hb : x = byte := by
        have := congrArg Prod.fst hp
        simpa using this
      have hr : rs1 = rs' := congrArg Prod.snd hp
      subst hb
      subst hr
      exact ⟨hx0, hxout, hwf1, hbn1⟩
    · rw [if_neg (by simpa using hx0)] at heq
      exact ih rs1 byte rs' hwf1 hbn1 heq

/-- A successful run of the filler loop yields exactly `count` nonzero
genuine bytes and preserves PRNG well-formedness. -/
theorem genFillers_spec (h : List Nat → List Nat) (hg : HashGood h) (F : Nat) :
    ∀ (count : Nat) (rs : RandomStruct) (fillers : List Nat) (rs' : RandomStruct),
    rs.WF → rs.bytes_needed = 0 →
    genFillers h F count rs = some (Except.ok (fillers, rs')) →
    fillers.length = count ∧ (∀ x ∈ fillers, x ≠ 0 ∧ x < 256)
      ∧ rs'.WF ∧ rs'.bytes_needed = 0 := by
  intro count
  induction count with
  | zero =>
    intro rs fillers rs' hwf hbn heq
    rw [genFillers] at heq
    have hp := Except.ok.inj (Option.some.inj heq)
    have hf : fillers = [] := (congrArg Prod.fst hp).symm
    have hr : rs = rs' := congrArg Prod.snd hp
    subst hf
    subst hr
    refine ⟨rfl, ?_, hwf, hbn⟩
    intro x hx
    cases hx
  | succ count ih =>
    intro rs fillers rs' hwf hbn heq
    rw [genFillers] at heq
    cases hnz : getNonzeroByte h F rs with
    | none =>
      rw [hnz] at heq
      simp at heq
    | some r =>
      cases r with
      | error e =>
        rw [hnz] at heq
        simp at heq
      | ok pr =>
        rw [hnz] at heq
        dsimp only at heq
        obtain ⟨hb0, hb256, hwf1, hbn1⟩ :=
          getNonzeroByte_spec h hg F rs pr.1 pr.2 hwf hbn (by rw [hnz])
        cases hrest : genFillers h F count pr.2 with
        | none =>
          rw [hrest] at heq
          simp at heq
        | some r2 =>
          cases r2 with
          | error e =>
            rw [hrest] at heq
            simp at heq
          | ok pr2 =>
            rw [hrest] at heq
            dsimp only at heq
            obtain ⟨hflen, hfb, hwf2, hbn2⟩ :=
              ih pr.2 pr2.1 pr2.2 hwf1 hbn1 (by rw [hrest])
            have hp := Except.ok.inj (Option.some.inj heq)
            have hf : pr.1 :: pr2.1 = fillers := congrArg Prod.fst hp
            have hr : pr2.2 = rs' := congrArg Prod.snd hp
            subst hr
            rw [← hf]
            refine ⟨by simp [hflen], ?_, hwf2, hbn2⟩
            intro x hx
            rcases hx with _ | ⟨_, hx⟩
            · exact ⟨hb0, hb256⟩
            · exact hfb x hx

/-- The value of a padded block (leading zero byte, genuine bytes) is below
any modulus of at least 505 bits. -/
theorem blockVal_lt (n t b : Nat) (F m' : List Nat) (ht : t < 256)
    (hFb : ∀ x ∈ F, x < 256) (hmb : ∀ x ∈ b :: m', x < 256)
    (hFlen : F.length = 60 - m'.length) (hL : m'.length ≤ 47)
    (hlo : 2 ^ 504 ≤ n) :
    beVal (0 :: t :: (F ++ 0 :: b :: m')) < n := by
  rw [beVal_cons]
  have hbytes : ∀ x ∈ t :: (F ++ 0 :: b :: m'), x < 256 := by
    intro x hx
    rcases hx with _ | ⟨_, hx⟩
    · exact ht
    rcases List.mem_append.mp hx with hx | hx
    · exact hFb x hx
    rcases hx with _ | ⟨_, hx⟩
    · omega
    · exact hmb _ hx
  have hlt := beVal_lt (t :: (F ++ 0 :: b :: m')) hbytes
  have hlen : (t :: (F ++ 0 :: b :: m')).length = 63 := by
    simp [hFlen]; omega
  rw [hlen] at hlt
  have h63 : (256 : Nat) ^ 63 = 2 ^ 504 := by norm_num
  omega

/-- One successful public-encrypt block (type-2 padding with random
nonzero filler) private-decrypts back to the chunk, for a consistent key
with 64-byte modulus; the PRNG stays well-formed. -/
theorem public_encrypt_block_round (K : RSAPrivateKey)
    (hp : K.prime0.Prime) (hq : K.prime1.Prime)
    (h2q : 2 < K.prime1) (hpq : K.prime1 < K.prime0)
    (hn : K.modulus = K.prime0 * K.prime1)
    (hdp : K.prime_exponent0 = K.exponent % (K.prime0 - 1))
    (hdq : K.prime_exponent1 = K.exponent % (K.prime1 - 1))
    (hqinv : K.coefficient * K.prime1 % K.prime0 = 1)
    (hed : K.public_exponent * K.exponent % ((K.prime0 - 1) * (K.prime1 - 1)) = 1)
    (hml : (K.bits + 7) / 8 = 64)
    (hlo : 2 ^ 504 ≤ K.modulus) (hhi : K.modulus < 2 ^ 512)
    (h : List Nat → List Nat) (hg : HashGood h) (F : Nat)
    (b : Nat) (m' : List Nat) (hL : m'.length ≤ 47)
    (hmb : ∀ x ∈ b :: m', x < 256)
    (rs : RandomStruct) (hwf : rs.WF) (hbn : rs.bytes_needed = 0)
    (c : List Nat) (rs' : RandomStruct)
    (henc : K.public_key.rsa_public_encrypt h F (b :: m') rs
      = some (Except.ok (c, rs'))) :
    K.rsa_private_decrypt c = Except.ok (b :: m')
      ∧ c.length = 64 ∧ rs'.WF ∧ rs'.bytes_needed = 0 := by
  have hn0 : 0 < K.modulus := by omega
  have hu : K.public_key.rsa_public_encrypt h F (b :: m') rs
      = (if (K.bits + 7) / 8 < (b :: m').length + 11
        then some (Except.error RSAError.Len)
        else match genFillers h F ((K.bits + 7) / 8 - (b :: m').length - 3) rs with
        | none => none
        | some (Except.error e) => some (Except.error e)
        | some (Except.ok (fillers, rs1)) =>
          match K.public_key.rsa_public_block (0 :: 2 :: (fillers ++ 0 :: b :: m')) with
          | Except.error e => some (Except.error e)
          | Except.ok cc => some (Except.ok (cc, rs1))) := rfl
  rw [hu, hml, if_neg (by simp; omega),
    show (64 : Nat) - (b :: m').length - 3 = 60 - m'.length from by simp; omega]
    at henc
  cases hfil : genFillers h F (60 - m'.length) rs with
  | none =>
    rw [hfil] at henc
    simp at henc
  | some r =>
    cases r with
    | error e =>
      rw [hfil] at henc
      simp at henc
    | ok pr =>
      rw [hfil] at henc
      dsimp only at henc
      obtain ⟨hflen, hfb, hwf1, hbn1⟩ :=
        genFillers_spec h hg F (60 - m'.length) rs pr.1 pr.2 hwf hbn (by rw [hfil])
      have hVlt : beVal (0 :: 2 :: (pr.1 ++ 0 :: b :: m')) < K.modulus :=
        blockVal_lt K.modulus 2 b pr.1 m' (by omega)
          (fun x hx => (hfb x hx).2) hmb hflen hL hlo
      have hblockbytes : ∀ x ∈ (0 :: 2 :: (pr.1 ++ 0 :: b :: m')), x < 256 := by
        intro x hx
        rcases hx with _ | ⟨_, hx⟩
        · omega
        rcases hx with _ | ⟨_, hx⟩
        · omega
        rcases List.mem_append.mp hx with hx | hx
        · exact (hfb x hx).2
        rcases hx with _ | ⟨_, hx⟩
        · omega
        · exact hmb _ hx
      have hpb : K.public_key.rsa_public_block (0 :: 2 :: (pr.1 ++ 0 :: b :: m'))
          = Except.ok (toBE (powMod (beVal (0 :: 2 :: (pr.1 ++ 0 :: b :: m')))
              K.public_exponent K.modulus) 64) := by
        have hu2 : K.public_key.rsa_public_block (0 :: 2 :: (pr.1 ++ 0 :: b :: m'))
            = if K.modulus ≤ beVal (0 :: 2 :: (pr.1 ++ 0 :: b :: m'))
              then Except.error RSAError.Data
              else Except.ok (toBE (powMod (beVal (0 :: 2 :: (pr.1 ++ 0 :: b :: m')))
                K.public_exponent K.modulus) ((K.bits + 7) / 8)) := rfl
        rw [hu2, if_neg (by omega), hml]
      rw [hpb] at henc
      dsimp only at henc
      have hpair := Except.ok.inj (Option.some.inj henc)
      rw [Prod.mk.injEq] at hpair
      obtain ⟨hc, hrs⟩ := hpair
      subst hrs
      rw [← hc]
      have hpow_lt : powMod (beVal (0 :: 2 :: (pr.1 ++ 0 :: b :: m')))
          K.public_exponent K.modulus < K.modulus := by
        rw [powMod_correct]
        exact Nat.mod_lt _ hn0
      have hbeVal_c : beVal (toBE (powMod (beVal (0 :: 2 :: (pr.1 ++ 0 :: b :: m')))
          K.public_exponent K.modulus) 64)
          = powMod (beVal (0 :: 2 :: (pr.1 ++ 0 :: b :: m')))
            K.public_exponent K.modulus := by
        rw [beVal_toBE]
        refine Nat.mod_eq_of_lt ?_
        have h512 : (256 : Nat) ^ 64 = 2 ^ 512 := by norm_num
        omega
      have hcond : K.exponent = 0
          ∨ (¬ (K.prime0 - 1) ∣ K.exponent ∧ ¬ (K.prime1 - 1) ∣ K.exponent) :=
        Or.inr (coprime_exponent_cond K.prime0 K.prime1 K.public_exponent
          K.exponent h2q hpq hed)
      have hpriv : K.rsa_private_block (toBE (powMod
          (beVal (0 :: 2 :: (pr.1 ++ 0 :: b :: m')))
          K.public_exponent K.modulus) 64)
          = Except.ok (0 :: 2 :: (pr.1 ++ 0 :: b :: m')) := by
        rw [rsa_private_block_spec K _ hp hq hpq hn hdp hdq hqinv hcond
          (by rw [hbeVal_c]; exact hpow_lt), hml, hbeVal_c]
        have hexp : powMod (powMod (beVal (0 :: 2 :: (pr.1 ++ 0 :: b :: m')))
            K.public_exponent K.modulus) K.exponent K.modulus
            = beVal (0 :: 2 :: (pr.1 ++ 0 :: b :: m')) := by
          rw [powMod_correct, powMod_correct, ← Nat.pow_mod, ← pow_mul, hn]
          exact rsa_identity K.prime0 K.prime1
            (K.public_exponent * K.exponent) _ hp hq (by omega)
            hed (by rw [← hn]; exact hVlt)
        rw [hexp]
        have hblk64 : (0 :: 2 :: (pr.1 ++ 0 :: b :: m')).length = 64 :=
          block_length 2 b pr.1 m' hflen hL
        conv_lhs => rw [← hblk64]
        rw [toBE_beVal _ hblockbytes]
      refine ⟨?_, toBE_length _ _, hwf1, hbn1⟩
      exact rsa_private_decrypt_padded K b m' pr.1 _ hml hL hflen
        (fun x hx => (hfb x hx).1) (by rw [toBE_length]) hpriv

/-- Direction 2 of the round trip: whenever multi-block public encrypt
succeeds, multi-block private decrypt recovers the plaintext, for a
consistent key with 64-byte modulus. -/
theorem pub_encrypt_then_decrypt_ok (K : RSAPrivateKey)
    (hp : K.prime0.Prime) (hq : K.prime1.Prime)
    (h2q : 2 < K.prime1) (hpq : K.prime1 < K.prime0)
    (hn : K.modulus = K.prime0 * K.prime1)
    (hdp : K.prime_exponent0 = K.exponent % (K.prime0 - 1))
    (hdq : K.prime_exponent1 = K.exponent % (K.prime1 - 1))
    (hqinv : K.coefficient * K.prime1 % K.prime0 = 1)
    (hed : K.public_exponent * K.exponent % ((K.prime0 - 1) * (K.prime1 - 1)) = 1)
    (hml : (K.bits + 7) / 8 = 64)
    (hlo : 2 ^ 504 ≤ K.modulus) (hhi : K.modulus < 2 ^ 512)
    (h : List Nat → List Nat) (hg : HashGood h) (F : Nat) :
    ∀ (n : Nat) (m : List Nat), m.length = n → (∀ x ∈ m, x < 256) →
    ∀ (rs : RandomStruct) (c : List Nat) (rs' : RandomStruct),
    rs.WF → rs.bytes_needed = 0 →
    K.public_key.encrypt h F m rs = some (Except.ok (c, rs')) →
    K.decrypt c = Except.ok m ∧ 64 ∣ c.length
      ∧ rs'.WF ∧ rs'.bytes_needed = 0 := by
  intro n
  induction n using Nat.strong_induction_on with
  | _ n ih =>
    intro m hlen hmb rs c rs' hwf hbn henc
    match m with
    | [] =>
      have hpair := Except.ok.inj (Option.some.inj henc)
      rw [Prod.mk.injEq] at hpair
      obtain ⟨hc, hrs⟩ := hpair
      subst hrs
      rw [← hc]
      exact ⟨rfl, ⟨0, rfl⟩, hwf, hbn⟩
    | b :: m'' =>
      have hL : (m''.take 47).length ≤ 47 := by simp
      have hchunkb : ∀ x ∈ b :: m''.take 47, x < 256 := by
        intro x hx
        rcases hx with _ | ⟨_, hx⟩
        · exact hmb b (by simp)
        · exact hmb x (List.mem_cons_of_mem b (List.take_subset 47 m'' hx))
      have hchunks : chunks 48 (b :: m'')
          = (b :: m''.take 47) :: chunks 48 (m''.drop 47) := by
        rw [chunks_cons 48 (by omega) _ (by simp), List.take_succ_cons]
        rfl
      have henc2 : encryptPubGo K.public_key h F
          ((b :: m''.take 47) :: chunks 48 (m''.drop 47)) rs
          = some (Except.ok (c, rs')) := by
        rw [← hchunks]
        exact henc
      rw [encryptPubGo.eq_def] at henc2
      dsimp only at henc2
      cases henc1 : K.public_key.rsa_public_encrypt h F (b :: m''.take 47) rs with
      | none =>
        rw [henc1] at henc2
        simp at henc2
      | some r =>
        cases r with
        | error e =>
          rw [henc1] at henc2
          simp at henc2
        | ok pr =>
          rw [henc1] at henc2
          dsimp only at henc2
          obtain ⟨hdec1, hclen1, hwf1, hbn1⟩ :=
            public_encrypt_block_round K hp hq h2q hpq hn hdp hdq hqinv hed
              hml hlo hhi h hg F b (m''.take 47) hL hchunkb rs hwf hbn
              pr.1 pr.2 (by rw [henc1])
          cases hrest : encryptPubGo K.public_key h F
              (chunks 48 (m''.drop 47)) pr.2 with
          | none =>
            rw [hrest] at henc2
            simp at henc2
          | some r2 =>
            cases r2 with
            | error e =>
              rw [hrest] at henc2
              simp at henc2
            | ok pr2 =>
              rw [hrest] at henc2
              dsimp only at henc2
              obtain ⟨hdecrest, ⟨t, ht⟩, hwf2, hbn2⟩ :=
                ih (m''.drop 47).length (by simp at hlen ⊢; omega)
                  (m''.drop 47) rfl
                  (fun x hx => hmb x
                    (List.mem_cons_of_mem b (List.drop_subset 47 m'' hx)))
                  pr.2 pr2.1 pr2.2 hwf1 hbn1 (by
                    show encryptPubGo K.public_key h F
                      (chunks 48 (m''.drop 47)) pr.2 = _
                    rw [hrest])
              have hpair := Except.ok.inj (Option.some.inj henc2)
              rw [Prod.mk.injEq] at hpair
              obtain ⟨hc, hrs⟩ := hpair
              subst hrs
              rw [← hc]
              refine ⟨?_, ⟨t + 1, by rw [List.length_append, hclen1, ht]; ring⟩,
                hwf2, hbn2⟩
              show concatResults K.rsa_private_decrypt
                (chunks 64 (pr.1 ++ pr2.1)) = _
              rw [chunks_append 64 (by omega) _ pr2.1 (by rw [hclen1]),
                chunks_of_length_eq 64 _ (by omega) hclen1]
              have hstep := concatResults_cons K.rsa_private_decrypt
                pr.1 (chunks 64 pr2.1) (b :: m''.take 47) (m''.drop 47)
                hdec1 hdecrest
              rw [List.singleton_append, hstep, List.cons_append,
                List.take_append_drop]

/-- C1 (amended): for every RSA key pair whose modulus occupies exactly 64
bytes (bit length 505–512, within the supported range) with `p > q > 2`
distinct primes, `n = p*q`, `e*d ≡ 1 mod (p-1)(q-1)` and consistent CRT
fields, and every plaintext `m` of genuine bytes shorter than
`modulus_bytes - 11 = 53`: `public_decrypt(private_encrypt(m)) = m`
unconditionally, and `private_decrypt(public_encrypt(m)) = m` whenever the
randomized public encryption succeeds (for any 16-byte hash and any seeded
well-formed PRNG state).  For other moduli in the claimed supported range
the hardcoded 48/64-byte chunking breaks the round trip. -/
theorem C1_amended_round_trip (K : RSAPrivateKey)
    (hp : K.prime0.Prime) (hq : K.prime1.Prime)
    (h2q : 2 < K.prime1) (hpq : K.prime1 < K.prime0)
    (hn : K.modulus = K.prime0 * K.prime1)
    (hdp : K.prime_exponent0 = K.exponent % (K.prime0 - 1))
    (hdq : K.prime_exponent1 = K.exponent % (K.prime1 - 1))
    (hqinv : K.coefficient * K.prime1 % K.prime0 = 1)
    (hed : K.public_exponent * K.exponent % ((K.prime0 - 1) * (K.prime1 - 1)) = 1)
    (hml : (K.bits + 7) / 8 = 64)
    (hlo : 2 ^ 504 ≤ K.modulus) (hhi : K.modulus < 2 ^ 512)
    (m : List Nat) (hmb : ∀ x ∈ m, x < 256) (_hmlen : m.length < 53) :
    (∃ c, K.encrypt m = Except.ok c ∧ K.public_key.decrypt c = Except.ok m)
    ∧ ∀ (h : List Nat → List Nat) (F : Nat) (rs : RandomStruct)
        (c : List Nat) (rs' : RandomStruct),
      HashGood h → rs.WF → rs.bytes_needed = 0 →
      K.public_key.encrypt h F m rs = some (Except.ok (c, rs')) →
      K.decrypt c = Except.ok m := by
  constructor
  · obtain ⟨c, h1, _, h2⟩ := encrypt_then_decrypt_ok K hp hq h2q hpq hn hdp
      hdq hqinv hed hml hlo hhi m hmb
    exact ⟨c, h1, h2⟩
  · intro h F rs c rs' hg hwf hbn henc
    exact (pub_encrypt_then_decrypt_ok K hp hq h2q hpq hn hdp hdq hqinv hed
      hml hlo hhi h hg F m.length m rfl hmb rs c rs' hwf hbn henc).1

/-- `keyA`'s private multi-block encryption of `[65, 66, 67]`. -/
def cA3 : List Nat :=
  [242, 225, 198, 227, 34, 163, 224, 141, 250, 221, 3, 59, 132, 168, 246, 118,
   243, 97, 205, 165, 195, 155, 95, 52, 202, 94, 146, 251, 107, 18, 119, 20,
   147, 47, 153, 27, 208, 192, 141, 141, 178, 164, 234, 202, 30, 219, 232, 226,
   223, 99, 95, 255, 206, 215, 193, 254, 31, 206, 110, 220, 192, 120, 177, 220]

/-- `keyA`'s public multi-block encryption of `[65, 66, 67]` with
`hashOnes` filler from `rsW0`. -/
def pubC1w : List Nat :=
  [213, 101, 38, 146, 200, 141, 99, 184, 189, 180, 164, 214, 184, 206, 75, 131,
   82, 76, 50, 196, 233, 244, 83, 243, 33, 204, 159, 66, 111, 27, 200, 200,
   203, 252, 179, 159, 62, 84, 87, 91, 211, 83, 213, 145, 155, 120, 186, 150,
   143, 74, 104, 209, 165, 103, 203, 241, 251, 174, 208, 193, 165, 151, 147, 223]

/-- The PRNG state after drawing the 58 filler bytes for `pubC1w`. -/
def rsC1w : RandomStruct := ⟨0, List.replicate 15 1 ++ [4], 6, List.replicate 16 1⟩

instance RandomStruct.WF.decidable (rs : RandomStruct) : Decidable rs.WF :=
  inferInstanceAs (Decidable (rs.output.length = 16
    ∧ (∀ x ∈ rs.output, x < 256) ∧ rs.output_available ≤ 16))

/-- Witness for C1 (amended) at `keyA` with plaintext `[65, 66, 67]`:
both round-trip directions recover the plaintext. -/
theorem C1_amended_round_trip_witness :
    keyA.public_key.decrypt cA3 = Except.ok [65, 66, 67]
    ∧ keyA.decrypt pubC1w = Except.ok [65, 66, 67] := by
  have H := C1_amended_round_trip keyA
    pA_prime qA_prime (by decide) (by decide) (by decide) (by decide)
    (by decide) (by decide) (by decide) (by decide) (by decide) (by decide)
    [65, 66, 67] (by decide) (by decide)
  constructor
  · obtain ⟨c, h1, h2⟩ := H.1
    have he : keyA.encrypt [65, 66, 67] = Except.ok cA3 := by decide
    have hc : c = cA3 := Except.ok.inj (h1.symm.trans he)
    rw [← hc]
    exact h2
  · refine H.2 hashOnes 1 rsW0 pubC1w rsC1w ?_ (by decide) (by decide) (by decide)
    intro bs
    refine ⟨rfl, ?_⟩
    intro x hx
    have := List.eq_of_mem_replicate hx
    omega
